import Mathlib

/-!
Verification of the graph-go repository: a shallow embedding of the graph
core ("graph" package) and the analysis algorithms ("algo" package), with
theorems settling the specification claims.

Modelling conventions:
* Go `map[K]V` is embedded as an association list `List (K × V)` carrying the
  iteration order; well-formed Go maps have pairwise-distinct keys, which
  appears as a hypothesis where a proof needs it.  A `nil` Go map is
  distinguished from an empty one by wrapping the stores that the source
  checks for `nil` (`Graph.Nodes`, `Graph.Edges`) in `Option`.
* Go `uint64` keys (`TKey`) become `Nat`; Go `int64` weights (`TWeight`)
  become `Int`.  No claim exercises `uint64` wrap-around on keys.  Where the
  source computes `^TWeight(0)` (bitwise complement of zero on a signed
  64-bit integer, i.e. `-1`) the embedding writes `-1` directly.
* Loops without a structural bound are given explicit fuel, always chosen
  large enough that the fuel-exhaustion branch is unreachable on the runs the
  Go code terminates on.
-/

namespace GraphGo

abbrev TKey := Nat
abbrev TWeight := Int

/-- graph/node.go: `Node` struct. -/
structure Node where
  key : TKey
  label : String
deriving DecidableEq

/-- graph/edge.go: `Edge` struct. -/
structure Edge where
  key : TKey
  source : TKey
  destination : TKey
  weight : TWeight
  label : String
deriving DecidableEq

/-- graph/graph.go: `TOptions` struct. -/
structure TOptions where
  isMulti : Bool
  isDirected : Bool
deriving DecidableEq

/-- graph/graph.go: `Graph` struct.  `nodes` and `edges` are `Option` to keep
Go's `nil` map distinct from an empty map (the source checks `gr.Nodes == nil`
and `gr.Edges == nil` explicitly); the adjacency map is never nil-checked by
the source and reading a nil Go map behaves like reading an empty one, so it
is embedded as a plain list. -/
structure Graph where
  nodes : Option (List (TKey × Node))
  edges : Option (List (TKey × Edge))
  adjacencyMap : List (TKey × List TKey)
  options : TOptions
deriving DecidableEq

/-- Go map read: first entry with the key (Go maps hold at most one). -/
def mapLookup (m : List (TKey × α)) (k : TKey) : Option α :=
  match m with
  | [] => none
  | (k', v) :: rest => if k' = k then some v else mapLookup rest k

/-- Go map read with the zero value as default (Go returns the zero value for
a missing key). -/
def lookupD (m : List (TKey × α)) (k : TKey) (d : α) : α :=
  (mapLookup m k).getD d

/-- Go map assignment `m[k] = v`: overwrite an existing entry or add one. -/
def mapInsert (m : List (TKey × α)) (k : TKey) (v : α) : List (TKey × α) :=
  match m with
  | [] => [(k, v)]
  | (k', v') :: rest =>
    if k' = k then (k, v) :: rest else (k', v') :: mapInsert rest k v

/-- Go `delete(m, k)`. -/
def mapDelete (m : List (TKey × α)) (k : TKey) : List (TKey × α) :=
  m.filter (fun p => p.1 != k)

/-- The node store as a list (empty when the Go map is nil). -/
def Graph.nodesL (g : Graph) : List (TKey × Node) := g.nodes.getD []

/-- The edge store as a list (empty when the Go map is nil). -/
def Graph.edgesL (g : Graph) : List (TKey × Edge) := g.edges.getD []

/-- `for key := range gr.Nodes` (keys in iteration order). -/
def Graph.nodeKeys (g : Graph) : List TKey := g.nodesL.map Prod.fst

/-- `for _, edge := range gr.Edges` (values in iteration order). -/
def Graph.edgeVals (g : Graph) : List Edge := g.edgesL.map Prod.snd

/-- graph/errors.go is not among the provided sources; the error kinds are
modelled from the spec's error-handling section (UninitializedGraph,
NodeNotFound, DuplicateNodeKey, EdgeNotFound, DuplicateEdgeKey,
DuplicateEdgeRejected, InvalidEdgeEndpoint, UnsupportedNegativeWeight,
InvalidFlowEndpoints), matching the `Throw*` constructor names used by the
sources. -/
inductive Err where
  | nodesListIsNil : Err
  | edgesListIsNil : Err
  | nodeWithKeyNotExists : TKey → Err
  | nodeWithKeyExists : TKey → Err
  | edgeWithKeyNotExists : TKey → Err
  | edgeWithKeyExists : TKey → Err
  | sameEdgeNotAllowed : TKey → TKey → Err
  | edgeEndNotExists : TKey → TKey → Err
  | dijkstraNegativeWeight : TKey → TWeight → Err
  | flowSourceNotExists : TKey → Err
  | flowSinkNotExists : TKey → Err
  | flowSameSourceSink : Err
deriving DecidableEq

/-- graph/graph.go: `MakeGraph` with functional options. -/
def makeGraph (options : List (Graph → Graph)) : Graph :=
  options.foldl (fun g opt => opt g)
    { nodes := some [], edges := some [], adjacencyMap := [],
      options := { isMulti := false, isDirected := false } }

/-- graph/graph.go: `WithGraphDirected`. -/
def withGraphDirected (isDirected : Bool) : Graph → Graph :=
  fun g => { g with options := { g.options with isDirected := isDirected } }

/-- graph/graph.go: `WithGraphMulti`. -/
def withGraphMulti (isMulti : Bool) : Graph → Graph :=
  fun g => { g with options := { g.options with isMulti := isMulti } }

/-- One edge's contribution in `RebuildAdjacencyMap`: append the
destination to the source's list, and (undirected) the source to the
destination's list. -/
def adjStep (isDirected : Bool) (adj : List (TKey × List TKey)) (e : Edge) :
    List (TKey × List TKey) :=
  let adj' := mapInsert adj e.source (lookupD adj e.source [] ++ [e.destination])
  if isDirected then adj'
  else mapInsert adj' e.destination (lookupD adj' e.destination [] ++ [e.source])

/-- graph/graph.go: `RebuildAdjacencyMap`, as a function of the edge values
(in iteration order) and the directedness flag. -/
def rebuildAdjacency (edges : List Edge) (isDirected : Bool) :
    List (TKey × List TKey) :=
  edges.foldl (adjStep isDirected) []

def Graph.rebuildAdjacencyMap (g : Graph) : Graph :=
  { g with adjacencyMap := rebuildAdjacency g.edgeVals g.options.isDirected }

/-- graph/graph.go: `GetNodeByKey`. -/
def Graph.getNodeByKey (g : Graph) (k : TKey) : Except Err Node :=
  match g.nodes with
  | none => .error .nodesListIsNil
  | some ns =>
    match mapLookup ns k with
    | none => .error (.nodeWithKeyNotExists k)
    | some n => .ok n

/-- graph/graph.go: `GetEdgeByKey`. -/
def Graph.getEdgeByKey (g : Graph) (k : TKey) : Except Err Edge :=
  match g.edges with
  | none => .error .edgesListIsNil
  | some es =>
    match mapLookup es k with
    | none => .error (.edgeWithKeyNotExists k)
    | some e => .ok e

/-- graph/graph.go: `AddNode`.  Mutating methods return the Go error next to
the updated graph (Go mutates the receiver in place and returns `error`). -/
def Graph.addNode (g : Graph) (n : Node) : Option Err × Graph :=
  match g.getNodeByKey n.key with
  | .ok found => (some (.nodeWithKeyExists found.key), g)
  | .error _ =>
    (none, { g with nodes := g.nodes.map (fun ns => mapInsert ns n.key n) })

/-- graph/graph.go: `AddEdge`. -/
def Graph.addEdge (g : Graph) (e : Edge) : Option Err × Graph :=
  match g.getEdgeByKey e.key with
  | .ok found => (some (.edgeWithKeyExists found.key), g)
  | .error _ =>
    if !g.options.isMulti &&
        ((lookupD g.adjacencyMap e.source []).contains e.destination ||
          (!g.options.isDirected &&
            (lookupD g.adjacencyMap e.destination []).contains e.source)) then
      (some (.sameEdgeNotAllowed e.source e.destination), g)
    else
      match g.getNodeByKey e.source with
      | .error _ => (some (.edgeEndNotExists e.key e.source), g)
      | .ok _ =>
        match g.getNodeByKey e.destination with
        | .error _ => (some (.edgeEndNotExists e.key e.destination), g)
        | .ok _ =>
          (none,
            Graph.rebuildAdjacencyMap
              { g with edges := g.edges.map (fun es => mapInsert es e.key e) })

/-- graph/graph.go: `RemoveNodeByKey`. -/
def Graph.removeNodeByKey (g : Graph) (k : TKey) : Option Err × Graph :=
  match g.getNodeByKey k with
  | .error err => (some err, g)
  | .ok _ =>
    let edges' := g.edges.map (fun es =>
      es.filter (fun p => !(p.2.source == k || p.2.destination == k)))
    let nodes' := g.nodes.map (fun ns => mapDelete ns k)
    let adj' := (mapDelete g.adjacencyMap k).map
      (fun p => (p.1, p.2.filter (fun n => n != k)))
    (none, { g with nodes := nodes', edges := edges', adjacencyMap := adj' })

/-- graph/graph.go: `RemoveEdgeByKey`. -/
def Graph.removeEdgeByKey (g : Graph) (k : TKey) : Option Err × Graph :=
  match g.getEdgeByKey k with
  | .error _ => (some (.edgeWithKeyNotExists k), g)
  | .ok _ =>
    (none,
      Graph.rebuildAdjacencyMap
        { g with edges := g.edges.map (fun es => mapDelete es k) })

/-- `RebuildEdges`' inner `nextEdgeKey` closure: first key not yet used,
starting the scan at the counter.  Fuel `used.length + 1` always suffices to
find a free key. -/
def nextFreeKey (used : List TKey) (c : TKey) : Nat → TKey
  | 0 => c
  | fuel + 1 => if used.contains c then nextFreeKey used (c + 1) fuel else c

/-- `RebuildEdges`' `edgeID` closure; the Go string `"src-dst"` is modelled as
the (injectively encoded) ordered pair after the undirected swap. -/
def edgeID (isDirected : Bool) (src dst : TKey) : TKey × TKey :=
  if !isDirected && src > dst then (dst, src) else (src, dst)

/-- graph/graph.go: `RebuildEdges` loop state. -/
structure RebuildState where
  newEdges : List (TKey × Edge)
  used : List TKey
  counter : TKey
  seen : List (TKey × TKey)

/-- graph/graph.go: `RebuildEdges`. -/
def Graph.rebuildEdges (g : Graph) : Graph :=
  let final := g.edgeVals.foldl
    (fun (st : RebuildState) e =>
      let id := edgeID g.options.isDirected e.source e.destination
      if !g.options.isMulti && st.seen.contains id then st
      else
        let seen' := if g.options.isMulti then st.seen else st.seen ++ [id]
        if e.key = 0 || st.used.contains e.key then
          let k := nextFreeKey st.used st.counter (st.used.length + 1)
          { newEdges := mapInsert st.newEdges k { e with key := k },
            used := st.used ++ [k], counter := k + 1, seen := seen' }
        else
          { newEdges := mapInsert st.newEdges e.key e,
            used := st.used ++ [e.key], counter := st.counter, seen := seen' })
    { newEdges := [], used := [], counter := 1, seen := [] }
  { g with edges := some final.newEdges }

/-- graph/graph.go: `UpdateGraph`: apply the options, and rebuild the edge
table and adjacency map only when the options value actually changed. -/
def Graph.updateGraph (g : Graph) (options : List (Graph → Graph)) : Graph :=
  let g' := options.foldl (fun h opt => opt h) g
  if g.options = g'.options then g'
  else Graph.rebuildAdjacencyMap g'.rebuildEdges

/-- graph/graph.go: `Copy`: fresh stores holding the same node and edge
records, adjacency rebuilt.  (A nil source store copies to an empty fresh
one, because Go ranges over a nil map zero times.) -/
def Graph.copy (g : Graph) : Graph :=
  Graph.rebuildAdjacencyMap
    { nodes := some g.nodesL, edges := some g.edgesL, adjacencyMap := [],
      options := g.options }

/-! ### Connectivity analyzer (graph/graph.go) -/

/-- Fuel that provably dominates the number of BFS queue pops: every push
beyond the initial one is guarded by marking a previously-unvisited key, and
the keys that can ever be marked all occur in the adjacency lists or are the
start key. -/
def Graph.bfsFuel (g : Graph) : Nat :=
  g.nodesL.length + (g.adjacencyMap.map (fun p => p.2.length)).sum + 2

/-- The neighbor scan of one BFS pop: push and mark every unvisited
neighbor (state is `(queue, visited)`). -/
def bfsScan (neighbors : List TKey) (st : List TKey × List TKey) :
    List TKey × List TKey :=
  neighbors.foldl
    (fun st neighbor =>
      if st.2.contains neighbor then st
      else (st.1 ++ [neighbor], st.2 ++ [neighbor]))
    st

/-- The BFS worklist loop shared (verbatim in the source) by `IsConnected`,
`bfsComponent` and `bfsComponentWithSize`: pop the queue front, push and mark
every unvisited neighbor. -/
def bfsLoop (adj : List (TKey × List TKey)) :
    Nat → List TKey → List TKey → List TKey
  | 0, _, visited => visited
  | _ + 1, [], visited => visited
  | fuel + 1, current :: rest, visited =>
    let st := bfsScan (lookupD adj current []) (rest, visited)
    bfsLoop adj fuel st.1 st.2

/-- graph/graph.go: `IsConnected`. -/
def Graph.isConnected (g : Graph) : Bool :=
  match g.nodesL with
  | [] => true
  | (startKey, _) :: _ =>
    let visited := bfsLoop g.adjacencyMap g.bfsFuel [startKey] [startKey]
    visited.length == g.nodesL.length

/-- graph/graph.go: `bfsComponent` (BFS extending a shared visited set). -/
def Graph.bfsComponent (g : Graph) (start : TKey) (visited : List TKey) :
    List TKey :=
  bfsLoop g.adjacencyMap g.bfsFuel [start] (visited ++ [start])

/-- The counting loop of `GetConnectedComponents`. -/
def componentsLoop (g : Graph) :
    List TKey → List TKey → Nat → Nat
  | [], _, count => count
  | n :: rest, visited, count =>
    if visited.contains n then componentsLoop g rest visited count
    else componentsLoop g rest (g.bfsComponent n visited) (count + 1)

/-- graph/graph.go: `GetConnectedComponents`. -/
def Graph.getConnectedComponents (g : Graph) : Nat :=
  if g.nodesL.length = 0 then 0
  else componentsLoop g g.nodeKeys [] 0

/-! ### Minimum spanning tree (algo package, Prim's algorithm)

The repository carries two revisions of the same functions: the one embedded
in the report document (`findMSTPrimInternal` selecting a best edge per
round) and the one in `task_floyd.go`'s companion file (`findMSTPrimInternal`
using `minWeight` maps initialised with `^TWeight(0)`).  Both are embedded;
the report revision gets the `Report` suffix. -/

structure MSTResult where
  totalWeight : TWeight
  edges : List Edge
  isPossible : Bool
deriving DecidableEq

/-- task_floyd.go companion: `getEdgeWeight`.  `^graph.TWeight(0)` on the
signed 64-bit `TWeight` is `-1`. -/
def getEdgeWeight (g : Graph) (u v : TKey) : TWeight :=
  match g.edgeVals.find? (fun e =>
      (e.source == u && e.destination == v) ||
      (!g.options.isDirected && e.source == v && e.destination == u)) with
  | some e => e.weight
  | none => -1

/-- task_floyd.go companion: `getEdgeBetween`. -/
def getEdgeBetween (g : Graph) (u v : TKey) : Option Edge :=
  g.edgeVals.find? (fun e =>
    (e.source == u && e.destination == v) ||
    (!g.options.isDirected && e.source == v && e.destination == u))

/-- task_floyd.go companion: `findMinKey`.  The running minimum starts at
`^TWeight(0) = -1` and the running key at the zero value `0`. -/
def findMinKey (weights : List (TKey × TWeight)) (inMST : List TKey) : TKey :=
  (weights.foldl
    (fun (acc : TWeight × TKey) p =>
      if !inMST.contains p.1 && p.2 < acc.1 then (p.2, p.1) else acc)
    (-1, 0)).2

/-- One iteration of the `for range gr.Nodes` loop of the `task_floyd.go`
revision of `findMSTPrimInternal`; state is `(inMST, minEdge, minWeight)`. -/
def primStep (g : Graph)
    (st : List TKey × List (TKey × Option Edge) × List (TKey × TWeight)) :
    Option (List TKey × List (TKey × Option Edge) × List (TKey × TWeight)) :=
  let (inMST, minEdge, minWeight) := st
  let currentKey := findMinKey minWeight inMST
  if currentKey = 0 then none
  else
    let inMST' := inMST ++ [currentKey]
    let upd := (lookupD g.adjacencyMap currentKey []).foldl
      (fun (acc : List (TKey × Option Edge) × List (TKey × TWeight)) neighbor =>
        if inMST'.contains neighbor then acc
        else
          let w := getEdgeWeight g currentKey neighbor
          if w < lookupD acc.2 neighbor 0 then
            (mapInsert acc.1 neighbor (getEdgeBetween g currentKey neighbor),
              mapInsert acc.2 neighbor w)
          else acc)
      (minEdge, minWeight)
    some (inMST', upd.1, upd.2)

def primLoop (g : Graph) :
    Nat → List TKey × List (TKey × Option Edge) × List (TKey × TWeight) →
    List TKey × List (TKey × Option Edge) × List (TKey × TWeight)
  | 0, st => st
  | n + 1, st =>
    match primStep g st with
    | none => st
    | some st' => primLoop g n st'

/-- task_floyd.go companion revision of `findMSTPrimInternal`. -/
def findMSTPrimInternal (g : Graph) : MSTResult :=
  if g.nodesL.length = 0 then
    { totalWeight := 0, edges := [], isPossible := true }
  else
    let minWeight0 := g.nodeKeys.foldl (fun m k => mapInsert m k (-1)) []
    let startKey := (g.nodesL.head?.map Prod.fst).getD 0
    let minWeight1 := mapInsert minWeight0 startKey 0
    let final := primLoop g g.nodesL.length ([], [], minWeight1)
    final.2.1.foldl
      (fun (r : MSTResult) p =>
        match p.2 with
        | some e =>
          if p.1 ≠ startKey then
            { r with edges := r.edges ++ [e], totalWeight := r.totalWeight + e.weight }
          else r
        | none => r)
      { totalWeight := 0, edges := [], isPossible := true }

/-- task_floyd.go companion: `FindMSTPrim`. -/
def findMSTPrim (g : Graph) : Except Err MSTResult :=
  match g.nodes with
  | none => .error .nodesListIsNil
  | some _ =>
    if !g.isConnected then
      .ok { totalWeight := 0, edges := [], isPossible := false }
    else if g.options.isDirected then
      .ok (findMSTPrimInternal ((g.copy).updateGraph [withGraphDirected false]))
    else
      .ok (findMSTPrimInternal g)

/-- Report revision: `getEdgeBetweenReliable` (forward scan, then a reverse
scan for undirected graphs). -/
def getEdgeBetweenReliable (g : Graph) (u v : TKey) : Option Edge :=
  match g.edgeVals.find? (fun e => e.source == u && e.destination == v) with
  | some e => some e
  | none =>
    if !g.options.isDirected then
      g.edgeVals.find? (fun e => e.source == v && e.destination == u)
    else none

/-- Report revision: the best-edge scan of one round of
`findMSTPrimInternal` (minimum-weight edge from `inMST` to outside, the
running bound starting at `TWeight(1 <<< 30)`). -/
def bestEdgeScan (g : Graph) (inMST : List TKey) : Option Edge × TWeight :=
  inMST.foldl
    (fun (acc : Option Edge × TWeight) u =>
      (lookupD g.adjacencyMap u []).foldl
        (fun (acc : Option Edge × TWeight) neighbor =>
          if inMST.contains neighbor then acc
          else
            match getEdgeBetweenReliable g u neighbor with
            | some e => if e.weight < acc.2 then (some e, e.weight) else acc
            | none => acc)
        acc)
    (none, (2 : TWeight) ^ 30)

def primLoopReport (g : Graph) :
    Nat → List TKey → List Edge → Option (List TKey × List Edge)
  | 0, inMST, mstEdges => some (inMST, mstEdges)
  | fuel + 1, inMST, mstEdges =>
    if inMST.length < g.nodesL.length then
      match (bestEdgeScan g inMST).1 with
      | none => none
      | some bestEdge =>
        let newKey :=
          if inMST.contains bestEdge.source then bestEdge.destination
          else bestEdge.source
        primLoopReport g fuel (inMST ++ [newKey]) (mstEdges ++ [bestEdge])
    else some (inMST, mstEdges)

/-- Report revision of `findMSTPrimInternal`. -/
def findMSTPrimInternalReport (g : Graph) : MSTResult :=
  if g.nodesL.length = 0 then
    { totalWeight := 0, edges := [], isPossible := true }
  else
    let firstVertex := (g.nodesL.head?.map Prod.fst).getD 0
    match primLoopReport g g.nodesL.length [firstVertex] [] with
    | none => { totalWeight := 0, edges := [], isPossible := false }
    | some (_, mstEdges) =>
      { totalWeight := (mstEdges.map Edge.weight).sum, edges := mstEdges,
        isPossible := true }

/-- Report revision of `FindMSTPrim`. -/
def findMSTPrimReport (g : Graph) : Except Err MSTResult :=
  match g.nodes with
  | none => .error .nodesListIsNil
  | some _ =>
    if g.nodesL.length = 0 then
      .ok { totalWeight := 0, edges := [], isPossible := true }
    else if !g.isConnected then
      .ok { totalWeight := 0, edges := [], isPossible := false }
    else if g.options.isDirected then
      .ok (findMSTPrimInternalReport ((g.copy).updateGraph [withGraphDirected false]))
    else
      .ok (findMSTPrimInternalReport g)

/-! ### All-pairs shortest paths (algo/task_floyd.go) -/

abbrev DistM := List (TKey × List (TKey × Int))
abbrev NextM := List (TKey × List (TKey × TKey))

structure AllPairsShortestPath where
  distances : DistM
  next : NextM
  isValid : Bool
  message : String
deriving DecidableEq

/-- `infinity := int64(1 << 30)` in task_floyd.go. -/
def infinity : Int := 2 ^ 30

/-- Nested Go map read `m[i][j]` (missing keys read as the zero value). -/
def d2get (d : List (TKey × List (TKey × α))) (i j : TKey) [Inhabited α] : α :=
  lookupD (lookupD d i []) j default

/-- Nested Go map write `m[i][j] = v` (on the executed writes the outer key
is always present, so the append-if-missing divergence from Go's nil-map
panic is unreachable). -/
def d2set (d : List (TKey × List (TKey × α))) (i j : TKey) (v : α) :
    List (TKey × List (TKey × α)) :=
  mapInsert d i (mapInsert (lookupD d i []) j v)

/-- Insertion step for the embedded `sort.Slice` by `<`. -/
def insertSorted (k : TKey) : List TKey → List TKey
  | [] => [k]
  | x :: xs => if k ≤ x then k :: x :: xs else x :: insertSorted k xs

/-- `sort.Slice(keys, less-than)`, embedded as an insertion sort (it agrees
with any correct sort on the key multiset). -/
def sortTKeys (l : List TKey) : List TKey :=
  l.foldr insertSorted []

/-- task_floyd.go: `getSortedKeys`. -/
def getSortedKeys (nodes : List (TKey × Node)) : List TKey :=
  sortTKeys (nodes.map Prod.fst)

/-- Matrix initialisation of `findFloydWarshall`: diagonal 0, `infinity`
elsewhere, no next hop (`0`). -/
def fwInit (keys : List TKey) : DistM × NextM :=
  keys.foldl
    (fun acc i =>
      let distRow := keys.foldl
        (fun row j => mapInsert row j (if i = j then (0 : Int) else infinity)) []
      let nextRow := keys.foldl (fun row j => mapInsert row j (0 : TKey)) []
      (mapInsert acc.1 i distRow, mapInsert acc.2 i nextRow))
    ([], [])

/-- The direct-edge seeding loop of `findFloydWarshall`; `Sum.inl` is the
early `return` taken at the first negative-weight edge. -/
def seedEdges (isDirected : Bool) :
    List Edge → DistM × NextM → Sum AllPairsShortestPath (DistM × NextM)
  | [], st => .inr st
  | e :: rest, (dist, next) =>
    if e.weight < 0 then
      .inl { distances := [], next := [], isValid := false,
             message := "Graph contains negative weights" }
    else
      let st1 : DistM × NextM :=
        if e.weight < d2get dist e.source e.destination then
          (d2set dist e.source e.destination e.weight,
            d2set next e.source e.destination e.destination)
        else (dist, next)
      let st2 : DistM × NextM :=
        if !isDirected then
          if e.weight < d2get st1.1 e.destination e.source then
            (d2set st1.1 e.destination e.source e.weight,
              d2set st1.2 e.destination e.source e.source)
          else st1
        else st1
      seedEdges isDirected rest st2

/-- The triple relaxation loop of `findFloydWarshall`. -/
def fwRelax (keys : List TKey) (st : DistM × NextM) : DistM × NextM :=
  keys.foldl
    (fun st k =>
      keys.foldl
        (fun st i =>
          if d2get st.1 i k = infinity then st
          else
            keys.foldl
              (fun st j =>
                if d2get st.1 k j = infinity then st
                else if d2get st.1 i k + d2get st.1 k j < d2get st.1 i j then
                  (d2set st.1 i j (d2get st.1 i k + d2get st.1 k j),
                    d2set st.2 i j (d2get st.2 i k))
                else st)
              st)
        st)
    st

/-- algo/task_floyd.go: `findFloydWarshall`. -/
def findFloydWarshall (g : Graph) : AllPairsShortestPath :=
  if g.nodesL.length = 0 then
    { distances := [], next := [], isValid := true, message := "Graph is empty" }
  else
    let keys := getSortedKeys g.nodesL
    match seedEdges g.options.isDirected g.edgeVals (fwInit keys) with
    | .inl early => early
    | .inr st1 =>
      let st2 := fwRelax keys st1
      if keys.any (fun k => decide (d2get st2.1 k k < 0)) then
        { distances := [], next := [], isValid := false,
          message := "Graph contains negative weight cycles" }
      else
        { distances := st2.1, next := st2.2, isValid := true,
          message := "Computed shortest paths for " ++ toString keys.length
            ++ " vertices" }

/-- algo/task_floyd.go: `FindAllPairsShortestPath`. -/
def findAllPairsShortestPath (g : Graph) : Except Err AllPairsShortestPath :=
  match g.nodes with
  | none => .error .nodesListIsNil
  | some _ => .ok (findFloydWarshall g)

/-! ### Eccentricity and radius (algo/task_dejkstra.go) -/

def maxInt64 : Int := 2 ^ 63 - 1

structure EccentricityResult where
  eccentricities : List (TKey × Int)
  radius : Int
  diameter : Int
  centerVertices : List TKey
  peripheralVertices : List TKey
  isConnected : Bool
  message : String
deriving DecidableEq

/-- One iteration of `dijkstra`'s settle loop; `none` is the `break` taken
when no unvisited vertex has a finite distance. -/
def dijkstraStep (g : Graph) (distances : List (TKey × Int))
    (visited : List TKey) : Option (List (TKey × Int) × List TKey) :=
  let scan := distances.foldl
    (fun (acc : Int × TKey) p =>
      if !visited.contains p.1 && p.2 < acc.1 then (p.2, p.1) else acc)
    (maxInt64, 0)
  if scan.1 = maxInt64 then none
  else
    let minVertex := scan.2
    let visited' := visited ++ [minVertex]
    let distances' := (lookupD g.adjacencyMap minVertex []).foldl
      (fun dists neighbor =>
        if visited'.contains neighbor then dists
        else
          let w := getEdgeWeight g minVertex neighbor
          if w = maxInt64 then dists
          else
            let newDist := lookupD dists minVertex 0 + w
            if newDist < lookupD dists neighbor 0 then
              mapInsert dists neighbor newDist
            else dists)
      distances
    some (distances', visited')

def dijkstraLoop (g : Graph) :
    Nat → List (TKey × Int) → List TKey → List (TKey × Int)
  | 0, distances, _ => distances
  | fuel + 1, distances, visited =>
    if visited.length < g.nodesL.length then
      match dijkstraStep g distances visited with
      | none => distances
      | some (distances', visited') => dijkstraLoop g fuel distances' visited'
    else distances

/-- algo/task_dejkstra.go: `dijkstra` (the Go loop runs at most once per
node, since every iteration that does not `break` visits a fresh vertex). -/
def dijkstra (g : Graph) (source : TKey) : List (TKey × Int) :=
  let distances0 := g.nodeKeys.foldl (fun m k => mapInsert m k maxInt64) []
  dijkstraLoop g g.nodesL.length (mapInsert distances0 source 0) []

/-- The per-vertex eccentricity computation of `FindEccentricityAndRadius`. -/
def eccentricityOf (g : Graph) (vertex : TKey) : Int :=
  let distances := dijkstra g vertex
  let ecc := distances.foldl
    (fun ecc p => if p.2 > ecc && p.2 ≠ maxInt64 then p.2 else ecc) 0
  if distances.any (fun p => p.2 == maxInt64) then maxInt64 else ecc

/-- algo/task_dejkstra.go: `FindEccentricityAndRadius`. -/
def findEccentricityAndRadius (g : Graph) : Except Err EccentricityResult :=
  match g.nodes with
  | none => .error .nodesListIsNil
  | some _ =>
    if g.nodesL.length = 0 then
      .ok { eccentricities := [], radius := 0, diameter := 0,
            centerVertices := [], peripheralVertices := [],
            isConnected := true, message := "Graph is empty" }
    else
      match g.edgeVals.find? (fun e => decide (e.weight < 0)) with
      | some e => .error (.dijkstraNegativeWeight e.key e.weight)
      | none =>
        let eccs := g.nodeKeys.foldl
          (fun m v => mapInsert m v (eccentricityOf g v)) []
        let radius := eccs.foldl
          (fun r p => if p.2 ≠ maxInt64 && p.2 < r then p.2 else r) maxInt64
        let diameter := eccs.foldl
          (fun d p => if p.2 ≠ maxInt64 && p.2 > d then p.2 else d) 0
        let center := (eccs.filter (fun p => p.2 == radius)).map Prod.fst
        let peripheral := (eccs.filter (fun p => p.2 == diameter)).map Prod.fst
        let radius' := if radius = maxInt64 then -1 else radius
        let diameter' := if radius = maxInt64 then -1 else diameter
        .ok { eccentricities := eccs, radius := radius', diameter := diameter',
              centerVertices := center, peripheralVertices := peripheral,
              isConnected := radius' ≠ -1,
              message := "Found eccentricities for "
                ++ toString g.nodesL.length ++ " vertices" }

/-! ### Negative cycles (algo/task_bellman_ford.go) -/

structure NegativeCycle where
  vertices : List TKey
  edges : List TKey
  totalWeight : TWeight
deriving DecidableEq

structure NegativeCyclesResult where
  cycles : List NegativeCycle
  hasNegativeCycles : Bool
  totalCycles : Nat
  message : String
deriving DecidableEq

/-- algo/task_bellman_ford.go: `getSortedNodeKeys` (same sort as
`getSortedKeys`). -/
def getSortedNodeKeys (nodes : List (TKey × Node)) : List TKey :=
  getSortedKeys nodes

/-- algo/task_bellman_ford.go: `findEdgeBetween` (first edge in iteration
order with the given endpoints). -/
def findEdgeBetween (g : Graph) (from_ dst : TKey) : Option Edge :=
  g.edgeVals.find? (fun e => e.source == from_ && e.destination == dst)

/-- Relaxation state of one Bellman-Ford source: distance, predecessor
vertex and predecessor edge maps (Go map reads default to `0` for the
predecessor maps and are always initialised for `dist`). -/
structure BFState where
  dist : List (TKey × Int)
  prev : List (TKey × TKey)
  edgePrev : List (TKey × TKey)

/-- One full pass over the edge list; the Bool records whether any distance
improved (`changed`). -/
def bfPass (edges : List Edge) (st : BFState × Bool) : BFState × Bool :=
  edges.foldl
    (fun (st : BFState × Bool) e =>
      let du := lookupD st.1.dist e.source 0
      if du ≠ infinity && du + e.weight < lookupD st.1.dist e.destination 0 then
        ({ dist := mapInsert st.1.dist e.destination (du + e.weight),
           prev := mapInsert st.1.prev e.destination e.source,
           edgePrev := mapInsert st.1.edgePrev e.destination e.key }, true)
      else st)
    st

/-- The `|V| - 1` relaxation rounds with early exit when a pass changes
nothing. -/
def bfRounds (edges : List Edge) : Nat → BFState → BFState
  | 0, st => st
  | n + 1, st =>
    let (st', changed) := bfPass edges (st, false)
    if changed then bfRounds edges n st' else st'

/-- The tortoise-and-hare meeting loop of `traceCycle` (`i` counts up to the
node count; the trailing `slow != fast` check is folded into the base
case). -/
def tortoiseHare (prev : List (TKey × TKey)) : Nat → TKey → TKey → Option TKey
  | 0, slow, fast => if slow = fast then some slow else none
  | n + 1, slow, fast =>
    if lookupD prev fast 0 = 0 ∨ lookupD prev (lookupD prev fast 0) 0 = 0 then
      none
    else
      let slow' := lookupD prev slow 0
      let fast' := lookupD prev (lookupD prev fast 0) 0
      if slow' = fast' then some slow'
      else tortoiseHare prev n slow' fast'

/-- First loop of `findCycleStart`: the predecessor-cycle length through the
meeting point.  The Go loop has no bound; the fuel covers every terminating
run (the meeting point produced by the tortoise-and-hare loop lies on a
predecessor cycle of length at most the number of distinct keys). -/
def findCycleLength (prev : List (TKey × TKey)) (mp : TKey) :
    Nat → TKey → Nat → Option Nat
  | 0, _, _ => none
  | fuel + 1, current, acc =>
    let c := lookupD prev current 0
    if c = mp then some (acc + 1)
    else findCycleLength prev mp fuel c (acc + 1)

/-- `ptr1 = prev[ptr1]` iterated. -/
def iteratePrev (prev : List (TKey × TKey)) : Nat → TKey → TKey
  | 0, v => v
  | n + 1, v => iteratePrev prev n (lookupD prev v 0)

/-- Third loop of `findCycleStart`: advance both pointers until they meet
(fuelled; every Go-terminating run meets within the fuel). -/
def meetPtrs (prev : List (TKey × TKey)) : Nat → TKey → TKey → Option TKey
  | 0, p1, p2 => if p1 = p2 then some p1 else none
  | fuel + 1, p1, p2 =>
    if p1 = p2 then some p1
    else meetPtrs prev fuel (lookupD prev p1 0) (lookupD prev p2 0)

/-- algo/task_bellman_ford.go: `findCycleStart` (fuelled; `none` only on
runs where the Go loops would not terminate). -/
def findCycleStart (prev : List (TKey × TKey)) (fuel : Nat)
    (meetingPoint : TKey) : Option TKey :=
  match findCycleLength prev meetingPoint fuel meetingPoint 0 with
  | none => none
  | some cycleLength =>
    meetPtrs prev fuel (iteratePrev prev cycleLength meetingPoint) meetingPoint

/-- The vertex-collection loop of `reconstructCycle`: walk predecessors from
`prev[start]` back to `start`, prepending, bailing out on the `0` sentinel,
on a revisit, or when the list would exceed the node count. -/
def collectCycleVertices (prev : List (TKey × TKey)) (n : Nat) (start : TKey) :
    Nat → TKey → List TKey → List TKey → Option (List TKey)
  | 0, _, _, _ => none
  | fuel + 1, current, visited, acc =>
    if current = start then some acc
    else if current = 0 ∨ visited.contains current then none
    else
      let acc' := current :: acc
      if acc'.length > n then none
      else
        collectCycleVertices prev n start fuel (lookupD prev current 0)
          (visited ++ [current]) acc'

/-- The edge-collection loop of `reconstructCycle`: consecutive (cyclically
closed) vertex pairs resolved to edges, with the total weight. -/
def collectCycleEdges (g : Graph) (vs : List TKey) :
    Option (List TKey × TWeight) :=
  (List.range vs.length).foldl
    (fun acc i =>
      match acc with
      | none => none
      | some (es, w) =>
        let from_ := vs.getD i 0
        let dst := vs.getD ((i + 1) % vs.length) 0
        match findEdgeBetween g from_ dst with
        | none => none
        | some e => some (es ++ [e.key], w + e.weight))
    (some ([], 0))

/-- algo/task_bellman_ford.go: `reconstructCycle`. -/
def reconstructCycle (g : Graph) (start : TKey)
    (prev : List (TKey × TKey)) : Option NegativeCycle :=
  match collectCycleVertices prev g.nodesL.length start
      (g.nodesL.length + 2) (lookupD prev start 0) [start] [start] with
  | none => none
  | some cycleVertices =>
    match collectCycleEdges g cycleVertices with
    | none => none
    | some (cycleEdges, totalWeight) =>
      if cycleVertices.length < 2 then none
      else
        some { vertices := cycleVertices, edges := cycleEdges,
               totalWeight := totalWeight }

/-- algo/task_bellman_ford.go: `traceCycle`. -/
def traceCycle (g : Graph) (v : TKey) (prev : List (TKey × TKey)) :
    Option NegativeCycle :=
  match tortoiseHare prev g.nodesL.length v v with
  | none => none
  | some meetingPoint =>
    match findCycleStart prev (g.nodesL.length + 2) meetingPoint with
    | none => none
    | some cycleStart =>
      if cycleStart = 0 then none
      else reconstructCycle g cycleStart prev

/-- Index of the first minimal vertex (the scan of `normalizeCycle`). -/
def minVertexIndex (l : List TKey) : Nat :=
  match l with
  | [] => 0
  | v0 :: _ =>
    (l.enum.foldl
      (fun (acc : Nat × TKey) p => if p.2 < acc.2 then p else acc)
      (0, v0)).1

/-- algo/task_bellman_ford.go: `normalizeCycle` (rotate the vertex list so
the smallest vertex comes first; edges and weight kept as-is). -/
def normalizeCycle (c : NegativeCycle) : NegativeCycle :=
  if c.vertices = [] then c
  else
    let minIndex := minVertexIndex c.vertices
    { c with vertices := c.vertices.drop minIndex ++ c.vertices.take minIndex }

/-- algo/task_bellman_ford.go: `generateCycleKey` joins the decimal vertex
keys with dashes — an injective encoding of the vertex list, embedded as the
list itself. -/
def generateCycleKey (c : NegativeCycle) : List TKey := c.vertices

/-- The detection fold of `findAllNegativeCycles` for one start vertex:
every still-relaxable edge yields a traced, normalised, deduplicated
cycle. -/
def detectCycles (g : Graph) (st : BFState)
    (acc : List (List TKey) × List NegativeCycle) :
    List (List TKey) × List NegativeCycle :=
  g.edgeVals.foldl
    (fun acc e =>
      let du := lookupD st.dist e.source 0
      if du ≠ infinity && du + e.weight < lookupD st.dist e.destination 0 then
        match traceCycle g e.destination st.prev with
        | none => acc
        | some cycle =>
          let normalized := normalizeCycle cycle
          let cycleKey := generateCycleKey normalized
          if !acc.1.contains cycleKey && normalized.totalWeight < 0 then
            (acc.1 ++ [cycleKey], acc.2 ++ [normalized])
          else acc
      else acc)
    acc

/-- algo/task_bellman_ford.go: `findAllNegativeCycles`. -/
def findAllNegativeCycles (g : Graph) : List NegativeCycle :=
  let keys := getSortedNodeKeys g.nodesL
  (keys.foldl
    (fun (acc : List (List TKey) × List NegativeCycle) start =>
      let dist0 := keys.foldl (fun m k => mapInsert m k infinity) []
      let st0 : BFState :=
        { dist := mapInsert dist0 start 0, prev := [], edgePrev := [] }
      let st := bfRounds g.edgeVals (keys.length - 1) st0
      detectCycles g st acc)
    ([], [])).2

/-- algo/task_bellman_ford.go: `FindNegativeCycles`. -/
def findNegativeCycles (g : Graph) : Except Err NegativeCyclesResult :=
  match g.nodes with
  | none => .error .nodesListIsNil
  | some _ =>
    if g.nodesL.length = 0 then
      .ok { cycles := [], hasNegativeCycles := false, totalCycles := 0,
            message := "Graph is empty" }
    else if !g.options.isDirected then
      .ok { cycles := [], hasNegativeCycles := false, totalCycles := 0,
            message :=
              "Bellman-Ford algorithm for negative cycles requires directed graph" }
    else
      let allCycles := findAllNegativeCycles g
      .ok { cycles := allCycles, hasNegativeCycles := allCycles.length > 0,
            totalCycles := allCycles.length,
            message := "Found " ++ toString allCycles.length
              ++ " negative cycle(s)" }

/-! ### Maximum flow (algo/task_max_flow.go) -/

structure FlowEdge where
  source : TKey
  destination : TKey
  capacity : TWeight
  flow : TWeight
deriving DecidableEq

structure MaxFlowResult where
  maxFlowValue : TWeight
  source : TKey
  sink : TKey
  flowEdges : List FlowEdge
  minCut : List TKey
  message : String
deriving DecidableEq

/-- The residual capacity table `map[TKey]map[TKey]TWeight`, embedded as a
total function (the Go code initialises every node pair to `0` and only ever
assigns pairs of node keys). -/
abbrev ResidualG := TKey → TKey → Int

/-- Go `residual[u][v] = x`. -/
def rUpdate (r : ResidualG) (u v : TKey) (x : Int) : ResidualG :=
  fun a b => if a = u ∧ b = v then x else r a b

/-- algo/task_max_flow.go: `createResidualGraph` (weight as capacity,
non-positive weights defaulting to 1; later edges on the same ordered pair
overwrite earlier ones, as Go map assignment does). -/
def createResidualGraph (g : Graph) : ResidualG :=
  g.edgeVals.foldl
    (fun r e => rUpdate r e.source e.destination
      (if e.weight ≤ 0 then 1 else e.weight))
    (fun _ _ => 0)

/-- algo/task_max_flow.go: `getEdgeKey` (first edge-store entry with the
ordered pair; the zero value `0` when none exists). -/
def getEdgeKey (g : Graph) (u v : TKey) : TKey :=
  match g.edgesL.find? (fun p => p.2.source == u && p.2.destination == v) with
  | some p => p.1
  | none => 0

/-- Path reconstruction of `findAugmentingPath`: walk parents from the sink
back to the source, prepending (fuelled; the BFS parent chain always reaches
the source within the vertex count). -/
def buildPath (parent : List (TKey × TKey)) (source : TKey) :
    Nat → TKey → List TKey → Option (List TKey)
  | 0, _, _ => none
  | fuel + 1, curr, acc =>
    if curr = source then some (source :: acc)
    else buildPath parent source fuel (lookupD parent curr 0) (curr :: acc)

/-- The neighbor scan of one BFS pop in `findAugmentingPath` over the inner
residual map (whose key set is the node-key list); the Bool is the early
`v == sink` return. -/
def fapScan (r : ResidualG) (verts : List TKey) (u sink : TKey)
    (st : List TKey × List TKey × List (TKey × TKey)) :
    (List TKey × List TKey × List (TKey × TKey)) × Bool :=
  verts.foldl
    (fun (acc : (List TKey × List TKey × List (TKey × TKey)) × Bool) v =>
      if acc.2 then acc
      else
        let (queue, visited, parent) := acc.1
        if !visited.contains v && r u v > 0 then
          ((queue ++ [v], visited ++ [v], mapInsert parent v u), v = sink)
        else acc)
    (st, false)

def fapLoop (r : ResidualG) (verts : List TKey) (source sink : TKey) :
    Nat → List TKey → List TKey → List (TKey × TKey) →
    Option (List TKey) × List (TKey × TKey)
  | 0, _, _, parent => (none, parent)
  | _ + 1, [], _, parent => (none, parent)
  | fuel + 1, u :: rest, visited, parent =>
    let (st', found) := fapScan r verts u sink (rest, visited, parent)
    if found then
      (buildPath st'.2.2 source (verts.length + 1) sink [], st'.2.2)
    else fapLoop r verts source sink fuel st'.1 st'.2.1 st'.2.2

/-- algo/task_max_flow.go: `findAugmentingPath`. -/
def findAugmentingPath (r : ResidualG) (verts : List TKey)
    (source sink : TKey) : Option (List TKey) × List (TKey × TKey) :=
  fapLoop r verts source sink (verts.length + 2) [source] [source] []

/-- Bottleneck walk of the main loop: minimum residual capacity along the
parent chain from the sink, the running minimum starting at
`TWeight(1 <<< 30)`. -/
def bottleneck (r : ResidualG) (parent : List (TKey × TKey)) (source : TKey) :
    Nat → TKey → Int → Option Int
  | 0, _, _ => none
  | fuel + 1, v, acc =>
    if v = source then some acc
    else
      let u := lookupD parent v 0
      bottleneck r parent source fuel u (if r u v < acc then r u v else acc)

/-- Update walk of the main loop: push `f` along the parent chain, adjusting
forward and reverse residual capacities and the flow map (forward edges
accumulate flow, backward residual pushes subtract it). -/
def augmentWalk (g : Graph) (parent : List (TKey × TKey)) (source : TKey)
    (f : Int) : Nat → TKey → ResidualG × DistM → Option (ResidualG × DistM)
  | 0, _, _ => none
  | fuel + 1, v, (r, fm) =>
    if v = source then some (r, fm)
    else
      let u := lookupD parent v 0
      let r1 := rUpdate r u v (r u v - f)
      let r2 := rUpdate r1 v u (r1 v u + f)
      let fm' :=
        if (mapLookup g.edgesL (getEdgeKey g u v)).isSome then
          d2set fm u v (d2get fm u v + f)
        else
          d2set fm v u (d2get fm v u - f)
      augmentWalk g parent source f fuel u (r2, fm')

structure MFState where
  r : ResidualG
  flowMap : DistM
  maxFlow : Int

/-- The Edmonds-Karp augmentation loop.  The fuel dominates the number of
augmentations: every found path pushes a strictly positive integer flow and
the total flow is bounded by the total capacity. -/
def edmondsKarpLoop (g : Graph) (verts : List TKey) (source sink : TKey) :
    Nat → MFState → MFState
  | 0, st => st
  | fuel + 1, st =>
    match findAugmentingPath st.r verts source sink with
    | (none, _) => st
    | (some _, parent) =>
      match bottleneck st.r parent source (verts.length + 2) sink ((2 : Int) ^ 30) with
      | none => st
      | some pathFlow =>
        match augmentWalk g parent source pathFlow (verts.length + 2) sink
            (st.r, st.flowMap) with
        | none => st
        | some (r', fm') =>
          edmondsKarpLoop g verts source sink fuel
            { r := r', flowMap := fm', maxFlow := st.maxFlow + pathFlow }

/-- `flowMap` initialisation: zero for every ordered node pair. -/
def flowMapInit (verts : List TKey) : DistM :=
  verts.foldl
    (fun m u =>
      mapInsert m u (verts.foldl (fun row v => mapInsert row v (0 : Int)) []))
    []

/-- Insertion step for the `sort.Slice` over flow edges (by source, then
destination). -/
def insertFlowEdge (e : FlowEdge) : List FlowEdge → List FlowEdge
  | [] => [e]
  | x :: xs =>
    if e.source < x.source ∨ (e.source = x.source ∧ e.destination < x.destination)
    then e :: x :: xs
    else x :: insertFlowEdge e xs

/-- algo/task_max_flow.go: `buildFlowEdges`. -/
def buildFlowEdges (g : Graph) (fm : DistM) : List FlowEdge :=
  (fm.foldl
    (fun (acc : List FlowEdge) row =>
      row.2.foldl
        (fun (acc : List FlowEdge) cell =>
          if cell.2 > 0 then
            let capacity :=
              match g.edgeVals.find?
                  (fun (e : Edge) => e.source == row.1 && e.destination == cell.1) with
              | some e => if e.weight > 0 then e.weight else 1
              | none => (1 : Int)
            acc ++ [{ source := row.1, destination := cell.1,
                      capacity := capacity, flow := cell.2 : FlowEdge }]
          else acc)
        acc)
    []).foldr insertFlowEdge []

/-- The reachability BFS of `findMinCut`. -/
def minCutLoop (r : ResidualG) (verts : List TKey) :
    Nat → List TKey → List TKey → List TKey
  | 0, _, visited => visited
  | _ + 1, [], visited => visited
  | fuel + 1, u :: rest, visited =>
    let st := verts.foldl
      (fun (acc : List TKey × List TKey) v =>
        if !acc.2.contains v && r u v > 0 then (acc.1 ++ [v], acc.2 ++ [v])
        else acc)
      (rest, visited)
    minCutLoop r verts fuel st.1 st.2

/-- algo/task_max_flow.go: `findMinCut` (vertices reachable from the source
through positive residual capacity, returned sorted). -/
def findMinCut (r : ResidualG) (verts : List TKey) (source : TKey) :
    List TKey :=
  sortTKeys (minCutLoop r verts (verts.length + 2) [source] [source])

/-- Outer-loop fuel: one more than the total capacity bound on the number of
augmentations. -/
def mfFuel (g : Graph) : Nat :=
  ((g.edgeVals.map (fun (e : Edge) => if e.weight ≤ 0 then 1 else e.weight)).sum).toNat + 2

/-- algo/task_max_flow.go: `FindMaxFlow`. -/
def findMaxFlow (g : Graph) (source sink : TKey) : Except Err MaxFlowResult :=
  match g.nodes with
  | none => .error .nodesListIsNil
  | some _ =>
    match g.getNodeByKey source with
    | .error _ => .error (.flowSourceNotExists source)
    | .ok _ =>
      match g.getNodeByKey sink with
      | .error _ => .error (.flowSinkNotExists sink)
      | .ok _ =>
        if source = sink then .error .flowSameSourceSink
        else
          let verts := g.nodeKeys
          let final := edmondsKarpLoop g verts source sink (mfFuel g)
            { r := createResidualGraph g, flowMap := flowMapInit verts,
              maxFlow := 0 }
          .ok { maxFlowValue := final.maxFlow, source := source, sink := sink,
                flowEdges := buildFlowEdges g final.flowMap,
                minCut := findMinCut final.r verts source,
                message := "Maximum flow from " ++ toString source ++ " to "
                  ++ toString sink ++ " is " ++ toString final.maxFlow }

/-! ### Claim-level definitions

Specification-side notions used to state the claims, plus the concrete
graphs used by counterexamples and witnesses. -/

/-- Negative-weight closed walk of at most `n` edges from `u` back to
`start` (accumulating the weight).  Spec-side notion: a graph has a
negative-weight cycle iff it has a negative closed walk of at most
vertex-count edges. -/
def negClosedWalkFrom (edges : List Edge) (start : TKey) :
    Nat → TKey → Int → Bool
  | 0, _, _ => false
  | n + 1, u, acc =>
    (edges.filter (fun e => e.source == u)).any fun e =>
      (e.destination == start && decide (acc + e.weight < 0)) ||
      negClosedWalkFrom edges start n e.destination (acc + e.weight)

/-- Spec-side decision of "the graph contains a negative-weight cycle". -/
def hasNegCycleB (g : Graph) : Bool :=
  g.nodeKeys.any fun u => negClosedWalkFrom g.edgeVals u g.nodeKeys.length u 0

/-- The first element of a non-empty list is a minimum of the list
(spec-side notion used by the cycle-normalisation claim). -/
def MinFirst (l : List TKey) : Prop :=
  ∀ m, l.head? = some m → ∀ x ∈ l, m ≤ x

/-- What the detection loop guarantees of every cycle it keeps: strictly
negative reported weight, duplicate-free vertices, and a minimum-first
(normalised) vertex list. -/
def GoodCycle (c : NegativeCycle) : Prop :=
  c.totalWeight < 0 ∧ c.vertices.Nodup ∧ MinFirst c.vertices

/-- Invariant of the deduplication state `(seen keys, kept cycles)`. -/
def CyclesInv (st : List (List TKey) × List NegativeCycle) : Prop :=
  (∀ c ∈ st.2, GoodCycle c ∧ c.vertices ∈ st.1) ∧
  st.2.Pairwise (fun c1 c2 => c1.vertices ≠ c2.vertices)

/-- Finite sum of an integer-valued function over a list. -/
def sumBy (l : List α) (h : α → Int) : Int := (l.map h).sum

/-- The capacity an edge contributes to the residual graph (weight, with
non-positive weights defaulting to 1). -/
def goCap (e : Edge) : Int := if e.weight ≤ 0 then 1 else e.weight

/-- A breadth-first-search parent chain: the vertex list walked from the
source to `v` following the discovered `parent` pointers backwards, with no
repeated vertex. -/
inductive PChain (parent : List (TKey × TKey)) (source : TKey) :
    TKey → List TKey → Prop where
  | base : PChain parent source source [source]
  | step (v : TKey) (l : List TKey) :
      PChain parent source (lookupD parent v 0) l → v ∉ l →
      PChain parent source v (l ++ [v])

/-- Consecutive ordered pairs of a vertex list. -/
def chainPairs (l : List TKey) : List (TKey × TKey) := l.zip l.tail

/-- Positive residual capacity along every consecutive pair. -/
def PosOn (r : ResidualG) (l : List TKey) : Prop :=
  ∀ p ∈ chainPairs l, 0 < r p.1 p.2

/-- Reachability through strictly positive residual capacity. -/
inductive Reach (r : ResidualG) (source : TKey) : TKey → Prop where
  | base : Reach r source source
  | step (u v : TKey) : Reach r source u → 0 < r u v → Reach r source v

/-- The flow-loop invariant tying the running residual table and
accumulated flow value to the initial capacities `cap0` over the vertex
list `verts`: non-negative residuals, pair-antisymmetric net flow,
conservation at internal vertices, the accumulated value as the source's
net out-flow, and no changes outside `verts × verts`. -/
def FlowInv (cap0 : ResidualG) (verts : List TKey) (source sink : TKey)
    (r : ResidualG) (flow : Int) : Prop :=
  (∀ u v, 0 ≤ r u v) ∧
  (∀ u v, r u v + r v u = cap0 u v + cap0 v u) ∧
  (∀ w ∈ verts, w ≠ source → w ≠ sink →
    sumBy verts (fun v => cap0 w v - r w v) = 0) ∧
  (flow = sumBy verts (fun v => cap0 source v - r source v)) ∧
  (∀ u v, u ∉ verts ∨ v ∉ verts → r u v = cap0 u v)

/-- Number of keys of `verts` not yet visited (the BFS potential). -/
def unvisitedCount (verts visited : List TKey) : Nat :=
  (verts.filter (fun v => !visited.contains v)).length

/-- Invariant of the residual-reachability BFS state. -/
def BfsInv (r : ResidualG) (verts : List TKey) (source : TKey)
    (queue visited : List TKey) : Prop :=
  queue.Nodup ∧ visited.Nodup ∧ (∀ x ∈ queue, x ∈ visited) ∧
  (∀ x ∈ visited, x ∈ verts) ∧ (∀ x ∈ visited, Reach r source x) ∧
  (∀ u ∈ visited, u ∉ queue → ∀ v ∈ verts, 0 < r u v → v ∈ visited)

/-- Invariant of the augmenting-path BFS state: like `BfsInv`, and every
visited vertex additionally carries a positive-residual parent chain inside
the visited set. -/
def FapInv (r : ResidualG) (verts : List TKey) (source : TKey)
    (parent : List (TKey × TKey)) (queue visited : List TKey) : Prop :=
  queue.Nodup ∧ visited.Nodup ∧ (∀ x ∈ queue, x ∈ visited) ∧
  (∀ x ∈ visited, x ∈ verts) ∧
  (∀ u ∈ visited, u ∉ queue → ∀ v ∈ verts, 0 < r u v → v ∈ visited) ∧
  (∀ x ∈ visited, ∃ l, PChain parent source x l ∧ PosOn r l ∧
    ∀ y ∈ l, y ∈ visited)

/-- Builder for the concrete graphs used by counterexamples and witnesses:
node keys plus `(key, source, destination, weight)` edges, adjacency
derived. -/
def testGraph (dir : Bool) (ns : List TKey)
    (es : List (TKey × TKey × TKey × Int)) : Graph :=
  Graph.rebuildAdjacencyMap
    { nodes := some (ns.map fun k => (k, { key := k, label := "" : Node })),
      edges := some (es.map fun p =>
        (p.1, { key := p.1, source := p.2.1, destination := p.2.2.1,
                weight := p.2.2.2, label := "" : Edge })),
      adjacencyMap := [],
      options := { isMulti := false, isDirected := dir } }

/-- Two connected nodes, one unit-weight edge: the failing input of C3. -/
def mstBugGraph : Graph := testGraph false [1, 2] [(1, 1, 2, 1)]

/-- Directed two-node graph with one negative edge and no cycle: the
counterexample input of C1. -/
def cex1Graph : Graph := testGraph true [1, 2] [(1, 1, 2, -1)]

/-- Directed triangle A→B→C→A with weights −5, 2, 1 (keys 1, 2, 3): the
concrete graph named by C4. -/
def triangleGraph : Graph :=
  testGraph true [1, 2, 3] [(1, 1, 2, -5), (2, 2, 3, 2), (3, 3, 1, 1)]

/-- The 4-node diamond source→{a,b}→sink with all capacities 10 named by
C2 (source 1, sink 4). -/
def diamondGraph : Graph :=
  testGraph true [1, 2, 3, 4]
    [(1, 1, 2, 10), (2, 1, 3, 10), (3, 2, 4, 10), (4, 3, 4, 10)]

/-- Undirected graph whose single stored edge is negative (so its undirected
view has a negative cycle): witness input of C10. -/
def undirNegGraph : Graph := testGraph false [1, 2] [(1, 1, 2, -5)]

/-- A multigraph with two parallel edges on the same ordered pair: the
counterexample input of C2. -/
def multiFlowGraph : Graph :=
  { testGraph true [1, 2] [(1, 1, 2, 3), (2, 1, 2, 5)] with
    options := { isMulti := true, isDirected := true } }

/-! ### Pointer model of the graph store (C9)

The aliasing claim is about Go's heap: `Graph` holds `map[TKey]*Node` and
`map[TKey]*Edge`, so two graphs could in principle share `Node`/`Edge`
cells.  This model makes the pointers explicit: a `Heap` of allocated cells
addressed by `Addr`, and a `PGraph` whose stores map keys to addresses, as
in the source.  Allocation (`&Node{...}` / `&Edge{...}`) appends a fresh
cell; the exported mutation API never writes through an existing pointer.
Error returns of the mutators are dropped (the failing branches leave the
receiver unchanged either way), and Go's nil maps are represented by empty
lists — neither affects which heap cells an operation can touch. -/

abbrev Addr := Nat

/-- The mutable store of `*Node` and `*Edge` cells, with the allocation
bound: every fresh allocation uses `next`. -/
structure Heap where
  nodeCells : List (Addr × Node)
  edgeCells : List (Addr × Edge)
  next : Addr
deriving DecidableEq

/-- graph/graph.go: the `Graph` struct in the pointer model: `Nodes` and
`Edges` hold the addresses of heap cells. -/
structure PGraph where
  nodes : List (TKey × Addr)
  edges : List (TKey × Addr)
  adjacencyMap : List (TKey × List TKey)
  options : TOptions
deriving DecidableEq

/-- Go `&Node{...}`. -/
def allocNode (h : Heap) (nd : Node) : Addr × Heap :=
  (h.next, { nodeCells := h.nodeCells ++ [(h.next, nd)],
             edgeCells := h.edgeCells, next := h.next + 1 })

/-- Go `&Edge{...}`. -/
def allocEdge (h : Heap) (e : Edge) : Addr × Heap :=
  (h.next, { nodeCells := h.nodeCells,
             edgeCells := h.edgeCells ++ [(h.next, e)], next := h.next + 1 })

/-- The edge values a pointer graph reads through its stored pointers
(iteration over `gr.Edges` dereferencing each entry). -/
def pEdgeVals (g : PGraph) (h : Heap) : List Edge :=
  g.edges.filterMap (fun p => mapLookup h.edgeCells p.2)

/-- Observable node store of a pointer graph: each key with the node value
its pointer reaches. -/
def pNodeValsObs (g : PGraph) (h : Heap) : List (TKey × Option Node) :=
  g.nodes.map (fun p => (p.1, mapLookup h.nodeCells p.2))

/-- Observable edge store of a pointer graph. -/
def pEdgeValsObs (g : PGraph) (h : Heap) : List (TKey × Option Edge) :=
  g.edges.map (fun p => (p.1, mapLookup h.edgeCells p.2))

/-- Everything of a graph the claim says must survive a mutation of its
copy: the observable node store, the observable edge store, and the
adjacency map. -/
def observe (g : PGraph) (h : Heap) :
    List (TKey × Option Node) × List (TKey × Option Edge)
      × List (TKey × List TKey) :=
  (pNodeValsObs g h, pEdgeValsObs g h, g.adjacencyMap)

/-- graph/graph.go: `RebuildAdjacencyMap` in the pointer model. -/
def pRebuildAdjacencyMap (g : PGraph) (h : Heap) : PGraph :=
  { g with adjacencyMap :=
      rebuildAdjacency (pEdgeVals g h) g.options.isDirected }

/-- graph/graph.go: `MakeGraph(WithGraphDirected(..), WithGraphMulti(..))`
as used by `Copy`. -/
def pMakeGraph (isDirected isMulti : Bool) : PGraph :=
  { nodes := [], edges := [], adjacencyMap := [],
    options := { isMulti := isMulti, isDirected := isDirected } }

/-- The node-copying loop of `Copy`: each source cell is read and a fresh
cell holding the same field values is allocated. -/
def pCopyNodes (src : List (TKey × Addr)) (h0 : Heap) :
    List (TKey × Addr) × Heap :=
  src.foldl
    (fun (acc : List (TKey × Addr) × Heap) p =>
      match mapLookup acc.2.nodeCells p.2 with
      | some nd =>
        let ah := allocNode acc.2 { key := nd.key, label := nd.label }
        (mapInsert acc.1 p.1 ah.1, ah.2)
      | none => acc)
    ([], h0)

/-- The edge-copying loop of `Copy`. -/
def pCopyEdges (src : List (TKey × Addr)) (h0 : Heap) :
    List (TKey × Addr) × Heap :=
  src.foldl
    (fun (acc : List (TKey × Addr) × Heap) p =>
      match mapLookup acc.2.edgeCells p.2 with
      | some e =>
        let ah := allocEdge acc.2
          { key := e.key, source := e.source, destination := e.destination,
            weight := e.weight, label := e.label }
        (mapInsert acc.1 p.1 ah.1, ah.2)
      | none => acc)
    ([], h0)

/-- graph/graph.go: `Copy` in the pointer model: fresh maps, freshly
allocated node and edge cells, adjacency rebuilt. -/
def pCopy (g : PGraph) (h : Heap) : PGraph × Heap :=
  let nsh := pCopyNodes g.nodes h
  let esh := pCopyEdges g.edges nsh.2
  let g1 : PGraph :=
    { pMakeGraph g.options.isDirected g.options.isMulti with
      nodes := nsh.1, edges := esh.1 }
  (pRebuildAdjacencyMap g1 esh.2, esh.2)

/-- graph/graph.go: `AddNode` in the pointer model (the stored pointer is
the argument itself). -/
def pAddNode (g : PGraph) (h : Heap) (a : Addr) : PGraph :=
  match mapLookup h.nodeCells a with
  | none => g
  | some nd =>
    match mapLookup g.nodes nd.key with
    | some _ => g
    | none => { g with nodes := mapInsert g.nodes nd.key a }

/-- graph/graph.go: `AddEdge` in the pointer model, with the source's check
order: duplicate key, multi-edge violation, missing endpoints; on success
the pointer is stored and the adjacency map rebuilt. -/
def pAddEdge (g : PGraph) (h : Heap) (a : Addr) : PGraph :=
  match mapLookup h.edgeCells a with
  | none => g
  | some e =>
    if (mapLookup g.edges e.key).isSome then g
    else if !g.options.isMulti &&
        ((lookupD g.adjacencyMap e.source []).contains e.destination ||
          (!g.options.isDirected &&
            (lookupD g.adjacencyMap e.destination []).contains e.source)) then g
    else if (mapLookup g.nodes e.source).isNone then g
    else if (mapLookup g.nodes e.destination).isNone then g
    else pRebuildAdjacencyMap { g with edges := mapInsert g.edges e.key a } h

/-- graph/graph.go: `RemoveNodeByKey` in the pointer model. -/
def pRemoveNodeByKey (g : PGraph) (h : Heap) (key : TKey) : PGraph :=
  match mapLookup g.nodes key with
  | none => g
  | some _ =>
    let edgesToRemove := (g.edges.filter (fun p =>
      match mapLookup h.edgeCells p.2 with
      | some e => e.source == key || e.destination == key
      | none => false)).map Prod.fst
    let edges1 := edgesToRemove.foldl (fun m k => mapDelete m k) g.edges
    let adj1 := mapDelete g.adjacencyMap key
    let adj2 := adj1.map (fun p => (p.1, p.2.filter (fun n => !(n == key))))
    { g with
      nodes := mapDelete g.nodes key
      edges := edges1
      adjacencyMap := adj2 }

/-- graph/graph.go: `RemoveEdgeByKey` in the pointer model. -/
def pRemoveEdgeByKey (g : PGraph) (h : Heap) (key : TKey) : PGraph :=
  match mapLookup g.edges key with
  | none => g
  | some _ => pRebuildAdjacencyMap { g with edges := mapDelete g.edges key } h

/-- Rebuild state of `RebuildEdges` in the pointer model: the evolving heap
joins the value-model state. -/
structure PRebuildState where
  newEdges : List (TKey × Addr)
  used : List TKey
  counter : TKey
  seen : List (TKey × TKey)
  heap : Heap

/-- graph/graph.go: `RebuildEdges` in the pointer model: every kept edge is
re-allocated as a fresh cell (`newEdge := &Edge{...}`). -/
def pRebuildEdges (g : PGraph) (h : Heap) : PGraph × Heap :=
  let final := (pEdgeVals g h).foldl
    (fun (st : PRebuildState) e =>
      let id := edgeID g.options.isDirected e.source e.destination
      if !g.options.isMulti && st.seen.contains id then st
      else
        let seen' := if g.options.isMulti then st.seen else st.seen ++ [id]
        if e.key = 0 || st.used.contains e.key then
          let k := nextFreeKey st.used st.counter (st.used.length + 1)
          let ah := allocEdge st.heap { e with key := k }
          { newEdges := mapInsert st.newEdges k ah.1
            used := st.used ++ [k]
            counter := k + 1
            seen := seen'
            heap := ah.2 }
        else
          let ah := allocEdge st.heap e
          { newEdges := mapInsert st.newEdges e.key ah.1
            used := st.used ++ [e.key]
            counter := st.counter
            seen := seen'
            heap := ah.2 })
    { newEdges := [], used := [], counter := 1, seen := [], heap := h }
  ({ g with edges := final.newEdges }, final.heap)

/-- graph/graph.go: `WithGraphOptions`. -/
def pWithGraphOptions (opts : TOptions) : PGraph → PGraph :=
  fun g => { g with options := opts }

/-- graph/graph.go: `UpdateGraph` in the pointer model: apply the option
functions, then rebuild edges and adjacency only if the options changed. -/
def pUpdateGraph (g : PGraph) (h : Heap) (opts : List (PGraph → PGraph)) :
    PGraph × Heap :=
  let g1 := opts.foldl (fun x opt => opt x) g
  if g.options = g1.options then (g1, h)
  else
    let gh := pRebuildEdges g1 h
    (pRebuildAdjacencyMap gh.1 gh.2, gh.2)

/-- The mutations the claim quantifies over, applied to the copy:
adding a node or an edge (a fresh cell, as `MakeNode`/`MakeEdge` allocate),
removing a node or an edge by key, and updating options. -/
inductive Mutation where
  | addNode (nd : Node)
  | addEdge (e : Edge)
  | removeNode (k : TKey)
  | removeEdge (k : TKey)
  | update (opts : List (PGraph → PGraph))

def applyMutation (m : Mutation) (g : PGraph) (h : Heap) : PGraph × Heap :=
  match m with
  | .addNode nd =>
    let ah := allocNode h nd
    (pAddNode g ah.2 ah.1, ah.2)
  | .addEdge e =>
    let ah := allocEdge h e
    (pAddEdge g ah.2 ah.1, ah.2)
  | .removeNode k => (pRemoveNodeByKey g h k, h)
  | .removeEdge k => (pRemoveEdgeByKey g h k, h)
  | .update opts => pUpdateGraph g h opts

/-- The heap addresses a pointer graph holds. -/
def PGraph.addrs (g : PGraph) : List Addr :=
  g.nodes.map Prod.snd ++ g.edges.map Prod.snd

/-- Every address the graph holds was allocated (is below the bound). -/
@[reducible]
def AddrsBelow (g : PGraph) (h : Heap) : Prop :=
  ∀ a ∈ g.addrs, a < h.next

/-- One heap extends another: the cell lists only grow, at fresh
addresses. -/
def HeapExtends (h h' : Heap) : Prop :=
  (∃ ext, h'.nodeCells = h.nodeCells ++ ext ∧ ∀ p ∈ ext, h.next ≤ p.1) ∧
  (∃ ext, h'.edgeCells = h.edgeCells ++ ext ∧ ∀ p ∈ ext, h.next ≤ p.1) ∧
  h.next ≤ h'.next

/-- Concrete heap for the C9 witness: two node cells and one edge cell. -/
def c9Heap : Heap :=
  { nodeCells := [(0, { key := 1, label := "a" }), (1, { key := 2, label := "b" })]
    edgeCells := [(2, { key := 1, source := 1, destination := 2, weight := 4, label := "" })]
    next := 3 }

/-- Concrete pointer graph for the C9 witness: keys 1 and 2 at addresses 0
and 1, one edge 1→2 at address 2. -/
def c9PGraph : PGraph :=
  { nodes := [(1, 0), (2, 1)]
    edges := [(1, 2)]
    adjacencyMap := [(1, [2])]
    options := { isMulti := false, isDirected := true } }

deriving instance DecidableEq for Except

/-! ## Theorems -/

/-- Helper: a negative edge anywhere in the remaining edge list makes the
seeding loop take the early invalid return. -/
theorem seedEdges_neg (isDirected : Bool) (es : List Edge)
    (st : DistM × NextM) (h : ∃ e ∈ es, e.weight < 0) :
    seedEdges isDirected es st =
      .inl { distances := [], next := [], isValid := false,
             message := "Graph contains negative weights" } := by
  induction es generalizing st with
  | nil => simp at h
  | cons e rest ih =>
    obtain ⟨e', he', hw⟩ := h
    obtain ⟨st1, st2⟩ := st
    rcases List.mem_cons.mp he' with h1 | h1
    · subst h1
      simp only [seedEdges, if_pos hw]
    · by_cases hw0 : e.weight < 0
      · simp only [seedEdges, if_pos hw0]
      · simp only [seedEdges, if_neg hw0]
        exact ih _ ⟨e', h1, hw⟩

/-- **C1, counterexample.**  `cex1Graph` is a graph with a non-nil node
store, a negative-weight edge and no negative-weight cycle, yet
`FindAllPairsShortestPath` marks the result invalid instead of returning
true shortest-path distances. -/
theorem C1_floyd_negative_weight_counterexample :
    cex1Graph.nodes ≠ none ∧
    cex1Graph.edgeVals.any (fun e => decide (e.weight < 0)) = true ∧
    hasNegCycleB cex1Graph = false ∧
    findAllPairsShortestPath cex1Graph =
      .ok { distances := [], next := [], isValid := false,
            message := "Graph contains negative weights" } := by
  refine ⟨by decide, by decide, by decide, by decide⟩

/-- **C1, amended.**  For every graph with a non-nil, non-empty node store
that contains at least one negative-weight edge — whether or not it has a
negative-weight cycle — `FindAllPairsShortestPath` returns (without error) a
result that is marked invalid with the message "Graph contains negative
weights" and holds no distances; the diagonal negative-cycle check is never
what rejects such graphs. -/
theorem C1_floyd_rejects_all_negative_weights (g : Graph)
    (hnn : g.nodes ≠ none) (hne : g.nodesL.length ≠ 0)
    (hneg : ∃ e ∈ g.edgeVals, e.weight < 0) :
    findAllPairsShortestPath g =
      .ok { distances := [], next := [], isValid := false,
            message := "Graph contains negative weights" } := by
  obtain ⟨ns, hns⟩ := Option.ne_none_iff_exists'.mp hnn
  unfold findAllPairsShortestPath findFloydWarshall
  rw [hns]
  simp only [if_neg hne, seedEdges_neg _ _ _ hneg]

/-- Witness for `C1_floyd_rejects_all_negative_weights` at `cex1Graph`. -/
theorem C1_floyd_rejects_all_negative_weights_witness :
    cex1Graph.nodes ≠ none ∧ cex1Graph.nodesL.length ≠ 0 ∧
    findAllPairsShortestPath cex1Graph =
      .ok { distances := [], next := [], isValid := false,
            message := "Graph contains negative weights" } :=
  ⟨by decide, by decide,
    C1_floyd_rejects_all_negative_weights cex1Graph (by decide) (by decide)
      ⟨{ key := 1, source := 1, destination := 2, weight := -1, label := "" },
        by decide, by decide⟩⟩

/-- **C3.**  Evaluation at the failing input: `mstBugGraph` is connected
with two nodes, yet `FindMSTPrim` reports `IsPossible = true` with an empty
edge list and total weight 0 — not a spanning tree (which needs one edge).
The `minWeight` maps are initialised with `^TWeight(0) = -1`, so
`findMinKey` never finds a vertex and the loop exits immediately.  (The
report revision of the same function returns the correct single-edge
spanning tree.) -/
theorem C3_mst_returns_empty_tree_on_connected_graph :
    mstBugGraph.isConnected = true ∧
    mstBugGraph.nodesL.length = 2 ∧
    findMSTPrim mstBugGraph =
      .ok { totalWeight := 0, edges := [], isPossible := true } ∧
    findMSTPrimReport mstBugGraph =
      .ok { totalWeight := 1,
            edges := [{ key := 1, source := 1, destination := 2, weight := 1,
                        label := "" }],
            isPossible := true } := by
  refine ⟨by decide, by decide, by decide, by decide⟩

/-- **C6.**  Evaluation at the failing input: the mutation API never rejects
key `0` — adding node `0` to a fresh graph succeeds and stores it, and an
edge with key `0` between stored nodes is accepted as well, although `0` is
the "not found" sentinel of `getEdgeKey` and of `traceCycle`'s predecessor
walk. -/
theorem C6_key_zero_is_accepted :
    (((makeGraph []).addNode { key := 0, label := "" }).1 = none ∧
      mapLookup ((makeGraph []).addNode { key := 0, label := "" }).2.nodesL 0 =
        some { key := 0, label := "" }) ∧
    ((((testGraph false [1, 2] []).addEdge
        { key := 0, source := 1, destination := 2, weight := 1,
          label := "" }).1 = none) ∧
      mapLookup (((testGraph false [1, 2] []).addEdge
        { key := 0, source := 1, destination := 2, weight := 1,
          label := "" }).2.edgesL) 0 =
        some { key := 0, source := 1, destination := 2, weight := 1,
               label := "" }) := by
  refine ⟨⟨by decide, by decide⟩, by decide, by decide⟩

/-- **C8.**  For every graph with a non-nil node store whose edges all start
at stored nodes (the documented edge-endpoint invariant) and that contains
at least one negative-weight edge, `FindEccentricityAndRadius` returns a
hard error (the negative-weight validation failure) and no result record. -/
theorem C8_eccentricity_rejects_negative_weights (g : Graph)
    (hnn : g.nodes ≠ none)
    (hend : ∀ e ∈ g.edgeVals, e.source ∈ g.nodeKeys)
    (hneg : ∃ e ∈ g.edgeVals, e.weight < 0) :
    ∃ k w, findEccentricityAndRadius g = .error (.dijkstraNegativeWeight k w) := by
  obtain ⟨ns, hns⟩ := Option.ne_none_iff_exists'.mp hnn
  obtain ⟨e, he, hw⟩ := hneg
  have hlen : g.nodesL.length ≠ 0 := by
    have := hend e he
    intro h0
    rw [List.length_eq_zero] at h0
    simp [Graph.nodeKeys, h0] at this
  have hfind : (g.edgeVals.find? (fun e => decide (e.weight < 0))).isSome := by
    rw [List.find?_isSome]
    exact ⟨e, he, by simpa using hw⟩
  obtain ⟨e', hfind'⟩ := Option.isSome_iff_exists.mp hfind
  unfold findEccentricityAndRadius
  rw [hns]
  simp only [if_neg hlen, hfind']
  exact ⟨e'.key, e'.weight, rfl⟩

/-- Witness for `C8_eccentricity_rejects_negative_weights` at
`cex1Graph`. -/
theorem C8_eccentricity_rejects_negative_weights_witness :
    cex1Graph.nodes ≠ none ∧
    (∃ k w, findEccentricityAndRadius cex1Graph =
      .error (.dijkstraNegativeWeight k w)) :=
  ⟨by decide,
    C8_eccentricity_rejects_negative_weights cex1Graph (by decide)
      (by decide)
      ⟨{ key := 1, source := 1, destination := 2, weight := -1, label := "" },
        by decide, by decide⟩⟩

/-- **C10.**  For every graph with a non-nil node store whose directedness
option is false, `FindNegativeCycles` returns without error an empty cycle
list, `HasNegativeCycles = false` and `TotalCycles = 0`, regardless of the
edge weights. -/
theorem C10_undirected_returns_no_cycles (g : Graph) (hnn : g.nodes ≠ none)
    (hdir : g.options.isDirected = false) :
    ∃ r, findNegativeCycles g = .ok r ∧ r.cycles = [] ∧
      r.hasNegativeCycles = false ∧ r.totalCycles = 0 := by
  obtain ⟨ns, hns⟩ := Option.ne_none_iff_exists'.mp hnn
  by_cases h0 : g.nodesL.length = 0
  · refine ⟨_, by simp only [findNegativeCycles, hns, if_pos h0]; rfl, rfl, rfl, rfl⟩
  · refine ⟨_, by simp only [findNegativeCycles, hns, if_neg h0, hdir,
      Bool.not_false, if_pos]; rfl, rfl, rfl, rfl⟩

/-- Witness for `C10_undirected_returns_no_cycles` at `undirNegGraph`,
whose undirected view does contain a negative-weight cycle. -/
theorem C10_undirected_returns_no_cycles_witness :
    undirNegGraph.nodes ≠ none ∧ undirNegGraph.options.isDirected = false ∧
    ∃ r, findNegativeCycles undirNegGraph = .ok r ∧ r.cycles = [] ∧
      r.hasNegativeCycles = false ∧ r.totalCycles = 0 :=
  ⟨by decide, by decide,
    C10_undirected_returns_no_cycles undirNegGraph (by decide) (by decide)⟩

/-- The neighbor scan appends the same fresh keys (a subset of the scanned
neighbors) to the queue and to the visited list. -/
theorem bfsScan_spec (ns : List TKey) (st : List TKey × List TKey) :
    ∃ new, (bfsScan ns st).1 = st.1 ++ new ∧ (bfsScan ns st).2 = st.2 ++ new ∧
      new ⊆ ns := by
  induction ns generalizing st with
  | nil => exact ⟨[], by simp [bfsScan], by simp [bfsScan], by simp⟩
  | cons n rest ih =>
    by_cases h : n ∈ st.2
    · have hstep : bfsScan (n :: rest) st = bfsScan rest st := by
        simp [bfsScan, h]
      obtain ⟨new, h1, h2, h3⟩ := ih st
      exact ⟨new, by rw [hstep, h1], by rw [hstep, h2],
        fun x hx => List.mem_cons_of_mem _ (h3 hx)⟩
    · have hstep : bfsScan (n :: rest) st
          = bfsScan rest (st.1 ++ [n], st.2 ++ [n]) := by
        simp [bfsScan, h]
      obtain ⟨new, h1, h2, h3⟩ := ih (st.1 ++ [n], st.2 ++ [n])
      refine ⟨n :: new, ?_, ?_, ?_⟩
      · rw [hstep, h1]; simp
      · rw [hstep, h2]; simp
      · intro x hx
        rcases List.mem_cons.mp hx with hx | hx
        · exact hx ▸ List.mem_cons_self _ _
        · exact List.mem_cons_of_mem _ (h3 hx)

/-- The scan marks only unvisited keys, preserving distinctness. -/
theorem bfsScan_nodup (ns : List TKey) (st : List TKey × List TKey)
    (h : st.2.Nodup) : (bfsScan ns st).2.Nodup := by
  induction ns generalizing st with
  | nil => exact h
  | cons n rest ih =>
    by_cases hc : n ∈ st.2
    · have hstep : bfsScan (n :: rest) st = bfsScan rest st := by
        simp [bfsScan, hc]
      rw [hstep]; exact ih st h
    · have hstep : bfsScan (n :: rest) st
          = bfsScan rest (st.1 ++ [n], st.2 ++ [n]) := by
        simp [bfsScan, hc]
      rw [hstep]
      refine ih _ ?_
      simpa [List.nodup_append] using ⟨h, hc⟩

/-- The BFS loop only grows the visited list. -/
theorem bfsLoop_visited_mono (adj : List (TKey × List TKey)) (fuel : Nat)
    (q vis : List TKey) : vis ⊆ bfsLoop adj fuel q vis := by
  induction fuel generalizing q vis with
  | zero => exact fun x hx => hx
  | succ fuel ih =>
    cases q with
    | nil => exact fun x hx => hx
    | cons current rest =>
      obtain ⟨new, h1, h2, _⟩ := bfsScan_spec (lookupD adj current []) (rest, vis)
      show vis ⊆ bfsLoop adj fuel _ _
      intro x hx
      exact ih _ _ (h2 ▸ List.mem_append_left _ hx)

/-- With adjacency targets inside the key set, the BFS visited list stays
inside the key set. -/
theorem bfsLoop_visited_subset (adj : List (TKey × List TKey))
    (keys : List TKey) (hadj : ∀ k v, v ∈ lookupD adj k [] → v ∈ keys)
    (fuel : Nat) (q vis : List TKey) (hv : vis ⊆ keys) :
    bfsLoop adj fuel q vis ⊆ keys := by
  induction fuel generalizing q vis with
  | zero => exact hv
  | succ fuel ih =>
    cases q with
    | nil => exact hv
    | cons current rest =>
      obtain ⟨new, h1, h2, h3⟩ := bfsScan_spec (lookupD adj current []) (rest, vis)
      refine ih _ _ ?_
      rw [h2]
      intro x hx
      rcases List.mem_append.mp hx with hx | hx
      · exact hv hx
      · exact hadj current x (h3 hx)

/-- The BFS visited list stays duplicate-free. -/
theorem bfsLoop_nodup (adj : List (TKey × List TKey)) (fuel : Nat)
    (q vis : List TKey) (h : vis.Nodup) : (bfsLoop adj fuel q vis).Nodup := by
  induction fuel generalizing q vis with
  | zero => exact h
  | succ fuel ih =>
    cases q with
    | nil => exact h
    | cons current rest =>
      exact ih _ _ (bfsScan_nodup (lookupD adj current []) (rest, vis) h)

/-- The component counter never decreases. -/
theorem componentsLoop_ge (g : Graph) (ns vis : List TKey) (c : Nat) :
    c ≤ componentsLoop g ns vis c := by
  induction ns generalizing vis c with
  | nil => exact le_refl c
  | cons n rest ih =>
    by_cases h : n ∈ vis
    · simpa [componentsLoop, h] using ih vis c
    · calc c ≤ c + 1 := Nat.le_succ c
        _ ≤ _ := by simpa [componentsLoop, h] using ih (g.bfsComponent n vis) (c + 1)

/-- If every remaining node is already visited, the counter is final. -/
theorem componentsLoop_all_visited (g : Graph) (ns vis : List TKey) (c : Nat)
    (h : ∀ n ∈ ns, n ∈ vis) : componentsLoop g ns vis c = c := by
  induction ns with
  | nil => rfl
  | cons n rest ih =>
    have hn : n ∈ vis := h n (List.mem_cons_self _ _)
    have hstep : componentsLoop g (n :: rest) vis c = componentsLoop g rest vis c := by
      simp [componentsLoop, hn]
    rw [hstep]
    exact ih fun m hm => h m (List.mem_cons_of_mem _ hm)

/-- If the counter comes back unchanged, every remaining node was already
visited when its turn came (with the visited list never shrinking, that is:
already in the incoming visited list). -/
theorem componentsLoop_eq_imp (g : Graph) (ns : List TKey) :
    ∀ (vis : List TKey) (c : Nat), componentsLoop g ns vis c = c →
      ∀ n ∈ ns, n ∈ vis := by
  induction ns with
  | nil => intro vis c _ n hn; simp at hn
  | cons n rest ih =>
    intro vis c heq m hm
    by_cases h : n ∈ vis
    · have hrest : componentsLoop g rest vis c = c := by
        simpa [componentsLoop, h] using heq
      rcases List.mem_cons.mp hm with hm | hm
      · subst hm
        exact h
      · exact ih vis c hrest m hm
    · exfalso
      have : componentsLoop g rest (g.bfsComponent n vis) (c + 1) = c := by
        simpa [componentsLoop, h] using heq
      have hge := componentsLoop_ge g rest (g.bfsComponent n vis) (c + 1)
      omega

/-- A successful map lookup comes from an entry of the list. -/
theorem mapLookup_mem (m : List (TKey × α)) (k : TKey) (v : α)
    (h : mapLookup m k = some v) : (k, v) ∈ m := by
  induction m with
  | nil => simp [mapLookup] at h
  | cons p rest ih =>
    obtain ⟨a, b⟩ := p
    by_cases hk : a = k
    · subst hk
      have hb : b = v := by simpa [mapLookup] using h
      subst hb
      exact List.mem_cons_self _ _
    · have ht : mapLookup rest k = some v := by simpa [mapLookup, hk] using h
      exact List.mem_cons_of_mem _ (ih ht)

/-- Duplicate-free lists with the same elements and a common bound have
equal lengths exactly when the larger one is covered. -/
theorem length_eq_iff_covers {V keys : List TKey} (hV : V.Nodup)
    (hK : keys.Nodup) (hsub : V ⊆ keys) :
    V.length = keys.length ↔ ∀ n ∈ keys, n ∈ V := by
  constructor
  · intro hlen n hn
    have hsp : List.Subperm V keys := hV.subperm hsub
    have hperm : List.Perm V keys := hsp.perm_of_length_le (le_of_eq hlen.symm)
    exact hperm.mem_iff.mpr hn
  · intro hall
    have h1 : List.Subperm V keys := hV.subperm hsub
    have h2 : List.Subperm keys V := hK.subperm fun n hn => hall n hn
    exact le_antisymm h1.length_le h2.length_le

/-- **C5, counterexample.**  On the empty graph, `GetConnectedComponents`
returns `0` while `IsConnected` returns `true`, so the equivalence claimed
"including the empty graph" fails there. -/
theorem C5_empty_graph_counterexample :
    (makeGraph []).getConnectedComponents = 0 ∧
    (makeGraph []).isConnected = true ∧
    ¬((makeGraph []).getConnectedComponents = 1 ↔
        (makeGraph []).isConnected = true) := by
  refine ⟨by decide, by decide, by decide⟩

/-- **C5, amended.**  For every non-empty graph with duplicate-free node
keys whose adjacency lists only mention stored node keys (as holds for
every graph maintained through the API), `GetConnectedComponents` returns 1
iff `IsConnected` returns true; on the empty graph `GetConnectedComponents`
returns 0 while `IsConnected` returns true. -/
theorem C5_components_iff_connected :
    (∀ g : Graph, g.nodesL ≠ [] → g.nodeKeys.Nodup →
      (∀ p ∈ g.adjacencyMap, ∀ v ∈ p.2, v ∈ g.nodeKeys) →
      (g.getConnectedComponents = 1 ↔ g.isConnected = true)) ∧
    (∀ g : Graph, g.nodesL = [] →
      g.getConnectedComponents = 0 ∧ g.isConnected = true) := by
  constructor
  · intro g hne hnodup hadj0
    have hadj : ∀ k v, v ∈ lookupD g.adjacencyMap k [] → v ∈ g.nodeKeys := by
      intro k v hv
      unfold lookupD at hv
      cases hm : mapLookup g.adjacencyMap k with
      | none => rw [hm] at hv; simp at hv
      | some l =>
        rw [hm] at hv
        exact hadj0 (k, l) (mapLookup_mem _ _ _ hm) v hv
    obtain ⟨k0, n0, rest, hns⟩ : ∃ k0 n0 rest, g.nodesL = (k0, n0) :: rest := by
      cases h : g.nodesL with
      | nil => exact absurd h hne
      | cons p r =>
        obtain ⟨a, b⟩ := p
        exact ⟨a, b, r, rfl⟩
    have hkeys : g.nodeKeys = k0 :: rest.map Prod.fst := by
      simp [Graph.nodeKeys, hns]
    have hk0 : k0 ∈ g.nodeKeys := by rw [hkeys]; exact List.mem_cons_self _ _
    set V := bfsLoop g.adjacencyMap g.bfsFuel [k0] [k0] with hVdef
    have hVnodup : V.Nodup := bfsLoop_nodup _ _ _ _ (List.nodup_singleton k0)
    have hVsub : V ⊆ g.nodeKeys :=
      bfsLoop_visited_subset _ _ hadj _ _ _ (by
        intro x hx
        rcases List.mem_singleton.mp hx with rfl
        exact hk0)
    have hVk0 : k0 ∈ V := bfsLoop_visited_mono _ _ _ _ (List.mem_singleton.mpr rfl)
    have hlen0 : g.nodesL.length ≠ 0 := by
      rw [hns]; simp
    -- the components side
    have hcomp : g.getConnectedComponents = componentsLoop g (rest.map Prod.fst) V 1 := by
      have hfirst : componentsLoop g g.nodeKeys [] 0
          = componentsLoop g (rest.map Prod.fst) V 1 := by
        rw [hkeys]
        simp only [componentsLoop, List.contains, List.elem]
        rfl
      simp only [Graph.getConnectedComponents, if_neg hlen0]
      exact hfirst
    have hcompIff : g.getConnectedComponents = 1 ↔ ∀ n ∈ g.nodeKeys, n ∈ V := by
      rw [hcomp]
      constructor
      · intro h1 n hn
        rw [hkeys] at hn
        rcases List.mem_cons.mp hn with rfl | hn
        · exact hVk0
        · exact componentsLoop_eq_imp g (rest.map Prod.fst) V 1 h1 n hn
      · intro hall
        exact componentsLoop_all_visited g _ _ _ fun n hn =>
          hall n (by rw [hkeys]; exact List.mem_cons_of_mem _ hn)
    -- the isConnected side
    have hconnIff : g.isConnected = true ↔ ∀ n ∈ g.nodeKeys, n ∈ V := by
      have hclen : g.nodeKeys.length = g.nodesL.length := by
        simp [Graph.nodeKeys]
      have : g.isConnected = (V.length == g.nodesL.length) := by
        simp only [Graph.isConnected, hns]
      rw [this, beq_iff_eq, ← hclen]
      exact length_eq_iff_covers hVnodup hnodup hVsub
    rw [hcompIff, hconnIff]
  · intro g h0
    constructor
    · simp [Graph.getConnectedComponents, h0]
    · simp [Graph.isConnected, h0]

/-- Witness for `C5_components_iff_connected` at `mstBugGraph` (non-empty
branch) and the empty graph (empty branch). -/
theorem C5_components_iff_connected_witness :
    mstBugGraph.nodesL ≠ [] ∧
    (mstBugGraph.getConnectedComponents = 1 ↔ mstBugGraph.isConnected = true) ∧
    ((makeGraph []).getConnectedComponents = 0 ∧
      (makeGraph []).isConnected = true) :=
  ⟨by decide,
    C5_components_iff_connected.1 mstBugGraph (by decide) (by decide)
      (by decide),
    C5_components_iff_connected.2 (makeGraph []) (by decide)⟩

/-- Reading back the key just written. -/
theorem mapLookup_mapInsert_self (m : List (TKey × α)) (k : TKey) (v : α) :
    mapLookup (mapInsert m k v) k = some v := by
  induction m with
  | nil => simp [mapInsert, mapLookup]
  | cons p rest ih =>
    obtain ⟨a, b⟩ := p
    by_cases h : a = k
    · subst h
      simp [mapInsert, mapLookup]
    · simp [mapInsert, mapLookup, h, ih]

/-- Writing one key leaves the others unchanged. -/
theorem mapLookup_mapInsert_other (m : List (TKey × α)) (k k' : TKey) (v : α)
    (h : k' ≠ k) : mapLookup (mapInsert m k v) k' = mapLookup m k' := by
  have hk : ¬k = k' := fun hh => h hh.symm
  induction m with
  | nil => simp [mapInsert, mapLookup, hk]
  | cons p rest ih =>
    obtain ⟨a, b⟩ := p
    by_cases ha : a = k
    · subst ha
      simp [mapInsert, mapLookup, hk]
    · simp only [mapInsert, if_neg ha, mapLookup, ih]

/-- Membership in an adjacency list after one `adjStep`. -/
theorem mem_adjStep (dir : Bool) (adj : List (TKey × List TKey)) (e : Edge)
    (a b : TKey) :
    b ∈ lookupD (adjStep dir adj e) a [] ↔
      b ∈ lookupD adj a [] ∨ (a = e.source ∧ b = e.destination) ∨
        (dir = false ∧ a = e.destination ∧ b = e.source) := by
  have hin : ∀ (m : List (TKey × List TKey)) (k x : TKey) (l : List TKey),
      x ∈ lookupD (mapInsert m k (lookupD m k [] ++ l)) a [] ↔
        x ∈ lookupD m a [] ∨ (a = k ∧ x ∈ l) := by
    intro m k x l
    by_cases hak : a = k
    · subst hak
      unfold lookupD
      rw [mapLookup_mapInsert_self]
      simp
    · unfold lookupD
      rw [mapLookup_mapInsert_other _ _ _ _ hak]
      simp [hak]
  cases dir with
  | true =>
    show b ∈ lookupD
        (mapInsert adj e.source (lookupD adj e.source [] ++ [e.destination]))
        a [] ↔ _
    rw [hin]
    simp
  | false =>
    show b ∈ lookupD
        (mapInsert
          (mapInsert adj e.source (lookupD adj e.source [] ++ [e.destination]))
          e.destination
          (lookupD
            (mapInsert adj e.source (lookupD adj e.source [] ++ [e.destination]))
            e.destination [] ++ [e.source]))
        a [] ↔ _
    rw [hin, hin]
    simp only [List.mem_singleton]
    tauto

/-- Membership in the rebuilt adjacency map is exactly edge-connection (in
the stored direction, or either direction when undirected). -/
theorem mem_rebuildAdjacency_aux (dir : Bool) (es : List Edge)
    (acc : List (TKey × List TKey)) (a b : TKey) :
    b ∈ lookupD (es.foldl (adjStep dir) acc) a [] ↔
      b ∈ lookupD acc a [] ∨
        ∃ e ∈ es, (e.source = a ∧ e.destination = b) ∨
          (dir = false ∧ e.source = b ∧ e.destination = a) := by
  induction es generalizing acc with
  | nil => simp
  | cons e rest ih =>
    simp only [List.foldl_cons]
    rw [ih, mem_adjStep]
    constructor
    · rintro (((h | ⟨rfl, rfl⟩ | ⟨hdir, rfl, rfl⟩) | ⟨e', he', hc⟩))
      · exact Or.inl h
      · exact Or.inr ⟨e, List.mem_cons_self _ _, Or.inl ⟨rfl, rfl⟩⟩
      · exact Or.inr ⟨e, List.mem_cons_self _ _, Or.inr ⟨hdir, rfl, rfl⟩⟩
      · exact Or.inr ⟨e', List.mem_cons_of_mem _ he', hc⟩
    · rintro (h | ⟨e', he', hc⟩)
      · exact Or.inl (Or.inl h)
      · rcases List.mem_cons.mp he' with rfl | he'
        · rcases hc with ⟨h1, h2⟩ | ⟨hdir, h1, h2⟩
          · exact Or.inl (Or.inr (Or.inl ⟨h1.symm, h2.symm⟩))
          · exact Or.inl (Or.inr (Or.inr ⟨hdir, h2.symm, h1.symm⟩))
        · exact Or.inr ⟨e', he', hc⟩

theorem mem_rebuildAdjacency (dir : Bool) (es : List Edge) (a b : TKey) :
    b ∈ lookupD (rebuildAdjacency es dir) a [] ↔
      ∃ e ∈ es, (e.source = a ∧ e.destination = b) ∨
        (dir = false ∧ e.source = b ∧ e.destination = a) := by
  unfold rebuildAdjacency
  rw [mem_rebuildAdjacency_aux]
  simp [lookupD, mapLookup]

/-- `GetNodeByKey` fails exactly when the key is absent from the node store
(a nil store makes every key absent). -/
theorem getNodeByKey_error_iff (g : Graph) (k : TKey) :
    (∃ err, g.getNodeByKey k = .error err) ↔ mapLookup g.nodesL k = none := by
  cases hn : g.nodes with
  | none =>
    simp [Graph.getNodeByKey, hn, Graph.nodesL, mapLookup]
  | some ns =>
    have hL : g.nodesL = ns := by simp [Graph.nodesL, hn]
    rw [hL]
    simp only [Graph.getNodeByKey, hn]
    cases hm : mapLookup ns k <;> simp

/-- **C7.**  `AddEdge` returns an error and leaves the graph unchanged
exactly when the edge key already exists, an endpoint is absent from the
node store, or the graph is non-multi and an edge already connects the
ordered pair (or the unordered pair, if undirected); otherwise it stores
the edge and rebuilds the adjacency map.  Hypotheses: the edge store is
non-nil and the adjacency map is the one derived from the edges (both hold
for every graph maintained through the API). -/
theorem C7_addEdge_spec (g : Graph) (e : Edge)
    (hE : g.edges ≠ none)
    (hAdj : g.adjacencyMap = rebuildAdjacency g.edgeVals g.options.isDirected) :
    (((g.addEdge e).1 ≠ none) ↔
      (mapLookup g.edgesL e.key ≠ none ∨
        mapLookup g.nodesL e.source = none ∨
        mapLookup g.nodesL e.destination = none ∨
        (g.options.isMulti = false ∧
          ∃ e' ∈ g.edgeVals,
            (e'.source = e.source ∧ e'.destination = e.destination) ∨
            (g.options.isDirected = false ∧ e'.source = e.destination ∧
              e'.destination = e.source)))) ∧
    ((g.addEdge e).1 ≠ none → (g.addEdge e).2 = g) ∧
    ((g.addEdge e).1 = none →
      (g.addEdge e).2 = Graph.rebuildAdjacencyMap
        { g with edges := g.edges.map (fun es => mapInsert es e.key e) }) := by
  obtain ⟨es, hes⟩ := Option.ne_none_iff_exists'.mp hE
  have hesL : g.edgesL = es := by simp [Graph.edgesL, hes]
  have h1 : ((lookupD g.adjacencyMap e.source []).contains e.destination = true)
      ↔ ∃ e' ∈ g.edgeVals,
          (e'.source = e.source ∧ e'.destination = e.destination) ∨
          (g.options.isDirected = false ∧ e'.source = e.destination ∧
            e'.destination = e.source) := by
    rw [List.elem_iff, hAdj, mem_rebuildAdjacency]
  cases hdup : mapLookup es e.key with
  | some found =>
    have hstep : g.addEdge e = (some (.edgeWithKeyExists found.key), g) := by
      simp only [Graph.addEdge, Graph.getEdgeByKey, hes, hdup]
    rw [hstep]
    refine ⟨?_, fun _ => rfl, fun hcontra => by simp at hcontra⟩
    simp [hesL, hdup]
  | none =>
    by_cases hc : (!g.options.isMulti &&
        ((lookupD g.adjacencyMap e.source []).contains e.destination ||
          (!g.options.isDirected &&
            (lookupD g.adjacencyMap e.destination []).contains e.source))) = true
    · have hstep : g.addEdge e
          = (some (.sameEdgeNotAllowed e.source e.destination), g) := by
        simp only [Graph.addEdge, Graph.getEdgeByKey, hes, hdup]
        rw [if_pos hc]
      rw [hstep]
      refine ⟨?_, fun _ => rfl, fun hcontra => by simp at hcontra⟩
      have hrhs : g.options.isMulti = false ∧
          ∃ e' ∈ g.edgeVals,
            (e'.source = e.source ∧ e'.destination = e.destination) ∨
            (g.options.isDirected = false ∧ e'.source = e.destination ∧
              e'.destination = e.source) := by
        obtain ⟨hm, hx⟩ := Bool.and_eq_true_iff.mp hc
        refine ⟨by simpa using hm, ?_⟩
        rcases Bool.or_eq_true_iff.mp hx with hc1 | hc2
        · exact h1.mp hc1
        · obtain ⟨hd, hc2'⟩ := Bool.and_eq_true_iff.mp hc2
          have hdF : g.options.isDirected = false := by simpa using hd
          have h2 : ((lookupD g.adjacencyMap e.destination []).contains e.source
              = true) ↔ ∃ e' ∈ g.edgeVals,
                (e'.source = e.destination ∧ e'.destination = e.source) ∨
                (g.options.isDirected = false ∧ e'.source = e.source ∧
                  e'.destination = e.destination) := by
            rw [List.elem_iff, hAdj, mem_rebuildAdjacency]
          obtain ⟨e', he', hcase⟩ := h2.mp hc2'
          rcases hcase with ⟨ha, hb⟩ | ⟨_, ha, hb⟩
          · exact ⟨e', he', Or.inr ⟨hdF, ha, hb⟩⟩
          · exact ⟨e', he', Or.inl ⟨ha, hb⟩⟩
      exact ⟨fun _ => Or.inr (Or.inr (Or.inr hrhs)), fun _ => by simp⟩
    · cases hgs : g.getNodeByKey e.source with
      | error err =>
        have hstep : g.addEdge e = (some (.edgeEndNotExists e.key e.source), g) := by
          simp only [Graph.addEdge, Graph.getEdgeByKey, hes, hdup]
          rw [if_neg hc]
          simp only [hgs]
        rw [hstep]
        refine ⟨?_, fun _ => rfl, fun hcontra => by simp at hcontra⟩
        have habs : mapLookup g.nodesL e.source = none :=
          (getNodeByKey_error_iff g e.source).mp ⟨err, hgs⟩
        exact ⟨fun _ => Or.inr (Or.inl habs), fun _ => by simp⟩
      | ok n1 =>
        cases hgt : g.getNodeByKey e.destination with
        | error err2 =>
          have hstep : g.addEdge e
              = (some (.edgeEndNotExists e.key e.destination), g) := by
            simp only [Graph.addEdge, Graph.getEdgeByKey, hes, hdup]
            rw [if_neg hc]
            simp only [hgs, hgt]
          rw [hstep]
          refine ⟨?_, fun _ => rfl, fun hcontra => by simp at hcontra⟩
          have habs : mapLookup g.nodesL e.destination = none :=
            (getNodeByKey_error_iff g e.destination).mp ⟨err2, hgt⟩
          exact ⟨fun _ => Or.inr (Or.inr (Or.inl habs)), fun _ => by simp⟩
        | ok n2 =>
          have hstep : g.addEdge e = (none, Graph.rebuildAdjacencyMap
              { g with edges := g.edges.map (fun es => mapInsert es e.key e) }) := by
            simp only [Graph.addEdge, Graph.getEdgeByKey, hes, hdup]
            rw [if_neg hc]
            simp only [hgs, hgt]
          rw [hstep]
          refine ⟨?_, fun habs => absurd rfl habs, fun _ => rfl⟩
          simp only [ne_eq, not_true_eq_false, false_iff, not_not]
          intro hRHS
          rcases hRHS with hdup' | habs | habs | ⟨hmulti, hex⟩
          · rw [hesL] at hdup'
        -- contradiction with the lookup being none
            exact hdup' hdup
          · obtain ⟨err, herr⟩ := (getNodeByKey_error_iff g e.source).mpr habs
            rw [hgs] at herr
            exact Except.noConfusion herr
          · obtain ⟨err, herr⟩ := (getNodeByKey_error_iff g e.destination).mpr habs
            rw [hgt] at herr
            exact Except.noConfusion herr
          · apply hc
            have hc1 : (lookupD g.adjacencyMap e.source []).contains e.destination
                = true := h1.mpr hex
            rw [hmulti, hc1]
            rfl

/-- Witness for `C7_addEdge_spec`: on `mstBugGraph` (non-multi, undirected,
edge 1-2 stored), adding a fresh-keyed edge on the same unordered pair is
rejected and leaves the graph unchanged. -/
theorem C7_addEdge_spec_witness :
    mstBugGraph.edges ≠ none ∧
    mstBugGraph.adjacencyMap
      = rebuildAdjacency mstBugGraph.edgeVals mstBugGraph.options.isDirected ∧
    (((mstBugGraph.addEdge
        { key := 2, source := 2, destination := 1, weight := 5, label := "" }).1
      ≠ none) ↔
      (mapLookup mstBugGraph.edgesL 2 ≠ none ∨
        mapLookup mstBugGraph.nodesL 2 = none ∨
        mapLookup mstBugGraph.nodesL 1 = none ∨
        (mstBugGraph.options.isMulti = false ∧
          ∃ e' ∈ mstBugGraph.edgeVals,
            (e'.source = 2 ∧ e'.destination = 1) ∨
            (mstBugGraph.options.isDirected = false ∧ e'.source = 1 ∧
              e'.destination = 2)))) :=
  ⟨by decide, by decide,
    (C7_addEdge_spec mstBugGraph
      { key := 2, source := 2, destination := 1, weight := 5, label := "" }
      (by decide) (by decide)).1⟩

/-- Generic fold invariant. -/
theorem foldl_inv {α β : Type} {P : β → Prop} (f : β → α → β) (l : List α)
    (hstep : ∀ b a, P b → P (f b a)) (b : β) (hb : P b) : P (l.foldl f b) := by
  induction l generalizing b with
  | nil => exact hb
  | cons x xs ih => exact ih _ (hstep _ _ hb)

/-- The minimum scan of `normalizeCycle`: the fold result is the initial
accumulator or a scanned pair, and its value is a lower bound. -/
theorem minFold_spec (ps : List (Nat × TKey)) (acc : Nat × TKey) :
    ((ps.foldl (fun acc p => if p.2 < acc.2 then p else acc) acc) = acc ∨
      (ps.foldl (fun acc p => if p.2 < acc.2 then p else acc) acc) ∈ ps) ∧
    (ps.foldl (fun acc p => if p.2 < acc.2 then p else acc) acc).2 ≤ acc.2 ∧
    ∀ p ∈ ps, (ps.foldl (fun acc p => if p.2 < acc.2 then p else acc) acc).2 ≤ p.2 := by
  induction ps generalizing acc with
  | nil => exact ⟨Or.inl rfl, le_refl _, by simp⟩
  | cons p ps ih =>
    simp only [List.foldl_cons]
    obtain ⟨hmem, hle, hall⟩ := ih (if p.2 < acc.2 then p else acc)
    have hle' : (if p.2 < acc.2 then p else acc).2 ≤ acc.2 := by
      by_cases h : p.2 < acc.2 <;> simp [h]
      exact le_of_lt h
    have hlep : (if p.2 < acc.2 then p else acc).2 ≤ p.2 := by
      by_cases h : p.2 < acc.2 <;> simp [h]
      exact le_of_not_lt h
    refine ⟨?_, le_trans hle hle', ?_⟩
    · rcases hmem with hmem | hmem
      · rw [hmem]
        by_cases h : p.2 < acc.2
        · rw [if_pos h]; exact Or.inr (List.mem_cons_self _ _)
        · rw [if_neg h]; exact Or.inl rfl
      · exact Or.inr (List.mem_cons_of_mem _ hmem)
    · intro q hq
      rcases List.mem_cons.mp hq with rfl | hq
      · exact le_trans hle hlep
      · exact hall q hq

/-- The minimum index points at a global minimum of the list. -/
theorem minVertexIndex_spec (l : List TKey) (hne : l ≠ []) :
    ∃ m, l.get? (minVertexIndex l) = some m ∧ ∀ x ∈ l, m ≤ x := by
  obtain ⟨v0, t, rfl⟩ : ∃ v0 t, l = v0 :: t := by
    cases l with
    | nil => exact absurd rfl hne
    | cons a b => exact ⟨a, b, rfl⟩
  obtain ⟨hmem, hle, hall⟩ := minFold_spec ((v0 :: t).enum) (0, v0)
  set r := ((v0 :: t).enum).foldl (fun acc p => if p.2 < acc.2 then p else acc)
    (0, v0) with hr
  have hget : (v0 :: t).get? r.1 = some r.2 := by
    rcases hmem with hmem | hmem
    · rw [hmem]
      rfl
    · exact List.mem_enum_iff_get?.mp hmem
  have hmin : ∀ x ∈ (v0 :: t), r.2 ≤ x := by
    intro x hx
    obtain ⟨i, hi⟩ := List.mem_iff_get?.mp hx
    exact hall (i, x) (List.mem_enum_iff_get?.mpr hi)
  have hidx : minVertexIndex (v0 :: t) = r.1 := by
    simp only [minVertexIndex, hr]
  rw [hidx]
  exact ⟨r.2, hget, hmin⟩

/-- Normalisation permutes the vertex list. -/
theorem normalizeCycle_perm (c : NegativeCycle) :
    List.Perm (normalizeCycle c).vertices c.vertices := by
  unfold normalizeCycle
  by_cases h : c.vertices = []
  · rw [if_pos h]
  · rw [if_neg h]
    have hp : List.Perm
        (c.vertices.drop (minVertexIndex c.vertices)
          ++ c.vertices.take (minVertexIndex c.vertices))
        (c.vertices.take (minVertexIndex c.vertices)
          ++ c.vertices.drop (minVertexIndex c.vertices)) :=
      List.perm_append_comm
    rw [List.take_append_drop] at hp
    exact hp

/-- Normalisation keeps the reported weight. -/
theorem normalizeCycle_totalWeight (c : NegativeCycle) :
    (normalizeCycle c).totalWeight = c.totalWeight := by
  unfold normalizeCycle
  by_cases h : c.vertices = []
  · rw [if_pos h]
  · rw [if_neg h]

/-- Normalisation puts a minimal vertex first. -/
theorem normalizeCycle_minFirst (c : NegativeCycle) :
    MinFirst (normalizeCycle c).vertices := by
  by_cases h : c.vertices = []
  · intro m hm x hx
    unfold normalizeCycle at hm
    rw [if_pos h] at hm
    simp [h] at hm
  · obtain ⟨m, hget, hmin⟩ := minVertexIndex_spec c.vertices h
    have hlen : minVertexIndex c.vertices < c.vertices.length := by
      rw [List.get?_eq_getElem?] at hget
      exact List.getElem?_eq_some_iff.mp hget |>.1
    have hvert : (normalizeCycle c).vertices
        = c.vertices.drop (minVertexIndex c.vertices)
          ++ c.vertices.take (minVertexIndex c.vertices) := by
      unfold normalizeCycle
      rw [if_neg h]
    intro m' hm' x hx
    have hdropne : c.vertices.drop (minVertexIndex c.vertices) ≠ [] := by
      intro hd
      have := List.drop_eq_nil_iff_le.mp hd
      omega
    have hhead : (normalizeCycle c).vertices.head? = some m := by
      rw [hvert, List.head?_append]
      have : (c.vertices.drop (minVertexIndex c.vertices)).head? = some m := by
        rw [List.head?_drop]
        rw [List.get?_eq_getElem?] at hget
        exact hget
      simp [this]
    rw [hhead] at hm'
    cases hm'
    exact hmin x ((normalizeCycle_perm c).mem_iff.mp hx)

/-- A duplicate-free minimum-first list equals any of its minimum-first
rotations: rotating to the (unique) minimum is a canonical form. -/
theorem rotated_minFirst_eq {l1 l2 : List TKey} (hn : l1.Nodup)
    (h1 : MinFirst l1) (h2 : MinFirst l2) (hrot : List.IsRotated l1 l2) :
    l1 = l2 := by
  rcases hrot with ⟨n, hrot⟩
  by_cases hnil : l1 = []
  · subst hnil
    rw [← hrot]
    simp
  · have hlen : 0 < l1.length := List.length_pos.mpr hnil
    have hmod : l1.rotate (n % l1.length) = l2 := by
      rw [List.rotate_mod]
      exact hrot
    have hn' : n % l1.length < l1.length := Nat.mod_lt _ hlen
    have hl2 : l2 = l1.drop (n % l1.length) ++ l1.take (n % l1.length) := by
      rw [← hmod, List.rotate_eq_drop_append_take (le_of_lt hn')]
    obtain ⟨b, hb⟩ : ∃ b, l1.get? (n % l1.length) = some b := by
      cases hg : l1.get? (n % l1.length) with
      | none =>
        rw [List.get?_eq_getElem?] at hg
        have := List.getElem?_eq_none_iff.mp hg
        omega
      | some b => exact ⟨b, rfl⟩
    have hhead2 : l2.head? = some b := by
      rw [hl2, List.head?_append]
      have hd : (l1.drop (n % l1.length)).head? = some b := by
        rw [List.head?_drop, ← List.get?_eq_getElem?]
        exact hb
      simp [hd]
    obtain ⟨a0, ha0⟩ : ∃ a0, l1.get? 0 = some a0 := by
      cases hg : l1.get? 0 with
      | none =>
        rw [List.get?_eq_getElem?] at hg
        have := List.getElem?_eq_none_iff.mp hg
        omega
      | some a0 => exact ⟨a0, rfl⟩
    have hhead1 : l1.head? = some a0 := by
      rw [← List.get?_zero]
      exact ha0
    have hperm : List.Perm l2 l1 := by
      rw [← hmod]
      exact List.rotate_perm l1 (n % l1.length)
    have hb_min : ∀ x ∈ l1, b ≤ x := fun x hx =>
      h2 b hhead2 x (hperm.mem_iff.mpr hx)
    have ha_min : ∀ x ∈ l1, a0 ≤ x := fun x hx => h1 a0 hhead1 x hx
    have hbmem : b ∈ l1 := List.get?_mem hb
    have hamem : a0 ∈ l1 := List.get?_mem ha0
    have hab : a0 = b := le_antisymm (ha_min b hbmem) (hb_min a0 hamem)
    have hzero : n % l1.length = 0 := by
      rw [List.get?_eq_getElem?] at hb ha0
      obtain ⟨hlt1, hv1⟩ := List.getElem?_eq_some_iff.mp hb
      obtain ⟨hlt2, hv2⟩ := List.getElem?_eq_some_iff.mp ha0
      have hvv : l1[n % l1.length] = l1[0] := by rw [hv1, hv2, hab]
      exact hn.getElem_inj_iff.mp hvv
    rw [← hmod, hzero, List.rotate_zero]

/-- The vertex-collection walk of `reconstructCycle` returns a
duplicate-free list. -/
theorem collectCycleVertices_nodup (prev : List (TKey × TKey)) (n : Nat)
    (start : TKey) :
    ∀ (fuel : Nat) (current : TKey) (visited acc : List TKey),
      acc.Nodup → (∀ x ∈ acc, x ∈ visited) →
      ∀ l, collectCycleVertices prev n start fuel current visited acc = some l →
        l.Nodup := by
  intro fuel
  induction fuel with
  | zero =>
    intro current visited acc _ _ l h
    simp [collectCycleVertices] at h
  | succ fuel ih =>
    intro current visited acc hnd hsub l h
    unfold collectCycleVertices at h
    by_cases hcs : current = start
    · rw [if_pos hcs] at h
      cases h
      exact hnd
    · rw [if_neg hcs] at h
      by_cases hbad : current = 0 ∨ visited.contains current
      · rw [if_pos hbad] at h
        cases h
      · rw [if_neg hbad] at h
        by_cases hlen : (current :: acc).length > n
        · rw [if_pos hlen] at h
          cases h
        · rw [if_neg hlen] at h
          refine ih _ _ _ ?_ ?_ l h
          · have hcur : current ∉ acc := by
              intro hmem
              exact hbad (Or.inr (by simpa [List.elem_iff] using hsub current hmem))
            exact List.Nodup.cons hcur hnd
          · intro x hx
            rcases List.mem_cons.mp hx with rfl | hx
            · exact List.mem_append_right _ (List.mem_singleton.mpr rfl)
            · exact List.mem_append_left _ (hsub x hx)

/-- Every cycle produced by `reconstructCycle` has duplicate-free,
non-empty vertices. -/
theorem reconstructCycle_spec (g : Graph) (start : TKey)
    (prev : List (TKey × TKey)) (c : NegativeCycle)
    (h : reconstructCycle g start prev = some c) :
    c.vertices.Nodup ∧ c.vertices ≠ [] := by
  unfold reconstructCycle at h
  cases hcv : collectCycleVertices prev g.nodesL.length start
      (g.nodesL.length + 2) (lookupD prev start 0) [start] [start] with
  | none => rw [hcv] at h; cases h
  | some vs =>
    rw [hcv] at h
    have h1 : (match collectCycleEdges g vs with
        | none => none
        | some (cycleEdges, totalWeight) =>
          if vs.length < 2 then none
          else some { vertices := vs, edges := cycleEdges,
                      totalWeight := totalWeight }) = some c := h
    cases hce : collectCycleEdges g vs with
    | none =>
      rw [hce] at h1
      exact Option.noConfusion h1
    | some p =>
      rw [hce] at h1
      obtain ⟨ces, tw⟩ := p
      have h2 : (if vs.length < 2 then none
          else some { vertices := vs, edges := ces,
                      totalWeight := tw : NegativeCycle }) = some c := h1
      by_cases hlen : vs.length < 2
      · rw [if_pos hlen] at h2
        exact Option.noConfusion h2
      · rw [if_neg hlen] at h2
        have hc : c = { vertices := vs, edges := ces, totalWeight := tw } :=
          (Option.some.injEq _ _ ▸ h2).symm
        subst hc
        have hnd : vs.Nodup :=
          collectCycleVertices_nodup prev g.nodesL.length start _ _ _ _
            (List.nodup_singleton start) (fun x hx => hx) vs hcv
        refine ⟨hnd, ?_⟩
        intro hnil
        have hnil' : vs = [] := hnil
        rw [hnil'] at hlen
        simp at hlen

/-- Every cycle produced by `traceCycle` has duplicate-free, non-empty
vertices. -/
theorem traceCycle_spec (g : Graph) (v : TKey) (prev : List (TKey × TKey))
    (c : NegativeCycle) (h : traceCycle g v prev = some c) :
    c.vertices.Nodup ∧ c.vertices ≠ [] := by
  unfold traceCycle at h
  cases hth : tortoiseHare prev g.nodesL.length v v with
  | none => rw [hth] at h; cases h
  | some mp =>
    rw [hth] at h
    have h1 : (match findCycleStart prev (g.nodesL.length + 2) mp with
        | none => none
        | some cycleStart =>
          if cycleStart = 0 then none
          else reconstructCycle g cycleStart prev) = some c := h
    cases hcs : findCycleStart prev (g.nodesL.length + 2) mp with
    | none =>
      rw [hcs] at h1
      exact Option.noConfusion h1
    | some cycleStart =>
      rw [hcs] at h1
      have h2 : (if cycleStart = 0 then none
          else reconstructCycle g cycleStart prev) = some c := h1
      by_cases hz : cycleStart = 0
      · rw [if_pos hz] at h2
        exact Option.noConfusion h2
      · rw [if_neg hz] at h2
        exact reconstructCycle_spec g cycleStart prev c h2

/-- The detection fold preserves the deduplication invariant. -/
theorem detectCycles_inv (g : Graph) (st : BFState)
    (acc : List (List TKey) × List NegativeCycle) (h : CyclesInv acc) :
    CyclesInv (detectCycles g st acc) := by
  unfold detectCycles
  refine foldl_inv _ _ ?_ _ h
  intro b e hb
  dsimp only
  split
  · -- the edge is still relaxable: a cycle may be traced
    split
    · exact hb
    · next cycle htr =>
      split
      · next hguard =>
        obtain ⟨hfresh, hnegW⟩ := Bool.and_eq_true_iff.mp hguard
        have hfresh' : generateCycleKey (normalizeCycle cycle) ∉ b.1 := by
          intro hmem
          simp [List.elem_iff, hmem] at hfresh
        have hnegW' : (normalizeCycle cycle).totalWeight < 0 :=
          of_decide_eq_true hnegW
        obtain ⟨hmem, hpair⟩ := hb
        obtain ⟨hnodup, _⟩ := traceCycle_spec g e.destination st.prev cycle htr
        have hnormnodup : (normalizeCycle cycle).vertices.Nodup :=
          ((normalizeCycle_perm cycle).nodup_iff).mpr hnodup
        constructor
        · intro c hc
          rcases List.mem_append.mp hc with hc | hc
          · obtain ⟨hg, hk⟩ := hmem c hc
            exact ⟨hg, List.mem_append_left _ hk⟩
          · rcases List.mem_singleton.mp hc with rfl
            refine ⟨⟨hnegW', hnormnodup, normalizeCycle_minFirst cycle⟩, ?_⟩
            exact List.mem_append_right _ (List.mem_singleton.mpr rfl)
        · rw [List.pairwise_append]
          refine ⟨hpair, List.pairwise_singleton _ _, ?_⟩
          intro c1 hc1 c2 hc2
          rcases List.mem_singleton.mp hc2 with rfl
          intro heq
          apply hfresh'
          show (normalizeCycle cycle).vertices ∈ b.1
          rw [← heq]
          exact (hmem c1 hc1).2
      · exact hb
  · exact hb

/-- The whole detection pass (all start vertices) keeps the deduplication
invariant from the empty state. -/
theorem findAllNegativeCycles_inv (g : Graph) :
    (∀ c ∈ findAllNegativeCycles g, GoodCycle c) ∧
    (findAllNegativeCycles g).Pairwise
      (fun c1 c2 => c1.vertices ≠ c2.vertices) := by
  have h : CyclesInv ((getSortedNodeKeys g.nodesL).foldl
      (fun (acc : List (List TKey) × List NegativeCycle) start =>
        let dist0 := (getSortedNodeKeys g.nodesL).foldl
          (fun m k => mapInsert m k infinity) []
        let st0 : BFState :=
          { dist := mapInsert dist0 start 0, prev := [], edgePrev := [] }
        let st := bfRounds g.edgeVals ((getSortedNodeKeys g.nodesL).length - 1) st0
        detectCycles g st acc)
      ([], [])) := by
    refine foldl_inv _ _ ?_ _ ⟨by simp, List.Pairwise.nil⟩
    intro b start hb
    exact detectCycles_inv g _ b hb
  exact ⟨fun c hc => (h.1 c hc).1, h.2⟩

/-- **C4.**  Every cycle reported by `FindNegativeCycles`' detection pass
has strictly negative total weight, and no two reported cycles are rotations
of one another (the dedup key is the vertex list rotated to start at its
minimum vertex); on the directed triangle A→B→C→A with weights −5, 2, 1
exactly one cycle is reported, with total weight −2 and vertices {A,B,C},
no matter which start vertex the relaxation used. -/
theorem C4_negative_cycles_unique_and_negative :
    (∀ g : Graph,
      (∀ c ∈ findAllNegativeCycles g, c.totalWeight < 0) ∧
      (findAllNegativeCycles g).Pairwise
        (fun c1 c2 => ¬ List.IsRotated c1.vertices c2.vertices)) ∧
    findNegativeCycles triangleGraph = .ok
      { cycles := [{ vertices := [1, 2, 3], edges := [3, 1, 2],
                     totalWeight := -2 }],
        hasNegativeCycles := true, totalCycles := 1,
        message := "Found 1 negative cycle(s)" } := by
  constructor
  · intro g
    obtain ⟨hgood, hpair⟩ := findAllNegativeCycles_inv g
    refine ⟨fun c hc => (hgood c hc).1, ?_⟩
    refine List.Pairwise.imp_of_mem ?_ hpair
    intro c1 c2 h1 h2 hne hrot
    exact hne (rotated_minFirst_eq (hgood c1 h1).2.1 (hgood c1 h1).2.2
      (hgood c2 h2).2.2 hrot)
  · decide

/-- Witness for `C4_negative_cycles_unique_and_negative`: the triangle's
reported cycle is in the detection output and its weight is negative. -/
theorem C4_negative_cycles_witness :
    ({ vertices := [1, 2, 3], edges := [3, 1, 2],
        totalWeight := -2 : NegativeCycle }
      ∈ findAllNegativeCycles triangleGraph) ∧
    ({ vertices := [1, 2, 3], edges := [3, 1, 2],
        totalWeight := -2 : NegativeCycle }.totalWeight < 0) :=
  ⟨by decide,
    (C4_negative_cycles_unique_and_negative.1 triangleGraph).1 _ (by decide)⟩

/-! ### Sum toolkit for the max-flow development -/

theorem sumBy_nil (h : α → Int) : sumBy ([] : List α) h = 0 := rfl

theorem sumBy_cons (a : α) (l : List α) (h : α → Int) :
    sumBy (a :: l) h = h a + sumBy l h := by
  simp [sumBy]

theorem sumBy_append (l1 l2 : List α) (h : α → Int) :
    sumBy (l1 ++ l2) h = sumBy l1 h + sumBy l2 h := by
  simp [sumBy]

theorem sumBy_congr {l : List α} {h1 h2 : α → Int}
    (h : ∀ x ∈ l, h1 x = h2 x) : sumBy l h1 = sumBy l h2 := by
  induction l with
  | nil => rfl
  | cons a t ih =>
    rw [sumBy_cons, sumBy_cons, h a (List.mem_cons_self _ _),
      ih fun x hx => h x (List.mem_cons_of_mem _ hx)]

theorem sumBy_zero (l : List α) : sumBy l (fun _ => (0 : Int)) = 0 := by
  induction l with
  | nil => rfl
  | cons a t ih => rw [sumBy_cons, ih]; ring

theorem sumBy_add (l : List α) (h1 h2 : α → Int) :
    sumBy l (fun x => h1 x + h2 x) = sumBy l h1 + sumBy l h2 := by
  induction l with
  | nil => rfl
  | cons a t ih =>
    rw [sumBy_cons, sumBy_cons, sumBy_cons, ih]
    ring

theorem sumBy_sub (l : List α) (h1 h2 : α → Int) :
    sumBy l (fun x => h1 x - h2 x) = sumBy l h1 - sumBy l h2 := by
  induction l with
  | nil => rfl
  | cons a t ih =>
    rw [sumBy_cons, sumBy_cons, sumBy_cons, ih]
    ring

theorem sumBy_le (l : List α) (h1 h2 : α → Int)
    (h : ∀ x ∈ l, h1 x ≤ h2 x) : sumBy l h1 ≤ sumBy l h2 := by
  induction l with
  | nil => exact le_refl 0
  | cons a t ih =>
    rw [sumBy_cons, sumBy_cons]
    exact add_le_add (h a (List.mem_cons_self _ _))
      (ih fun x hx => h x (List.mem_cons_of_mem _ hx))

theorem sumBy_perm {l1 l2 : List α} (hp : List.Perm l1 l2) (h : α → Int) :
    sumBy l1 h = sumBy l2 h :=
  List.Perm.sum_eq (hp.map h)

/-- A sum of pointwise zeros vanishes. -/
theorem sumBy_eq_zero {l : List α} {h : α → Int}
    (hz : ∀ x ∈ l, h x = 0) : sumBy l h = 0 := by
  induction l with
  | nil => rfl
  | cons a t ih =>
    rw [sumBy_cons, hz a (List.mem_cons_self _ _),
      ih fun x hx => hz x (List.mem_cons_of_mem _ hx)]
    ring

/-- Summing an indicator of a single element of a duplicate-free list. -/
theorem sumBy_ite_eq {l : List TKey} (hl : l.Nodup) (a : TKey) (c : Int)
    (ha : a ∈ l) : sumBy l (fun v => if v = a then c else 0) = c := by
  induction l with
  | nil => simp at ha
  | cons x t ih =>
    rw [sumBy_cons]
    by_cases hxa : x = a
    · subst hxa
      have hx : x ∉ t := (List.nodup_cons.mp hl).1
      rw [if_pos rfl, sumBy_eq_zero]
      · ring
      · intro v hv
        rw [if_neg]
        intro hva
        exact hx (hva ▸ hv)
    · have ha' : a ∈ t := by
        rcases List.mem_cons.mp ha with h | h
        · exact absurd h.symm hxa
        · exact h
      rw [if_neg hxa, ih (List.nodup_cons.mp hl).2 ha']
      ring

theorem sumBy_ite_eq_not_mem {l : List TKey} (a : TKey) (c : Int)
    (ha : a ∉ l) : sumBy l (fun v => if v = a then c else 0) = 0 := by
  refine sumBy_eq_zero fun v hv => ?_
  rw [if_neg]
  intro hva
  exact ha (hva ▸ hv)

/-- Restricting a sum over `L` to a duplicate-free subset `S`. -/
theorem sumBy_subset {L S : List TKey} (hL : L.Nodup) (hS : S.Nodup)
    (hsub : S ⊆ L) (h : TKey → Int) :
    sumBy L (fun v => if v ∈ S then h v else 0) = sumBy S h := by
  have hperm : List.Perm (L.filter (fun v => decide (v ∈ S))
      ++ L.filter (fun v => !decide (v ∈ S))) L := List.filter_append_perm _ L
  have hsplit : sumBy L (fun v => if v ∈ S then h v else 0)
      = sumBy (L.filter (fun v => decide (v ∈ S))) (fun v => if v ∈ S then h v else 0)
        + sumBy (L.filter (fun v => !decide (v ∈ S)))
            (fun v => if v ∈ S then h v else 0) := by
    rw [← sumBy_append, sumBy_perm hperm]
  rw [hsplit]
  have h2 : sumBy (L.filter (fun v => !decide (v ∈ S)))
      (fun v => if v ∈ S then h v else 0) = 0 := by
    refine sumBy_eq_zero fun v hv => ?_
    have hns := List.of_mem_filter hv
    simp at hns
    rw [if_neg hns]
  have h1 : sumBy (L.filter (fun v => decide (v ∈ S)))
      (fun v => if v ∈ S then h v else 0)
      = sumBy (L.filter (fun v => decide (v ∈ S))) h := by
    refine sumBy_congr fun v hv => ?_
    have hin := List.of_mem_filter hv
    simp at hin
    rw [if_pos hin]
  rw [h1, h2]
  have hpf : List.Perm (L.filter (fun v => decide (v ∈ S))) S := by
    apply List.Subperm.antisymm
    · exact (hL.filter _).subperm fun v hv => by
        have hin := List.of_mem_filter hv
        simpa using hin
    · exact hS.subperm fun v hv => List.mem_filter.mpr ⟨hsub hv, by simpa using hv⟩
  rw [sumBy_perm hpf]
  ring

/-- A double sum of a pair-antisymmetric function over one list
vanishes. -/
theorem sumBy_antisym_zero (l : List TKey) (D : TKey → TKey → Int)
    (hD : ∀ u v, D u v + D v u = 0) :
    sumBy l (fun u => sumBy l (fun v => D u v)) = 0 := by
  induction l with
  | nil => rfl
  | cons a t ih =>
    have hdiag : D a a = 0 := by
      have := hD a a
      omega
    rw [sumBy_cons, sumBy_cons, hdiag]
    have hrow : sumBy t (fun u => sumBy (a :: t) (fun v => D u v))
        = sumBy t (fun u => D u a) + sumBy t (fun u => sumBy t (fun v => D u v)) := by
      rw [← sumBy_add]
      exact sumBy_congr fun u _ => by rw [sumBy_cons]
    rw [hrow, ih]
    have hcancel : sumBy t (fun v => D a v) + sumBy t (fun u => D u a) = 0 := by
      rw [← sumBy_add, ← sumBy_zero t]
      exact sumBy_congr fun v _ => hD a v
    omega

/-- Fubini for list sums. -/
theorem sumBy_comm (A : List α) (B : List β) (h : α → β → Int) :
    sumBy A (fun a => sumBy B (fun b => h a b))
      = sumBy B (fun b => sumBy A (fun a => h a b)) := by
  induction A with
  | nil =>
    rw [sumBy_nil, ← sumBy_zero B]
    exact (sumBy_congr fun b _ => rfl).symm
  | cons a t ih =>
    rw [sumBy_cons, ih, ← sumBy_add]
    exact sumBy_congr fun b _ => by rw [sumBy_cons]

/-! ### Parent chains -/

theorem pchain_ne_nil {parent : List (TKey × TKey)} {source v : TKey}
    {l : List TKey} (h : PChain parent source v l) : l ≠ [] := by
  cases h with
  | base => simp
  | step v l _ _ => simp

theorem pchain_last {parent : List (TKey × TKey)} {source v : TKey}
    {l : List TKey} (h : PChain parent source v l) : l.getLast? = some v := by
  cases h with
  | base => rfl
  | step v l _ _ => simp

theorem pchain_head {parent : List (TKey × TKey)} {source v : TKey}
    {l : List TKey} (h : PChain parent source v l) : l.head? = some source := by
  induction h with
  | base => rfl
  | step v l hc _ ih =>
    rw [List.head?_append, ih]
    rfl

theorem pchain_source_mem {parent : List (TKey × TKey)} {source v : TKey}
    {l : List TKey} (h : PChain parent source v l) : source ∈ l := by
  have hh := pchain_head h
  cases l with
  | nil => simp at hh
  | cons a t =>
    simp only [List.head?_cons, Option.some.injEq] at hh
    rw [hh]
    exact List.mem_cons_self _ _

theorem pchain_endpoint_mem {parent : List (TKey × TKey)} {source v : TKey}
    {l : List TKey} (h : PChain parent source v l) : v ∈ l := by
  have hl := pchain_last h
  exact List.mem_of_mem_getLast? hl

theorem pchain_nodup {parent : List (TKey × TKey)} {source v : TKey}
    {l : List TKey} (h : PChain parent source v l) : l.Nodup := by
  induction h with
  | base => exact List.nodup_singleton _
  | step v l hc hv ih =>
    rw [List.nodup_append]
    exact ⟨ih, List.nodup_singleton _, by simpa using hv⟩

theorem chainPairs_append {l : List TKey} {u : TKey} (v : TKey)
    (hlast : l.getLast? = some u) :
    chainPairs (l ++ [v]) = chainPairs l ++ [(u, v)] := by
  induction l with
  | nil => simp at hlast
  | cons a t ih =>
    cases t with
    | nil =>
      simp only [List.getLast?_singleton, Option.some.injEq] at hlast
      subst hlast
      rfl
    | cons b t2 =>
      rw [List.getLast?_cons_cons] at hlast
      have ihh := ih hlast
      have e1 : chainPairs ((a :: b :: t2) ++ [v])
          = (a, b) :: chainPairs ((b :: t2) ++ [v]) := rfl
      have e2 : chainPairs (a :: b :: t2) ++ [(u, v)]
          = (a, b) :: (chainPairs (b :: t2) ++ [(u, v)]) := rfl
      rw [e1, e2, ihh]

theorem chainPairs_fst_mem {l : List TKey} {p : TKey × TKey}
    (h : p ∈ chainPairs l) : p.1 ∈ l := by
  have := List.of_mem_zip h
  exact this.1

theorem chainPairs_snd_mem {l : List TKey} {p : TKey × TKey}
    (h : p ∈ chainPairs l) : p.2 ∈ l := by
  have := List.of_mem_zip h
  exact List.mem_of_mem_tail this.2

/-- Indicator-sum split over a disjoint disjunction. -/
theorem sumBy_ite_or (l : List TKey) (P Q : TKey → Prop)
    [DecidablePred P] [DecidablePred Q] (f : Int)
    (hdisj : ∀ x ∈ l, ¬(P x ∧ Q x)) :
    sumBy l (fun x => if P x ∨ Q x then f else 0)
      = sumBy l (fun x => if P x then f else 0)
        + sumBy l (fun x => if Q x then f else 0) := by
  rw [← sumBy_add]
  refine sumBy_congr fun x hx => ?_
  by_cases hp : P x
  · rw [if_pos (Or.inl hp), if_pos hp, if_neg (fun hq => hdisj x hx ⟨hp, hq⟩)]
    ring
  · by_cases hq : Q x
    · rw [if_pos (Or.inr hq), if_neg hp, if_pos hq]
      ring
    · rw [if_neg (by tauto), if_neg hp, if_neg hq]
      ring

/-- Telescoping of the chain-pair indicators: along a parent chain from the
source to `v`, every vertex has as many outgoing as incoming chain pairs,
except the source (one extra outgoing) and `v` (one extra incoming). -/
theorem pchain_telescope {parent : List (TKey × TKey)} {source v : TKey}
    {l : List TKey} (h : PChain parent source v l) (verts : List TKey)
    (hnd : verts.Nodup) (hsub : ∀ x ∈ l, x ∈ verts) (w : TKey) (f : Int) :
    sumBy verts (fun x => if (w, x) ∈ chainPairs l then f else 0)
      - sumBy verts (fun x => if (x, w) ∈ chainPairs l then f else 0)
      = (if w = source then f else 0) - (if w = v then f else 0) := by
  induction h with
  | base =>
    have hz : ∀ (q : TKey × TKey), q ∉ chainPairs [source] := by
      intro q hq
      simp [chainPairs] at hq
    rw [sumBy_eq_zero (fun x _ => by rw [if_neg (hz (w, x))]),
      sumBy_eq_zero (fun x _ => by rw [if_neg (hz (x, w))])]
    ring
  | step v l hc hv ih =>
    have hu := pchain_last hc
    set u := lookupD parent v 0 with hudef
    have hpairs : chainPairs (l ++ [v]) = chainPairs l ++ [(u, v)] :=
      chainPairs_append v hu
    have hsubl : ∀ x ∈ l, x ∈ verts := fun x hx =>
      hsub x (List.mem_append_left _ hx)
    have hvverts : v ∈ verts :=
      hsub v (List.mem_append_right _ (List.mem_singleton.mpr rfl))
    have huverts : u ∈ verts := hsubl u (pchain_endpoint_mem hc)
    have hA : sumBy verts (fun x => if (w, x) ∈ chainPairs (l ++ [v]) then f else 0)
        = sumBy verts (fun x => if (w, x) ∈ chainPairs l then f else 0)
          + (if w = u then f else 0) := by
      have hsplit : sumBy verts
          (fun x => if (w, x) ∈ chainPairs l ∨ (w, x) = (u, v) then f else 0)
          = sumBy verts (fun x => if (w, x) ∈ chainPairs l then f else 0)
            + sumBy verts (fun x => if (w, x) = (u, v) then f else 0) := by
        refine sumBy_ite_or verts _ _ f ?_
        intro x _ ⟨hp, hq⟩
        have : v ∈ l := by
          have := @chainPairs_snd_mem l (w, x) hp
          rw [show x = v from (Prod.mk.injEq _ _ _ _ ▸ hq).2] at this
          exact this
        exact hv this
      have hcongr : sumBy verts
          (fun x => if (w, x) ∈ chainPairs (l ++ [v]) then f else 0)
          = sumBy verts
            (fun x => if (w, x) ∈ chainPairs l ∨ (w, x) = (u, v) then f else 0) := by
        refine sumBy_congr fun x _ => ?_
        rw [hpairs]
        congr 1
        simp [List.mem_append]
      rw [hcongr, hsplit]
      congr 1
      by_cases hw : w = u
      · subst hw
        rw [@sumBy_congr TKey verts _ (fun x => if x = v then f else 0)
          (fun x _ => by simp [Prod.ext_iff]), sumBy_ite_eq hnd v f hvverts,
          if_pos rfl]
      · rw [if_neg hw]
        refine sumBy_eq_zero fun x _ => ?_
        rw [if_neg]
        simp [Prod.ext_iff]
        intro hwu
        exact absurd hwu hw
    have hB : sumBy verts (fun x => if (x, w) ∈ chainPairs (l ++ [v]) then f else 0)
        = sumBy verts (fun x => if (x, w) ∈ chainPairs l then f else 0)
          + (if w = v then f else 0) := by
      have hsplit : sumBy verts
          (fun x => if (x, w) ∈ chainPairs l ∨ (x, w) = (u, v) then f else 0)
          = sumBy verts (fun x => if (x, w) ∈ chainPairs l then f else 0)
            + sumBy verts (fun x => if (x, w) = (u, v) then f else 0) := by
        refine sumBy_ite_or verts _ _ f ?_
        intro x _ ⟨hp, hq⟩
        have hwv : w = v := (Prod.mk.injEq _ _ _ _ ▸ hq).2
        have : v ∈ l := by
          have := @chainPairs_snd_mem l (x, w) hp
          rw [hwv] at this
          exact this
        exact hv this
      have hcongr : sumBy verts
          (fun x => if (x, w) ∈ chainPairs (l ++ [v]) then f else 0)
          = sumBy verts
            (fun x => if (x, w) ∈ chainPairs l ∨ (x, w) = (u, v) then f else 0) := by
        refine sumBy_congr fun x _ => ?_
        rw [hpairs]
        congr 1
        simp [List.mem_append]
      rw [hcongr, hsplit]
      congr 1
      by_cases hw : w = v
      · subst hw
        rw [@sumBy_congr TKey verts _ (fun x => if x = u then f else 0)
          (fun x _ => by simp [Prod.ext_iff]), sumBy_ite_eq hnd u f huverts,
          if_pos rfl]
      · rw [if_neg hw]
        refine sumBy_eq_zero fun x _ => ?_
        rw [if_neg]
        simp [Prod.ext_iff]
        intro _
        exact fun hwv => absurd hwv hw
    rw [hA, hB]
    have hIH := ih hsubl
    omega

/-- Path reconstruction succeeds along a parent chain. -/
theorem buildPath_some {parent : List (TKey × TKey)} {source v : TKey}
    {l : List TKey} (h : PChain parent source v l) :
    ∀ (fuel : Nat), l.length ≤ fuel → ∀ acc,
      buildPath parent source fuel v acc = some (l ++ acc) := by
  induction h with
  | base =>
    intro fuel hf acc
    cases fuel with
    | zero => simp at hf
    | succ fuel => simp [buildPath]
  | step v l hc hv ih =>
    intro fuel hf acc
    have hvs : v ≠ source := fun he => hv (he ▸ pchain_source_mem hc)
    cases fuel with
    | zero => simp at hf
    | succ fuel =>
      have hlen : l.length ≤ fuel := by
        rw [List.length_append, List.length_singleton] at hf
        omega
      show buildPath parent source (fuel + 1) v acc = _
      unfold buildPath
      rw [if_neg hvs, ih fuel hlen (v :: acc)]
      rw [List.append_cons]

/-- The bottleneck walk returns the minimum of the initial bound and the
chain residuals. -/
theorem bottleneck_spec {parent : List (TKey × TKey)} {source v : TKey}
    {l : List TKey} (h : PChain parent source v l) (r : ResidualG) :
    ∀ (fuel : Nat), l.length ≤ fuel → ∀ acc,
      ∃ f, bottleneck r parent source fuel v acc = some f ∧ f ≤ acc ∧
        (∀ p ∈ chainPairs l, f ≤ r p.1 p.2) ∧
        (f = acc ∨ ∃ p ∈ chainPairs l, f = r p.1 p.2) := by
  induction h with
  | base =>
    intro fuel hf acc
    cases fuel with
    | zero => simp at hf
    | succ fuel =>
      refine ⟨acc, by simp [bottleneck], le_refl _, ?_, Or.inl rfl⟩
      intro p hp
      simp [chainPairs] at hp
  | step v l hc hv ih =>
    intro fuel hf acc
    have hvs : v ≠ source := fun he => hv (he ▸ pchain_source_mem hc)
    cases fuel with
    | zero => simp at hf
    | succ fuel =>
      have hlen : l.length ≤ fuel := by
        rw [List.length_append, List.length_singleton] at hf
        omega
      obtain ⟨f, heq, hle, hall, hcase⟩ := ih fuel hlen
        (if r (lookupD parent v 0) v < acc then r (lookupD parent v 0) v else acc)
      have hpairs := chainPairs_append v (pchain_last hc)
      have haccle : (if r (lookupD parent v 0) v < acc
          then r (lookupD parent v 0) v else acc) ≤ acc := by
        by_cases hlt : r (lookupD parent v 0) v < acc
        · rw [if_pos hlt]; exact le_of_lt hlt
        · rw [if_neg hlt]
      have haccuv : (if r (lookupD parent v 0) v < acc
          then r (lookupD parent v 0) v else acc) ≤ r (lookupD parent v 0) v := by
        by_cases hlt : r (lookupD parent v 0) v < acc
        · rw [if_pos hlt]
        · rw [if_neg hlt]; exact le_of_not_lt hlt
      refine ⟨f, ?_, le_trans hle haccle, ?_, ?_⟩
      · show bottleneck r parent source (fuel + 1) v acc = some f
        unfold bottleneck
        rw [if_neg hvs]
        exact heq
      · intro p hp
        rw [hpairs] at hp
        rcases List.mem_append.mp hp with hp | hp
        · exact hall p hp
        · rcases List.mem_singleton.mp hp with rfl
          exact le_trans hle haccuv
      · rcases hcase with hfa | ⟨p, hp, hfp⟩
        · by_cases hlt : r (lookupD parent v 0) v < acc
          · rw [if_pos hlt] at hfa
            refine Or.inr ⟨(lookupD parent v 0, v), ?_, hfa⟩
            rw [hpairs]
            exact List.mem_append_right _ (List.mem_singleton.mpr rfl)
          · rw [if_neg hlt] at hfa
            exact Or.inl hfa
        · refine Or.inr ⟨p, ?_, hfp⟩
          rw [hpairs]
          exact List.mem_append_left _ hp

/-- The update walk pushes `f` along the chain: forward residuals drop by
`f`, reverse residuals rise by `f`, all else unchanged. -/
theorem augmentWalk_spec (g : Graph) {parent : List (TKey × TKey)}
    {source v : TKey} {l : List TKey} (h : PChain parent source v l)
    (f : Int) :
    ∀ (fuel : Nat), l.length ≤ fuel → ∀ (r : ResidualG) (fm : DistM),
      ∃ r' fm', augmentWalk g parent source f fuel v (r, fm) = some (r', fm') ∧
        ∀ x y, r' x y = r x y
          - (if (x, y) ∈ chainPairs l then f else 0)
          + (if (y, x) ∈ chainPairs l then f else 0) := by
  induction h with
  | base =>
    intro fuel hf r fm
    cases fuel with
    | zero => simp at hf
    | succ fuel =>
      refine ⟨r, fm, by simp [augmentWalk], ?_⟩
      intro x y
      have hz : ∀ (q : TKey × TKey), q ∉ chainPairs [source] := by
        intro q hq
        simp [chainPairs] at hq
      rw [if_neg (hz (x, y)), if_neg (hz (y, x))]
      ring
  | step v l hc hv ih =>
    intro fuel hf r fm
    have hvs : v ≠ source := fun he => hv (he ▸ pchain_source_mem hc)
    cases fuel with
    | zero => simp at hf
    | succ fuel =>
      have hlen : l.length ≤ fuel := by
        rw [List.length_append, List.length_singleton] at hf
        omega
      have huv : lookupD parent v 0 ≠ v := by
        intro he
        exact hv (he ▸ pchain_endpoint_mem hc)
      set u := lookupD parent v 0 with hudef
      set r1 := rUpdate r u v (r u v - f) with hr1
      set r2 := rUpdate r1 v u (r1 v u + f) with hr2
      set fm2 := (if (mapLookup g.edgesL (getEdgeKey g u v)).isSome then
          d2set fm u v (d2get fm u v + f)
        else d2set fm v u (d2get fm v u - f)) with hfm2
      obtain ⟨r', fm', heq, hval⟩ := ih fuel hlen r2 fm2
      refine ⟨r', fm', ?_, ?_⟩
      · show augmentWalk g parent source f (fuel + 1) v (r, fm) = some (r', fm')
        unfold augmentWalk
        rw [if_neg hvs]
        exact heq
      · intro x y
        rw [hval x y]
        have hru_self : ∀ (rr : ResidualG) (a b : TKey) (c : Int),
            rUpdate rr a b c a b = c := by
          intro rr a b c
          simp [rUpdate]
        have hru_other : ∀ (rr : ResidualG) (a b p q : TKey) (c : Int),
            ¬(p = a ∧ q = b) → rUpdate rr a b c p q = rr p q := by
          intro rr a b p q c hne
          simp only [rUpdate, if_neg hne]
        have hr2val : r2 x y = r x y
            - (if (x, y) = (u, v) then f else 0)
            + (if (x, y) = (v, u) then f else 0) := by
          by_cases h1 : x = v ∧ y = u
          · rw [h1.1, h1.2]
            have e1 : r2 v u = r1 v u + f := by
              rw [hr2]
              exact hru_self r1 v u (r1 v u + f)
            have e2 : r1 v u = r v u := by
              rw [hr1]
              exact hru_other r u v v u (r u v - f) (fun hh => huv hh.1.symm)
            rw [e1, e2,
              if_neg (fun hh => huv (congrArg Prod.fst hh).symm),
              if_pos rfl]
            ring
          · by_cases h2 : x = u ∧ y = v
            · rw [h2.1, h2.2]
              have e1 : r2 u v = r1 u v := by
                rw [hr2]
                exact hru_other r1 v u u v (r1 v u + f) (fun hh => huv hh.1)
              have e2 : r1 u v = r u v - f := by
                rw [hr1]
                exact hru_self r u v (r u v - f)
              rw [e1, e2, if_pos rfl,
                if_neg (fun hh => huv (congrArg Prod.fst hh))]
              ring
            · have e1 : r2 x y = r1 x y := by
                rw [hr2]
                exact hru_other r1 v u x y (r1 v u + f) h1
              have e2 : r1 x y = r x y := by
                rw [hr1]
                exact hru_other r u v x y (r u v - f) h2
              rw [e1, e2,
                if_neg (fun hh => h2 ⟨congrArg Prod.fst hh, congrArg Prod.snd hh⟩),
                if_neg (fun hh => h1 ⟨congrArg Prod.fst hh, congrArg Prod.snd hh⟩)]
              ring
        rw [hr2val]
        have hpairs := chainPairs_append v (pchain_last hc)
        have hnotin1 : (u, v) ∉ chainPairs l := by
          intro hmem
          exact hv (chainPairs_snd_mem hmem)
        have hsplit : ∀ a b : TKey,
            (if (a, b) ∈ chainPairs (l ++ [v]) then f else 0)
              = (if (a, b) ∈ chainPairs l then f else 0)
                + (if (a, b) = (u, v) then f else 0) := by
          intro a b
          rw [hpairs]
          by_cases hab : (a, b) ∈ chainPairs l
          · rw [if_pos (List.mem_append_left _ hab), if_pos hab,
              if_neg (by intro he; exact hnotin1 (he ▸ hab))]
            ring
          · by_cases habe : (a, b) = (u, v)
            · have hmm : (a, b) ∈ chainPairs l ++ [(u, v)] := by
                rw [habe]
                exact List.mem_append_right _ (List.mem_singleton.mpr rfl)
              rw [if_pos hmm, if_neg hab, if_pos habe]
              ring
            · have hmm : (a, b) ∉ chainPairs l ++ [(u, v)] := by
                intro hmem
                rcases List.mem_append.mp hmem with hm | hm
                · exact hab hm
                · exact habe (List.mem_singleton.mp hm)
              rw [if_neg hmm, if_neg hab, if_neg habe]
              ring
        rw [hsplit x y, hsplit y x]
        have hswap : (if (y, x) = (u, v) then f else 0)
            = (if (x, y) = (v, u) then f else 0) := by
          by_cases hq : (y, x) = (u, v)
          · have hx : x = v := congrArg Prod.snd hq
            have hy : y = u := congrArg Prod.fst hq
            rw [if_pos hq, if_pos (by rw [hx, hy])]
          · have hnq : ¬((x, y) = (v, u)) := by
              intro hh
              have hx : x = v := congrArg Prod.fst hh
              have hy : y = u := congrArg Prod.snd hh
              exact hq (by rw [hx, hy])
            rw [if_neg hq, if_neg hnq]
        rw [hswap]
        ring

/-! ### BFS layer of the max-flow development -/

theorem insertSorted_perm (k : TKey) (l : List TKey) :
    List.Perm (insertSorted k l) (k :: l) := by
  induction l with
  | nil => exact List.Perm.refl _
  | cons x xs ih =>
    show List.Perm (if k ≤ x then k :: x :: xs else x :: insertSorted k xs)
      (k :: x :: xs)
    by_cases h : k ≤ x
    · rw [if_pos h]
    · rw [if_neg h]
      exact List.Perm.trans (List.Perm.cons x ih) (List.Perm.swap k x xs)

theorem sortTKeys_perm (l : List TKey) : List.Perm (sortTKeys l) l := by
  induction l with
  | nil => exact List.Perm.refl _
  | cons x xs ih =>
    show List.Perm (insertSorted x (sortTKeys xs)) (x :: xs)
    exact List.Perm.trans (insertSorted_perm x _) (List.Perm.cons x ih)

theorem unvisitedCount_le (verts visited : List TKey) :
    unvisitedCount verts visited ≤ verts.length :=
  List.length_filter_le _ _

theorem unvisitedCount_cons (a : TKey) (t vis : List TKey) :
    unvisitedCount (a :: t) vis
      = (if a ∈ vis then 0 else 1) + unvisitedCount t vis := by
  unfold unvisitedCount
  rw [List.filter_cons]
  by_cases hm : a ∈ vis
  · simp [hm]
  · simp [hm, Nat.add_comm]

theorem unvisitedCount_congr {t : List TKey} {vis vis' : List TKey}
    (h : ∀ x ∈ t, (x ∈ vis) ↔ (x ∈ vis')) :
    unvisitedCount t vis = unvisitedCount t vis' := by
  induction t with
  | nil => rfl
  | cons a t ih =>
    rw [unvisitedCount_cons, unvisitedCount_cons,
      ih (fun x hx => h x (List.mem_cons_of_mem a hx))]
    congr 1
    by_cases hm : a ∈ vis
    · rw [if_pos hm, if_pos ((h a (List.mem_cons_self a t)).mp hm)]
    · rw [if_neg hm, if_neg (fun hm2 => hm ((h a (List.mem_cons_self a t)).mpr hm2))]

theorem unvisitedCount_push :
    ∀ (verts : List TKey), verts.Nodup →
      ∀ (visited : List TKey) (v : TKey), v ∈ verts → v ∉ visited →
        unvisitedCount verts (visited ++ [v]) + 1
          = unvisitedCount verts visited := by
  intro verts
  induction verts with
  | nil => intro _ visited v hv _; cases hv
  | cons a t ih =>
    intro hnd visited v hv hnv
    rw [List.nodup_cons] at hnd
    rw [unvisitedCount_cons, unvisitedCount_cons]
    rcases List.mem_cons.mp hv with heq | hvt
    · have h1 : a ∈ visited ++ [v] := by
        rw [← heq]
        exact List.mem_append_right _ (List.mem_singleton.mpr rfl)
      have hnv2 : a ∉ visited := heq ▸ hnv
      rw [if_pos h1, if_neg hnv2]
      have h2 : unvisitedCount t (visited ++ [v]) = unvisitedCount t visited := by
        refine unvisitedCount_congr fun x hx => ?_
        have hxv : x ≠ v := fun he => hnd.1 (heq ▸ he ▸ hx)
        constructor
        · intro hm
          rcases List.mem_append.mp hm with hm | hm
          · exact hm
          · exact absurd (List.mem_singleton.mp hm) hxv
        · exact fun hm => List.mem_append_left _ hm
      omega
    · have hav : a ≠ v := fun he => hnd.1 (he ▸ hvt)
      have hmema : (a ∈ visited ++ [v]) ↔ (a ∈ visited) := by
        constructor
        · intro hm
          rcases List.mem_append.mp hm with hm | hm
          · exact hm
          · exact absurd (List.mem_singleton.mp hm) hav
        · exact List.mem_append_left _
      have h2 := ih hnd.2 visited v hvt hnv
      by_cases hm : a ∈ visited
      · rw [if_pos (hmema.mpr hm), if_pos hm]
        omega
      · rw [if_neg (fun hh => hm (hmema.mp hh)), if_neg hm]
        omega

theorem unvisitedCount_append {verts : List TKey} (hnd : verts.Nodup) :
    ∀ (new visited : List TKey), new.Nodup →
      (∀ v ∈ new, v ∈ verts ∧ v ∉ visited) →
      unvisitedCount verts (visited ++ new) + new.length
        = unvisitedCount verts visited := by
  intro new
  induction new with
  | nil => intro visited _ _; simp
  | cons v new ih =>
    intro visited hnodup hprop
    rw [List.nodup_cons] at hnodup
    have hhead := hprop v (List.mem_cons_self v new)
    have h1 := unvisitedCount_push verts hnd visited v hhead.1 hhead.2
    have hprop2 : ∀ w ∈ new, w ∈ verts ∧ w ∉ visited ++ [v] := by
      intro w hw
      refine ⟨(hprop w (List.mem_cons_of_mem v hw)).1, ?_⟩
      intro hmem
      rcases List.mem_append.mp hmem with hmm | hmm
      · exact (hprop w (List.mem_cons_of_mem v hw)).2 hmm
      · exact hnodup.1 (List.mem_singleton.mp hmm ▸ hw)
    have h2 := ih (visited ++ [v]) hnodup.2 hprop2
    have hl : visited ++ v :: new = (visited ++ [v]) ++ new := by simp
    rw [hl, List.length_cons]
    omega

theorem mcScan_spec (r : ResidualG) (u : TKey) :
    ∀ (vs q vis : List TKey),
      ∃ new : List TKey,
        vs.foldl
          (fun (acc : List TKey × List TKey) v =>
            if !acc.2.contains v && r u v > 0 then (acc.1 ++ [v], acc.2 ++ [v])
            else acc)
          (q, vis) = (q ++ new, vis ++ new) ∧
        new.Nodup ∧ (∀ v ∈ new, v ∈ vs ∧ v ∉ vis ∧ 0 < r u v) ∧
        (∀ v ∈ vs, 0 < r u v → v ∈ vis ++ new) := by
  intro vs
  induction vs with
  | nil =>
    intro q vis
    refine ⟨[], by simp, List.nodup_nil, ?_, ?_⟩
    · intro v hv; cases hv
    · intro v hv; cases hv
  | cons v vs ih =>
    intro q vis
    have hb : (if !vis.contains v && r u v > 0
          then (q ++ [v], vis ++ [v]) else (q, vis))
        = (if v ∉ vis ∧ 0 < r u v
          then (q ++ [v], vis ++ [v]) else (q, vis) : List TKey × List TKey) := by
      by_cases h1 : v ∈ vis
      · simp [h1]
      · by_cases h2 : 0 < r u v
        · simp [h1, h2]
        · simp [h1, h2]
    have hstep : List.foldl
        (fun (acc : List TKey × List TKey) v =>
          if !acc.2.contains v && r u v > 0 then (acc.1 ++ [v], acc.2 ++ [v])
          else acc) (q, vis) (v :: vs)
      = List.foldl
        (fun (acc : List TKey × List TKey) v =>
          if !acc.2.contains v && r u v > 0 then (acc.1 ++ [v], acc.2 ++ [v])
          else acc)
        (if v ∉ vis ∧ 0 < r u v then (q ++ [v], vis ++ [v]) else (q, vis)) vs := by
      show List.foldl _
        (if !vis.contains v && r u v > 0 then (q ++ [v], vis ++ [v]) else (q, vis))
        vs = _
      rw [hb]
    rw [hstep]
    by_cases hc : v ∉ vis ∧ 0 < r u v
    · rw [if_pos hc]
      obtain ⟨new2, heq, hnnd, hprops, hcl⟩ := ih (q ++ [v]) (vis ++ [v])
      refine ⟨v :: new2, ?_, ?_, ?_, ?_⟩
      · rw [heq]
        simp
      · rw [List.nodup_cons]
        refine ⟨?_, hnnd⟩
        intro hv2
        exact (hprops v hv2).2.1 (List.mem_append_right _ (List.mem_singleton.mpr rfl))
      · intro w hw
        rcases List.mem_cons.mp hw with heq2 | hw2
        · rw [heq2]
          exact ⟨List.mem_cons_self _ _, hc.1, hc.2⟩
        · have hp := hprops w hw2
          refine ⟨List.mem_cons_of_mem _ hp.1, ?_, hp.2.2⟩
          intro hmem
          exact hp.2.1 (List.mem_append_left _ hmem)
      · intro w hw hr
        rcases List.mem_cons.mp hw with heq2 | hw2
        · rw [heq2]
          exact List.mem_append_right _ (List.mem_cons_self _ _)
        · have hmm := hcl w hw2 hr
          have hpe : (vis ++ [v]) ++ new2 = vis ++ v :: new2 := by simp
          rw [hpe] at hmm
          exact hmm
    · rw [if_neg hc]
      obtain ⟨new2, heq, hnnd, hprops, hcl⟩ := ih q vis
      refine ⟨new2, heq, hnnd, ?_, ?_⟩
      · intro w hw
        have hp := hprops w hw
        exact ⟨List.mem_cons_of_mem _ hp.1, hp.2.1, hp.2.2⟩
      · intro w hw hr
        rcases List.mem_cons.mp hw with heq2 | hw2
        · rw [heq2] at hr ⊢
          by_cases hv2 : v ∈ vis
          · exact List.mem_append_left _ hv2
          · exact absurd ⟨hv2, hr⟩ hc
        · exact hcl w hw2 hr

theorem minCutLoop_spec (r : ResidualG) (verts : List TKey) (source : TKey)
    (hverts : verts.Nodup) :
    ∀ (fuel : Nat) (queue visited : List TKey),
      queue.length + unvisitedCount verts visited < fuel →
      BfsInv r verts source queue visited →
      visited ⊆ minCutLoop r verts fuel queue visited ∧
      (∀ x ∈ minCutLoop r verts fuel queue visited, x ∈ verts) ∧
      (minCutLoop r verts fuel queue visited).Nodup ∧
      (∀ x ∈ minCutLoop r verts fuel queue visited, Reach r source x) ∧
      (∀ u ∈ minCutLoop r verts fuel queue visited, ∀ v ∈ verts,
        0 < r u v → v ∈ minCutLoop r verts fuel queue visited) := by
  intro fuel
  induction fuel with
  | zero =>
    intro queue visited hpot _
    exact absurd hpot (Nat.not_lt_zero _)
  | succ fuel ih =>
    intro queue visited hpot hinv
    obtain ⟨hqnd, hvnd, hqv, hvverts, hreach, hclosed⟩ := hinv
    cases queue with
    | nil =>
      have hres : minCutLoop r verts (fuel + 1) [] visited = visited := rfl
      rw [hres]
      refine ⟨fun x hx => hx, hvverts, hvnd, hreach, ?_⟩
      intro u hu v hv hr
      exact hclosed u hu (by simp) v hv hr
    | cons u rest =>
      obtain ⟨new, heq, hnnd, hnew, hcl⟩ := mcScan_spec r u verts rest visited
      have hunf : minCutLoop r verts (fuel + 1) (u :: rest) visited
          = minCutLoop r verts fuel (rest ++ new) (visited ++ new) := by
        show minCutLoop r verts fuel
          (verts.foldl (fun (acc : List TKey × List TKey) v =>
            if !acc.2.contains v && r u v > 0 then (acc.1 ++ [v], acc.2 ++ [v])
            else acc) (rest, visited)).1
          (verts.foldl (fun (acc : List TKey × List TKey) v =>
            if !acc.2.contains v && r u v > 0 then (acc.1 ++ [v], acc.2 ++ [v])
            else acc) (rest, visited)).2 = _
        rw [heq]
      have hpot2 : (rest ++ new).length + unvisitedCount verts (visited ++ new)
          < fuel := by
        have happ := unvisitedCount_append hverts new visited hnnd
          (fun v hv => ⟨(hnew v hv).1, (hnew v hv).2.1⟩)
        rw [List.length_append]
        rw [List.length_cons] at hpot
        omega
      have hdisj1 : ∀ a ∈ rest, a ∉ new := fun a ha hmem =>
        (hnew a hmem).2.1 (hqv a (List.mem_cons_of_mem u ha))
      have hdisj2 : ∀ a ∈ visited, a ∉ new := fun a ha hmem =>
        (hnew a hmem).2.1 ha
      have hinv2 : BfsInv r verts source (rest ++ new) (visited ++ new) := by
        refine ⟨?_, ?_, ?_, ?_, ?_, ?_⟩
        · exact List.Nodup.append (List.nodup_cons.mp hqnd).2 hnnd
            (fun a ha hb => hdisj1 a ha hb)
        · exact List.Nodup.append hvnd hnnd (fun a ha hb => hdisj2 a ha hb)
        · intro x hx
          rcases List.mem_append.mp hx with hx | hx
          · exact List.mem_append_left _ (hqv x (List.mem_cons_of_mem u hx))
          · exact List.mem_append_right _ hx
        · intro x hx
          rcases List.mem_append.mp hx with hx | hx
          · exact hvverts x hx
          · exact (hnew x hx).1
        · intro x hx
          rcases List.mem_append.mp hx with hx | hx
          · exact hreach x hx
          · exact Reach.step u x (hreach u (hqv u (List.mem_cons_self u rest)))
              (hnew x hx).2.2
        · intro w hw hwq v hv hr
          rcases List.mem_append.mp hw with hw | hw
          · by_cases hwu : w = u
            · rw [hwu] at hr
              exact hcl v hv hr
            · have hwq2 : w ∉ (u :: rest) := by
                intro hmem
                rcases List.mem_cons.mp hmem with he | hm
                · exact hwu he
                · exact hwq (List.mem_append_left _ hm)
              exact List.mem_append_left _ (hclosed w hw hwq2 v hv hr)
          · exact absurd (List.mem_append_right rest hw) hwq
      obtain ⟨hsub, hvert2, hnd2, hreach2, hcl2⟩ :=
        ih (rest ++ new) (visited ++ new) hpot2 hinv2
      rw [hunf]
      exact ⟨fun x hx => hsub (List.mem_append_left _ hx), hvert2, hnd2,
        hreach2, hcl2⟩

theorem findMinCut_spec (r : ResidualG) (verts : List TKey) (source : TKey)
    (hverts : verts.Nodup) (hs : source ∈ verts) :
    source ∈ findMinCut r verts source ∧
    (∀ x ∈ findMinCut r verts source, x ∈ verts) ∧
    (findMinCut r verts source).Nodup ∧
    (∀ x ∈ findMinCut r verts source, Reach r source x) ∧
    (∀ u ∈ findMinCut r verts source, ∀ v ∈ verts,
      0 < r u v → v ∈ findMinCut r verts source) := by
  have hinv0 : BfsInv r verts source [source] [source] := by
    refine ⟨List.nodup_singleton _, List.nodup_singleton _, fun x hx => hx,
      ?_, ?_, ?_⟩
    · intro x hx
      rw [List.mem_singleton.mp hx]
      exact hs
    · intro x hx
      rw [List.mem_singleton.mp hx]
      exact Reach.base
    · intro x hx hq
      exact absurd hx hq
  have hpot0 : ([source] : List TKey).length + unvisitedCount verts [source]
      < verts.length + 2 := by
    have := unvisitedCount_le verts [source]
    simp only [List.length_singleton]
    omega
  obtain ⟨hsub, hvert, hnd, hreach, hcl⟩ :=
    minCutLoop_spec r verts source hverts (verts.length + 2) [source] [source]
      hpot0 hinv0
  have hperm := sortTKeys_perm (minCutLoop r verts (verts.length + 2)
    [source] [source])
  have hmem : ∀ x, x ∈ findMinCut r verts source
      ↔ x ∈ minCutLoop r verts (verts.length + 2) [source] [source] :=
    fun x => hperm.mem_iff
  refine ⟨?_, ?_, ?_, ?_, ?_⟩
  · exact (hmem source).mpr (hsub (List.mem_singleton.mpr rfl))
  · intro x hx
    exact hvert x ((hmem x).mp hx)
  · exact hperm.nodup_iff.mpr hnd
  · intro x hx
    exact hreach x ((hmem x).mp hx)
  · intro u hu v hv hr
    exact (hmem v).mpr (hcl u ((hmem u).mp hu) v hv hr)

/-- A set containing the source and closed under positive-residual steps
into `verts` contains everything reachable, provided positive residuals
only enter `verts`. -/
theorem reach_in_closed {r : ResidualG} {verts VF : List TKey}
    {source x : TKey} (hsrc : source ∈ VF)
    (hcl : ∀ u ∈ VF, ∀ v ∈ verts, 0 < r u v → v ∈ VF)
    (hcap : ∀ u v, 0 < r u v → v ∈ verts) :
    Reach r source x → x ∈ VF := by
  intro h
  induction h with
  | base => exact hsrc
  | step u v hu hr ih => exact hcl u ih v (hcap u v hr) hr

theorem lookupD_mapInsert_self (m : List (TKey × TKey)) (k v : TKey) :
    lookupD (mapInsert m k v) k 0 = v := by
  unfold lookupD
  rw [mapLookup_mapInsert_self]
  rfl

theorem lookupD_mapInsert_other (m : List (TKey × TKey)) (k k' v : TKey)
    (h : k' ≠ k) : lookupD (mapInsert m k v) k' 0 = lookupD m k' 0 := by
  unfold lookupD
  rw [mapLookup_mapInsert_other m k k' v h]

/-- A parent chain survives any parent-map change that leaves the lookups of
its vertices alone. -/
theorem pchain_stable {par par' : List (TKey × TKey)} {source v : TKey}
    {l : List TKey} (h : PChain par source v l) :
    (∀ y ∈ l, lookupD par' y 0 = lookupD par y 0) → PChain par' source v l := by
  induction h with
  | base => intro _; exact PChain.base
  | step v l hc hv ih =>
    intro hst
    have hsub : ∀ y ∈ l, lookupD par' y 0 = lookupD par y 0 :=
      fun y hy => hst y (List.mem_append_left _ hy)
    have hv2 : lookupD par' v 0 = lookupD par v 0 :=
      hst v (List.mem_append_right _ (List.mem_singleton.mpr rfl))
    have hbase2 : PChain par' source (lookupD par' v 0) l := by
      rw [hv2]
      exact ih hsub
    exact PChain.step v l hbase2 hv

theorem fapScanGo_frozen (r : ResidualG) (u sink : TKey) :
    ∀ (vs : List TKey) (st : List TKey × List TKey × List (TKey × TKey)),
      vs.foldl
        (fun (acc : (List TKey × List TKey × List (TKey × TKey)) × Bool) v =>
          if acc.2 then acc
          else
            let (queue, visited, parent) := acc.1
            if !visited.contains v && r u v > 0 then
              ((queue ++ [v], visited ++ [v], mapInsert parent v u), v = sink)
            else acc)
        (st, true) = (st, true) := by
  intro vs
  induction vs with
  | nil => intro st; rfl
  | cons v vs ih => intro st; exact ih st

theorem fapScanGo_spec (r : ResidualG) (u sink : TKey) :
    ∀ (vs q vis : List TKey) (par : List (TKey × TKey)),
      ∃ (new : List TKey) (par' : List (TKey × TKey)) (found : Bool),
        vs.foldl
          (fun (acc : (List TKey × List TKey × List (TKey × TKey)) × Bool) v =>
            if acc.2 then acc
            else
              let (queue, visited, parent) := acc.1
              if !visited.contains v && r u v > 0 then
                ((queue ++ [v], visited ++ [v], mapInsert parent v u), v = sink)
              else acc)
          ((q, vis, par), false) = ((q ++ new, vis ++ new, par'), found) ∧
        new.Nodup ∧
        (∀ v ∈ new, v ∈ vs ∧ v ∉ vis ∧ 0 < r u v ∧ lookupD par' v 0 = u) ∧
        (∀ k, k ∉ new → lookupD par' k 0 = lookupD par k 0) ∧
        (found = true → sink ∈ new) ∧
        (found = false → sink ∉ new ∧ ∀ v ∈ vs, 0 < r u v → v ∈ vis ++ new) := by
  intro vs
  induction vs with
  | nil =>
    intro q vis par
    refine ⟨[], par, false, by simp, List.nodup_nil, ?_, ?_, ?_, ?_⟩
    · intro v hv; cases hv
    · intro k _; rfl
    · intro h; exact Bool.noConfusion h
    · intro _
      refine ⟨by simp, ?_⟩
      intro v hv
      cases hv
  | cons v vs ih =>
    intro q vis par
    have hb : (if !vis.contains v && r u v > 0
          then (((q ++ [v], vis ++ [v], mapInsert par v u) :
              List TKey × List TKey × List (TKey × TKey)), decide (v = sink))
          else ((q, vis, par), false))
        = (if v ∉ vis ∧ 0 < r u v
          then (((q ++ [v], vis ++ [v], mapInsert par v u) :
              List TKey × List TKey × List (TKey × TKey)), decide (v = sink))
          else ((q, vis, par), false)) := by
      by_cases h1 : v ∈ vis
      · simp [h1]
      · by_cases h2 : 0 < r u v
        · simp [h1, h2]
        · simp [h1, h2]
    have hstep : List.foldl
        (fun (acc : (List TKey × List TKey × List (TKey × TKey)) × Bool) v =>
          if acc.2 then acc
          else
            let (queue, visited, parent) := acc.1
            if !visited.contains v && r u v > 0 then
              ((queue ++ [v], visited ++ [v], mapInsert parent v u), v = sink)
            else acc)
        ((q, vis, par), false) (v :: vs)
      = List.foldl
        (fun (acc : (List TKey × List TKey × List (TKey × TKey)) × Bool) v =>
          if acc.2 then acc
          else
            let (queue, visited, parent) := acc.1
            if !visited.contains v && r u v > 0 then
              ((queue ++ [v], visited ++ [v], mapInsert parent v u), v = sink)
            else acc)
        (if v ∉ vis ∧ 0 < r u v
          then (((q ++ [v], vis ++ [v], mapInsert par v u) :
              List TKey × List TKey × List (TKey × TKey)), decide (v = sink))
          else ((q, vis, par), false)) vs := by
      show List.foldl
        (fun (acc : (List TKey × List TKey × List (TKey × TKey)) × Bool) v =>
          if acc.2 then acc
          else
            let (queue, visited, parent) := acc.1
            if !visited.contains v && r u v > 0 then
              ((queue ++ [v], visited ++ [v], mapInsert parent v u), v = sink)
            else acc)
        (if !vis.contains v && r u v > 0
          then (((q ++ [v], vis ++ [v], mapInsert par v u) :
              List TKey × List TKey × List (TKey × TKey)), decide (v = sink))
          else ((q, vis, par), false)) vs = _
      rw [hb]
    rw [hstep]
    by_cases hc : v ∉ vis ∧ 0 < r u v
    · rw [if_pos hc]
      by_cases hsk : v = sink
      · have hd : decide (v = sink) = true := by simp [hsk]
        rw [hd, fapScanGo_frozen]
        refine ⟨[v], mapInsert par v u, true, by simp, List.nodup_singleton _,
          ?_, ?_, ?_, ?_⟩
        · intro w hw
          rw [List.mem_singleton.mp hw]
          exact ⟨List.mem_cons_self _ _, hc.1, hc.2, lookupD_mapInsert_self par v u⟩
        · intro k hk
          exact lookupD_mapInsert_other par v k u
            (fun he => hk (List.mem_singleton.mpr he))
        · intro _
          exact List.mem_singleton.mpr hsk.symm
        · intro h
          exact Bool.noConfusion h
      · have hd : decide (v = sink) = false := by simp [hsk]
        rw [hd]
        obtain ⟨new2, par', found, heq, hnnd, hprops, hstab, hft, hff⟩ :=
          ih (q ++ [v]) (vis ++ [v]) (mapInsert par v u)
        have hvnew2 : v ∉ new2 := fun hm =>
          (hprops v hm).2.1 (List.mem_append_right _ (List.mem_singleton.mpr rfl))
        refine ⟨v :: new2, par', found, ?_, ?_, ?_, ?_, ?_, ?_⟩
        · rw [heq]
          simp
        · rw [List.nodup_cons]
          exact ⟨hvnew2, hnnd⟩
        · intro w hw
          rcases List.mem_cons.mp hw with heq2 | hw2
          · rw [heq2]
            refine ⟨List.mem_cons_self _ _, hc.1, hc.2, ?_⟩
            rw [hstab v hvnew2]
            exact lookupD_mapInsert_self par v u
          · have hp := hprops w hw2
            refine ⟨List.mem_cons_of_mem _ hp.1, ?_, hp.2.2.1, hp.2.2.2⟩
            intro hm
            exact hp.2.1 (List.mem_append_left _ hm)
        · intro k hk
          have hkv : k ≠ v := fun he => hk (he ▸ List.mem_cons_self v new2)
          rw [hstab k (fun hm => hk (List.mem_cons_of_mem _ hm))]
          exact lookupD_mapInsert_other par v k u hkv
        · intro h
          exact List.mem_cons_of_mem _ (hft h)
        · intro h
          obtain ⟨hsn, hclf⟩ := hff h
          refine ⟨?_, ?_⟩
          · intro hm
            rcases List.mem_cons.mp hm with he | hm2
            · exact hsk he.symm
            · exact hsn hm2
          · intro w hw hr
            rcases List.mem_cons.mp hw with he | hw2
            · rw [he]
              exact List.mem_append_right _ (List.mem_cons_self _ _)
            · have hmm := hclf w hw2 hr
              have hpe : (vis ++ [v]) ++ new2 = vis ++ v :: new2 := by simp
              rw [hpe] at hmm
              exact hmm
    · rw [if_neg hc]
      obtain ⟨new2, par', found, heq, hnnd, hprops, hstab, hft, hff⟩ :=
        ih q vis par
      refine ⟨new2, par', found, heq, hnnd, ?_, hstab, hft, ?_⟩
      · intro w hw
        have hp := hprops w hw
        exact ⟨List.mem_cons_of_mem _ hp.1, hp.2.1, hp.2.2.1, hp.2.2.2⟩
      · intro h
        obtain ⟨hsn, hclf⟩ := hff h
        refine ⟨hsn, ?_⟩
        intro w hw hr
        rcases List.mem_cons.mp hw with he | hw2
        · rw [he] at hr ⊢
          by_cases hv2 : v ∈ vis
          · exact List.mem_append_left _ hv2
          · exact absurd ⟨hv2, hr⟩ hc
        · exact hclf w hw2 hr

/-- One pop-and-scan step of the augmenting-path BFS: the invariant facts
that survive it, the sink guarantee when the early return fires, and the
closure and potential facts when it does not. -/
theorem fapScan_bundle (r : ResidualG) (verts : List TKey)
    (source sink u : TKey) (hverts : verts.Nodup)
    {rest visited : List TKey} {parent : List (TKey × TKey)}
    (hinv : FapInv r verts source parent (u :: rest) visited) :
    ∃ (new : List TKey) (par' : List (TKey × TKey)) (found : Bool),
      fapScan r verts u sink (rest, visited, parent)
        = ((rest ++ new, visited ++ new, par'), found) ∧
      (rest ++ new).Nodup ∧
      (visited ++ new).Nodup ∧
      (∀ x ∈ rest ++ new, x ∈ visited ++ new) ∧
      (∀ x ∈ visited ++ new, x ∈ verts) ∧
      (∀ x ∈ visited ++ new, ∃ l, PChain par' source x l ∧ PosOn r l ∧
        ∀ y ∈ l, y ∈ visited ++ new) ∧
      (found = true → sink ∈ visited ++ new) ∧
      (found = false → sink ∉ new ∧
        ∀ w ∈ visited ++ new, w ∉ rest ++ new →
          ∀ v ∈ verts, 0 < r w v → v ∈ visited ++ new) ∧
      unvisitedCount verts (visited ++ new) + new.length
        = unvisitedCount verts visited := by
  obtain ⟨hqnd, hvnd, hqv, hvverts, hclosed, hchains⟩ := hinv
  obtain ⟨new, par', found, heq, hnnd, hprops, hstab, hft, hff⟩ :=
    fapScanGo_spec r u sink verts rest visited parent
  have hscan : fapScan r verts u sink (rest, visited, parent)
      = ((rest ++ new, visited ++ new, par'), found) := heq
  have hnewnotvis : ∀ x ∈ new, x ∉ visited := fun x hx => (hprops x hx).2.1
  have hdisj1 : ∀ a ∈ rest, a ∉ new := fun a ha hm =>
    hnewnotvis a hm (hqv a (List.mem_cons_of_mem u ha))
  have hdisj2 : ∀ a ∈ visited, a ∉ new := fun a ha hm => hnewnotvis a hm ha
  have hchains2 : ∀ x ∈ visited ++ new, ∃ l, PChain par' source x l ∧
      PosOn r l ∧ ∀ y ∈ l, y ∈ visited ++ new := by
    intro x hx
    rcases List.mem_append.mp hx with hx | hx
    · obtain ⟨l, hch, hposl, hmem⟩ := hchains x hx
      refine ⟨l, pchain_stable hch ?_, hposl,
        fun y hy => List.mem_append_left _ (hmem y hy)⟩
      intro y hy
      exact hstab y (hdisj2 y (hmem y hy))
    · obtain ⟨lu, hchu, hposu, hmemu⟩ :=
        hchains u (hqv u (List.mem_cons_self u rest))
      have hchu2 : PChain par' source u lu := pchain_stable hchu
        (fun y hy => hstab y (hdisj2 y (hmemu y hy)))
      have hassign := (hprops x hx).2.2.2
      have hposx := (hprops x hx).2.2.1
      have hxnotlu : x ∉ lu := fun hm => hnewnotvis x hx (hmemu x hm)
      have hbase : PChain par' source (lookupD par' x 0) lu := by
        rw [hassign]
        exact hchu2
      refine ⟨lu ++ [x], PChain.step x lu hbase hxnotlu, ?_, ?_⟩
      · intro p hp
        rw [chainPairs_append x (pchain_last hchu2)] at hp
        rcases List.mem_append.mp hp with hp | hp
        · exact hposu p hp
        · rw [List.mem_singleton.mp hp]
          exact hposx
      · intro y hy
        rcases List.mem_append.mp hy with hy | hy
        · exact List.mem_append_left _ (hmemu y hy)
        · rw [List.mem_singleton.mp hy]
          exact List.mem_append_right _ hx
  refine ⟨new, par', found, hscan, ?_, ?_, ?_, ?_, hchains2, ?_, ?_, ?_⟩
  · exact List.Nodup.append (List.nodup_cons.mp hqnd).2 hnnd
      (fun a ha hb => hdisj1 a ha hb)
  · exact List.Nodup.append hvnd hnnd (fun a ha hb => hdisj2 a ha hb)
  · intro x hx
    rcases List.mem_append.mp hx with hx | hx
    · exact List.mem_append_left _ (hqv x (List.mem_cons_of_mem u hx))
    · exact List.mem_append_right _ hx
  · intro x hx
    rcases List.mem_append.mp hx with hx | hx
    · exact hvverts x hx
    · exact (hprops x hx).1
  · intro h
    exact List.mem_append_right _ (hft h)
  · intro h
    obtain ⟨hsn, hclf⟩ := hff h
    refine ⟨hsn, ?_⟩
    intro w hw hwq v hv hr
    rcases List.mem_append.mp hw with hw | hw
    · by_cases hwu : w = u
      · rw [hwu] at hr
        exact hclf v hv hr
      · have hwq2 : w ∉ (u :: rest) := by
          intro hmem
          rcases List.mem_cons.mp hmem with he | hm
          · exact hwu he
          · exact hwq (List.mem_append_left _ hm)
        exact List.mem_append_left _ (hclosed w hw hwq2 v hv hr)
    · exact absurd (List.mem_append_right rest hw) hwq
  · exact unvisitedCount_append hverts new visited hnnd
      (fun v hv => ⟨(hprops v hv).1, (hprops v hv).2.1⟩)

theorem fapLoop_unfold (r : ResidualG) (verts : List TKey)
    (source sink : TKey) (fuel : Nat) (u : TKey) (rest visited : List TKey)
    (parent : List (TKey × TKey)) {new : List TKey}
    {par' : List (TKey × TKey)} {found : Bool}
    (hscan : fapScan r verts u sink (rest, visited, parent)
      = ((rest ++ new, visited ++ new, par'), found)) :
    fapLoop r verts source sink (fuel + 1) (u :: rest) visited parent
      = if found = true then
          (buildPath par' source (verts.length + 1) sink [], par')
        else fapLoop r verts source sink fuel (rest ++ new)
          (visited ++ new) par' := by
  show (match fapScan r verts u sink (rest, visited, parent) with
    | (st', found) =>
      if found then
        (buildPath st'.2.2 source (verts.length + 1) sink [], st'.2.2)
      else fapLoop r verts source sink fuel st'.1 st'.2.1 st'.2.2) = _
  rw [hscan]

/-- A successful augmenting-path search returns the vertex list of a
positive-residual parent chain from the source to the sink. -/
theorem fapLoop_some_spec (r : ResidualG) (verts : List TKey)
    (source sink : TKey) (hverts : verts.Nodup) :
    ∀ (fuel : Nat) (queue visited : List TKey) (parent : List (TKey × TKey))
      (p : List TKey) (parentF : List (TKey × TKey)),
      FapInv r verts source parent queue visited →
      fapLoop r verts source sink fuel queue visited parent = (some p, parentF) →
      ∃ l, PChain parentF source sink l ∧ PosOn r l ∧
        (∀ y ∈ l, y ∈ verts) ∧ p = l := by
  intro fuel
  induction fuel with
  | zero =>
    intro queue visited parent p parentF _ heq
    have h1 : (none : Option (List TKey)) = some p := congrArg Prod.fst heq
    exact Option.noConfusion h1
  | succ fuel ih =>
    intro queue visited parent p parentF hinv heq
    cases queue with
    | nil =>
      have h1 : (none : Option (List TKey)) = some p := congrArg Prod.fst heq
      exact Option.noConfusion h1
    | cons u rest =>
      obtain ⟨new, par', found, hscan, hqnd2, hvnd2, hqv2, hvverts2, hchains2,
        hft, hff, hpot2⟩ := fapScan_bundle r verts source sink u hverts hinv
      rw [fapLoop_unfold r verts source sink fuel u rest visited parent hscan]
        at heq
      cases found with
      | true =>
        rw [if_pos rfl] at heq
        have hsink : sink ∈ visited ++ new := hft rfl
        obtain ⟨l, hch, hposl, hmem⟩ := hchains2 sink hsink
        have hsubverts : ∀ y ∈ l, y ∈ verts := fun y hy => hvverts2 y (hmem y hy)
        have hlen : l.length ≤ verts.length := by
          have hsp : l.Subperm verts :=
            List.Nodup.subperm (pchain_nodup hch) (fun y hy => hsubverts y hy)
          exact hsp.length_le
        have hbp := buildPath_some hch (verts.length + 1) (by omega) []
        rw [hbp] at heq
        rw [Prod.mk.injEq] at heq
        obtain ⟨h1, h2⟩ := heq
        rw [List.append_nil] at h1
        refine ⟨l, ?_, hposl, hsubverts, (Option.some.inj h1).symm⟩
        rw [← h2]
        exact hch
      | false =>
        rw [if_neg (by simp)] at heq
        obtain ⟨hsn, hclf⟩ := hff rfl
        exact ih (rest ++ new) (visited ++ new) par' p parentF
          ⟨hqnd2, hvnd2, hqv2, hvverts2, hclf, hchains2⟩ heq

/-- A failed augmenting-path search leaves a visited set that contains all
already-visited vertices, misses the sink, and is closed under
positive-residual steps. -/
theorem fapLoop_none_spec (r : ResidualG) (verts : List TKey)
    (source sink : TKey) (hverts : verts.Nodup) :
    ∀ (fuel : Nat) (queue visited : List TKey) (parent : List (TKey × TKey)),
      queue.length + unvisitedCount verts visited < fuel →
      FapInv r verts source parent queue visited →
      sink ∉ visited →
      (fapLoop r verts source sink fuel queue visited parent).1 = none →
      ∃ VF : List TKey, (∀ x ∈ visited, x ∈ VF) ∧ sink ∉ VF ∧
        ∀ u ∈ VF, ∀ v ∈ verts, 0 < r u v → v ∈ VF := by
  intro fuel
  induction fuel with
  | zero =>
    intro queue visited parent hpot _ _ _
    exact absurd hpot (Nat.not_lt_zero _)
  | succ fuel ih =>
    intro queue visited parent hpot hinv hsv heq
    cases queue with
    | nil =>
      obtain ⟨_, _, _, _, hclosed, _⟩ := hinv
      refine ⟨visited, fun x hx => hx, hsv, ?_⟩
      intro u hu v hv hr
      exact hclosed u hu (by simp) v hv hr
    | cons u rest =>
      obtain ⟨new, par', found, hscan, hqnd2, hvnd2, hqv2, hvverts2, hchains2,
        hft, hff, hpot2⟩ := fapScan_bundle r verts source sink u hverts hinv
      rw [fapLoop_unfold r verts source sink fuel u rest visited parent hscan]
        at heq
      cases found with
      | true =>
        rw [if_pos rfl] at heq
        have hsink : sink ∈ visited ++ new := hft rfl
        obtain ⟨l, hch, hposl, hmem⟩ := hchains2 sink hsink
        have hlen : l.length ≤ verts.length := by
          have hsp : l.Subperm verts :=
            List.Nodup.subperm (pchain_nodup hch)
              (fun y hy => hvverts2 y (hmem y hy))
          exact hsp.length_le
        have hbp := buildPath_some hch (verts.length + 1) (by omega) []
        rw [hbp] at heq
        have heq2 : some (l ++ []) = (none : Option (List TKey)) := heq
        exact Option.noConfusion heq2
      | false =>
        rw [if_neg (by simp)] at heq
        obtain ⟨hsn, hclf⟩ := hff rfl
        have hsv2 : sink ∉ visited ++ new := by
          intro hm
          rcases List.mem_append.mp hm with hm | hm
          · exact hsv hm
          · exact hsn hm
        have hpot3 : (rest ++ new).length
            + unvisitedCount verts (visited ++ new) < fuel := by
          rw [List.length_append]
          rw [List.length_cons] at hpot
          omega
        obtain ⟨VF, hsub, hsVF, hclVF⟩ := ih (rest ++ new) (visited ++ new) par'
          hpot3 ⟨hqnd2, hvnd2, hqv2, hvverts2, hclf, hchains2⟩ hsv2 heq
        exact ⟨VF, fun x hx => hsub x (List.mem_append_left _ hx), hsVF, hclVF⟩

theorem fapInv_init (r : ResidualG) (verts : List TKey) (source : TKey)
    (hs : source ∈ verts) : FapInv r verts source [] [source] [source] := by
  refine ⟨List.nodup_singleton _, List.nodup_singleton _, fun x hx => hx,
    ?_, ?_, ?_⟩
  · intro x hx
    rw [List.mem_singleton.mp hx]
    exact hs
  · intro x hx hq
    exact absurd hx hq
  · intro x hx
    rw [List.mem_singleton.mp hx]
    refine ⟨[source], PChain.base, ?_, fun y hy => hy⟩
    intro p hp
    simp [chainPairs] at hp

theorem findAugmentingPath_some (r : ResidualG) (verts : List TKey)
    (source sink : TKey) (hverts : verts.Nodup) (hs : source ∈ verts)
    {p : List TKey} {parentF : List (TKey × TKey)}
    (h : findAugmentingPath r verts source sink = (some p, parentF)) :
    ∃ l, PChain parentF source sink l ∧ PosOn r l ∧
      (∀ y ∈ l, y ∈ verts) ∧ p = l :=
  fapLoop_some_spec r verts source sink hverts (verts.length + 2)
    [source] [source] [] p parentF (fapInv_init r verts source hs) h

theorem findAugmentingPath_none (r : ResidualG) (verts : List TKey)
    (source sink : TKey) (hverts : verts.Nodup) (hs : source ∈ verts)
    (hss : sink ≠ source)
    (hcap : ∀ u v, 0 < r u v → v ∈ verts)
    (h : (findAugmentingPath r verts source sink).1 = none) :
    ¬ Reach r source sink := by
  have hpot0 : ([source] : List TKey).length + unvisitedCount verts [source]
      < verts.length + 2 := by
    have := unvisitedCount_le verts [source]
    simp only [List.length_singleton]
    omega
  have hsv0 : sink ∉ [source] := fun hm => hss (List.mem_singleton.mp hm)
  obtain ⟨VF, hsub, hsVF, hclVF⟩ := fapLoop_none_spec r verts source sink
    hverts (verts.length + 2) [source] [source] [] hpot0
    (fapInv_init r verts source hs) hsv0 h
  intro hreach
  exact hsVF (reach_in_closed (hsub source (List.mem_singleton.mpr rfl))
    hclVF hcap hreach)

/-! ### The flow invariant through the Edmonds-Karp loop -/

/-- Pushing the bottleneck flow along an augmenting chain preserves the
flow-loop invariant and increases the flow value by the bottleneck. -/
theorem flowInv_augment (cap0 : ResidualG) (verts : List TKey)
    (source sink : TKey) (r r' : ResidualG) (flow f : Int)
    {parent : List (TKey × TKey)} {l : List TKey}
    (hnd : verts.Nodup) (hss : source ≠ sink)
    (hch : PChain parent source sink l)
    (hlv : ∀ y ∈ l, y ∈ verts)
    (hinv : FlowInv cap0 verts source sink r flow)
    (hfpos : 0 < f)
    (hfle : ∀ p ∈ chainPairs l, f ≤ r p.1 p.2)
    (hr' : ∀ x y, r' x y = r x y
      - (if (x, y) ∈ chainPairs l then f else 0)
      + (if (y, x) ∈ chainPairs l then f else 0)) :
    FlowInv cap0 verts source sink r' (flow + f) := by
  obtain ⟨hnn, hasym, hcons, hflow, hout⟩ := hinv
  refine ⟨?_, ?_, ?_, ?_, ?_⟩
  · intro x y
    rw [hr' x y]
    by_cases h1 : (x, y) ∈ chainPairs l
    · rw [if_pos h1]
      have h2 : f ≤ r x y := hfle (x, y) h1
      by_cases h3 : (y, x) ∈ chainPairs l
      · rw [if_pos h3]
        omega
      · rw [if_neg h3]
        omega
    · rw [if_neg h1]
      have h4 := hnn x y
      by_cases h3 : (y, x) ∈ chainPairs l
      · rw [if_pos h3]
        omega
      · rw [if_neg h3]
        omega
  · intro u v
    rw [hr' u v, hr' v u]
    have := hasym u v
    omega
  · intro w hw hws hwk
    have hx : ∀ v ∈ verts, cap0 w v - r' w v
        = (cap0 w v - r w v)
          + ((if (w, v) ∈ chainPairs l then f else 0)
            - (if (v, w) ∈ chainPairs l then f else 0)) := by
      intro v _
      rw [hr' w v]
      ring
    rw [sumBy_congr hx]
    have hsplit : sumBy verts (fun v => (cap0 w v - r w v)
        + ((if (w, v) ∈ chainPairs l then f else 0)
          - (if (v, w) ∈ chainPairs l then f else 0)))
      = sumBy verts (fun v => cap0 w v - r w v)
        + (sumBy verts (fun v => if (w, v) ∈ chainPairs l then f else 0)
          - sumBy verts (fun v => if (v, w) ∈ chainPairs l then f else 0)) := by
      rw [← sumBy_sub, ← sumBy_add]
    rw [hsplit, hcons w hw hws hwk,
      pchain_telescope hch verts hnd hlv w f, if_neg hws, if_neg hwk]
    ring
  · have hx : ∀ v ∈ verts, cap0 source v - r' source v
        = (cap0 source v - r source v)
          + ((if (source, v) ∈ chainPairs l then f else 0)
            - (if (v, source) ∈ chainPairs l then f else 0)) := by
      intro v _
      rw [hr' source v]
      ring
    rw [sumBy_congr hx]
    have hsplit : sumBy verts (fun v => (cap0 source v - r source v)
        + ((if (source, v) ∈ chainPairs l then f else 0)
          - (if (v, source) ∈ chainPairs l then f else 0)))
      = sumBy verts (fun v => cap0 source v - r source v)
        + (sumBy verts (fun v => if (source, v) ∈ chainPairs l then f else 0)
          - sumBy verts (fun v => if (v, source) ∈ chainPairs l then f else 0)) := by
      rw [← sumBy_sub, ← sumBy_add]
    rw [hsplit, ← hflow, pchain_telescope hch verts hnd hlv source f,
      if_pos rfl, if_neg hss]
    ring
  · intro u v huv
    rw [hr' u v]
    have h1 : (u, v) ∉ chainPairs l := by
      intro hm
      rcases huv with h | h
      · exact h (hlv _ (chainPairs_fst_mem hm))
      · exact h (hlv _ (chainPairs_snd_mem hm))
    have h2 : (v, u) ∉ chainPairs l := by
      intro hm
      rcases huv with h | h
      · exact h (hlv _ (chainPairs_snd_mem hm))
      · exact h (hlv _ (chainPairs_fst_mem hm))
    rw [if_neg h1, if_neg h2, hout u v huv]
    ring

/-- The residual fold written as an indicator sum, for pairwise-distinct
ordered edge pairs. -/
theorem resFold_char (u v : TKey) :
    ∀ (es : List Edge) (r0 : ResidualG),
      es.Pairwise (fun e1 e2 =>
        (e1.source, e1.destination) ≠ (e2.source, e2.destination)) →
      es.foldl (fun r e => rUpdate r e.source e.destination
          (if e.weight ≤ 0 then 1 else e.weight)) r0 u v
        = (if ∃ e ∈ es, e.source = u ∧ e.destination = v then 0 else r0 u v)
          + sumBy es (fun e =>
              if e.source = u ∧ e.destination = v then goCap e else 0) := by
  intro es
  induction es with
  | nil =>
    intro r0 _
    have hne : ¬ ∃ e ∈ ([] : List Edge), e.source = u ∧ e.destination = v := by
      intro ⟨e, he, _⟩
      cases he
    rw [if_neg hne, sumBy_nil]
    show r0 u v = r0 u v + 0
    ring
  | cons e es ih =>
    intro r0 hpw
    rw [List.pairwise_cons] at hpw
    show es.foldl _ (rUpdate r0 e.source e.destination
      (if e.weight ≤ 0 then 1 else e.weight)) u v = _
    rw [ih (rUpdate r0 e.source e.destination
      (if e.weight ≤ 0 then 1 else e.weight)) hpw.2]
    by_cases hmatch : e.source = u ∧ e.destination = v
    · have hnomatch : ¬ ∃ e' ∈ es, e'.source = u ∧ e'.destination = v := by
        intro ⟨e', he', hp⟩
        exact hpw.1 e' he' (by
          rw [Prod.mk.injEq]
          exact ⟨hmatch.1.trans hp.1.symm, hmatch.2.trans hp.2.symm⟩)
      have hexists : ∃ e' ∈ e :: es, e'.source = u ∧ e'.destination = v :=
        ⟨e, List.mem_cons_self _ _, hmatch⟩
      rw [if_neg hnomatch, if_pos hexists, sumBy_cons, if_pos hmatch]
      have hupd : rUpdate r0 e.source e.destination
          (if e.weight ≤ 0 then 1 else e.weight) u v = goCap e := by
        unfold rUpdate goCap
        rw [if_pos ⟨hmatch.1.symm, hmatch.2.symm⟩]
      rw [hupd]
      ring
    · have hupd : rUpdate r0 e.source e.destination
          (if e.weight ≤ 0 then 1 else e.weight) u v = r0 u v := by
        unfold rUpdate
        rw [if_neg (fun hh => hmatch ⟨hh.1.symm, hh.2.symm⟩)]
      rw [sumBy_cons, if_neg hmatch]
      by_cases hex : ∃ e' ∈ es, e'.source = u ∧ e'.destination = v
      · obtain ⟨e', he', hp⟩ := hex
        rw [if_pos ⟨e', he', hp⟩,
          if_pos (⟨e', List.mem_cons_of_mem _ he', hp⟩ :
            ∃ e2 ∈ e :: es, e2.source = u ∧ e2.destination = v)]
        ring
      · have hex2 : ¬ ∃ e2 ∈ e :: es, e2.source = u ∧ e2.destination = v := by
          intro ⟨e2, hm, hp⟩
          rcases List.mem_cons.mp hm with he2 | hm2
          · exact hmatch (he2 ▸ hp)
          · exact hex ⟨e2, hm2, hp⟩
        rw [if_neg hex, if_neg hex2, hupd]
        ring

/-- With no two edges on the same ordered pair, `createResidualGraph` is the
indicator sum of the per-edge capacities. -/
theorem createResidualGraph_char (g : Graph)
    (hpw : g.edgeVals.Pairwise (fun e1 e2 =>
      (e1.source, e1.destination) ≠ (e2.source, e2.destination))) (u v : TKey) :
    createResidualGraph g u v
      = sumBy g.edgeVals (fun e =>
          if e.source = u ∧ e.destination = v then goCap e else 0) := by
  have h : createResidualGraph g u v
      = (if ∃ e ∈ g.edgeVals, e.source = u ∧ e.destination = v then 0
          else (fun (_ _ : TKey) => (0 : Int)) u v)
        + sumBy g.edgeVals (fun e =>
            if e.source = u ∧ e.destination = v then goCap e else 0) :=
    resFold_char u v g.edgeVals (fun _ _ => 0) hpw
  rw [h]
  have hz : ((fun (_ _ : TKey) => (0 : Int)) u v) = 0 := rfl
  by_cases hex : ∃ e ∈ g.edgeVals, e.source = u ∧ e.destination = v
  · rw [if_pos hex]
    ring
  · rw [if_neg hex, hz]
    ring

theorem goCap_pos (e : Edge) : 0 < goCap e := by
  unfold goCap
  split
  · omega
  · rename_i hw
    exact not_le.mp hw

theorem cap0_nonneg (g : Graph)
    (hpw : g.edgeVals.Pairwise (fun e1 e2 =>
      (e1.source, e1.destination) ≠ (e2.source, e2.destination))) :
    ∀ u v, 0 ≤ createResidualGraph g u v := by
  intro u v
  rw [createResidualGraph_char g hpw u v]
  calc (0 : Int) = sumBy g.edgeVals (fun _ => (0 : Int)) := (sumBy_zero _).symm
    _ ≤ sumBy g.edgeVals (fun e =>
        if e.source = u ∧ e.destination = v then goCap e else 0) := by
      refine sumBy_le _ _ _ fun e _ => ?_
      by_cases h : e.source = u ∧ e.destination = v
      · rw [if_pos h]
        exact le_of_lt (goCap_pos e)
      · rw [if_neg h]

theorem cap0_pos_mem (g : Graph)
    (hpw : g.edgeVals.Pairwise (fun e1 e2 =>
      (e1.source, e1.destination) ≠ (e2.source, e2.destination)))
    (hends : ∀ e ∈ g.edgeVals,
      e.source ∈ g.nodeKeys ∧ e.destination ∈ g.nodeKeys) :
    ∀ u v, 0 < createResidualGraph g u v →
      u ∈ g.nodeKeys ∧ v ∈ g.nodeKeys := by
  intro u v h
  rw [createResidualGraph_char g hpw u v] at h
  by_cases hex : ∃ e ∈ g.edgeVals, e.source = u ∧ e.destination = v
  · obtain ⟨e, he, hp⟩ := hex
    have hm := hends e he
    rw [← hp.1, ← hp.2]
    exact hm
  · exfalso
    rw [sumBy_eq_zero (fun e he => by
      rw [if_neg]
      intro hp
      exact hex ⟨e, he, hp⟩)] at h
    exact lt_irrefl 0 h

/-- The untouched residual table with zero flow satisfies the invariant. -/
theorem flowInv_start (g : Graph) (verts : List TKey) (source sink : TKey)
    (hpw : g.edgeVals.Pairwise (fun e1 e2 =>
      (e1.source, e1.destination) ≠ (e2.source, e2.destination))) :
    FlowInv (createResidualGraph g) verts source sink
      (createResidualGraph g) 0 := by
  refine ⟨cap0_nonneg g hpw, fun u v => rfl, ?_, ?_, fun u v _ => rfl⟩
  · intro w _ _ _
    exact sumBy_eq_zero fun v _ => by ring
  · exact (sumBy_eq_zero fun v _ => by ring).symm

/-- The source row of the capacity table is bounded by the total capacity. -/
theorem sumcap_bound (g : Graph) (verts : List TKey) (source : TKey)
    (hnd : verts.Nodup)
    (hpw : g.edgeVals.Pairwise (fun e1 e2 =>
      (e1.source, e1.destination) ≠ (e2.source, e2.destination))) :
    sumBy verts (fun v => createResidualGraph g source v)
      ≤ sumBy g.edgeVals goCap := by
  have h1 : sumBy verts (fun v => createResidualGraph g source v)
      = sumBy verts (fun v => sumBy g.edgeVals (fun e =>
          if e.source = source ∧ e.destination = v then goCap e else 0)) :=
    sumBy_congr fun v _ => createResidualGraph_char g hpw source v
  rw [h1, sumBy_comm]
  refine sumBy_le _ _ _ fun e _ => ?_
  by_cases hs : e.source = source
  · have hcongr : sumBy verts (fun v =>
        if e.source = source ∧ e.destination = v then goCap e else 0)
        = sumBy verts (fun v => if v = e.destination then goCap e else 0) :=
      sumBy_congr fun v _ => by
        by_cases hd : e.destination = v
        · rw [if_pos ⟨hs, hd⟩, if_pos hd.symm]
        · rw [if_neg (fun hh => hd hh.2), if_neg (fun hh => hd hh.symm)]
    rw [hcongr]
    by_cases hdm : e.destination ∈ verts
    · rw [sumBy_ite_eq hnd _ _ hdm]
    · rw [sumBy_ite_eq_not_mem _ _ hdm]
      exact le_of_lt (goCap_pos e)
  · rw [sumBy_eq_zero fun v _ => if_neg (fun hh => hs hh.1)]
    exact le_of_lt (goCap_pos e)

/-- The Edmonds-Karp loop preserves the flow invariant, and with fuel
exceeding the total capacity it stops only when no augmenting path is
left. -/
theorem edmondsKarpLoop_spec (g : Graph) (verts : List TKey)
    (source sink : TKey) (hverts : verts.Nodup) (hsrc : source ∈ verts)
    (hss : source ≠ sink)
    (hsumcap : sumBy verts (fun v => createResidualGraph g source v)
      ≤ sumBy g.edgeVals goCap) :
    ∀ (fuel : Nat) (st : MFState),
      FlowInv (createResidualGraph g) verts source sink st.r st.maxFlow →
      sumBy g.edgeVals goCap + 1 ≤ st.maxFlow + (fuel : Int) →
      FlowInv (createResidualGraph g) verts source sink
        (edmondsKarpLoop g verts source sink fuel st).r
        (edmondsKarpLoop g verts source sink fuel st).maxFlow ∧
      (findAugmentingPath (edmondsKarpLoop g verts source sink fuel st).r
        verts source sink).1 = none := by
  intro fuel
  induction fuel with
  | zero =>
    intro st hinv hbound
    exfalso
    obtain ⟨hnn, _, _, hflow, _⟩ := hinv
    have h1 : st.maxFlow
        ≤ sumBy verts (fun v => createResidualGraph g source v) := by
      rw [hflow]
      refine sumBy_le _ _ _ fun v _ => ?_
      have := hnn source v
      omega
    omega
  | succ fuel ih =>
    intro st hinv hbound
    rcases hfap : findAugmentingPath st.r verts source sink with ⟨_ | p, parent⟩
    · have hunf : edmondsKarpLoop g verts source sink (fuel + 1) st = st := by
        show (match findAugmentingPath st.r verts source sink with
          | (none, _) => st
          | (some _, parent) =>
            match bottleneck st.r parent source (verts.length + 2) sink
                ((2 : Int) ^ 30) with
            | none => st
            | some pathFlow =>
              match augmentWalk g parent source pathFlow (verts.length + 2)
                  sink (st.r, st.flowMap) with
              | none => st
              | some (r', fm') =>
                edmondsKarpLoop g verts source sink fuel
                  { r := r', flowMap := fm',
                    maxFlow := st.maxFlow + pathFlow }) = st
        rw [hfap]
      rw [hunf]
      refine ⟨hinv, ?_⟩
      rw [hfap]
    · obtain ⟨l, hch, hposl, hlverts, hpl⟩ :=
        findAugmentingPath_some st.r verts source sink hverts hsrc hfap
      have hlen : l.length ≤ verts.length := by
        have hsp : l.Subperm verts :=
          List.Nodup.subperm (pchain_nodup hch) (fun y hy => hlverts y hy)
        exact hsp.length_le
      obtain ⟨f, hbneq, hacc, hfall, hfcase⟩ :=
        bottleneck_spec hch st.r (verts.length + 2) (by omega) ((2 : Int) ^ 30)
      obtain ⟨r', fm', haweq, hval⟩ :=
        augmentWalk_spec g hch f (verts.length + 2) (by omega) st.r st.flowMap
      have hfpos : 0 < f := by
        rcases hfcase with hfa | ⟨pp, hpp, hfp⟩
        · rw [hfa]
          exact pow_pos (by norm_num) 30
        · rw [hfp]
          exact hposl pp hpp
      have hunf : edmondsKarpLoop g verts source sink (fuel + 1) st
          = edmondsKarpLoop g verts source sink fuel
              { r := r', flowMap := fm', maxFlow := st.maxFlow + f } := by
        show (match findAugmentingPath st.r verts source sink with
          | (none, _) => st
          | (some _, parent) =>
            match bottleneck st.r parent source (verts.length + 2) sink
                ((2 : Int) ^ 30) with
            | none => st
            | some pathFlow =>
              match augmentWalk g parent source pathFlow (verts.length + 2)
                  sink (st.r, st.flowMap) with
              | none => st
              | some (r', fm') =>
                edmondsKarpLoop g verts source sink fuel
                  { r := r', flowMap := fm',
                    maxFlow := st.maxFlow + pathFlow }) = _
        rw [hfap]
        show (match bottleneck st.r parent source (verts.length + 2) sink
            ((2 : Int) ^ 30) with
          | none => st
          | some pathFlow =>
            match augmentWalk g parent source pathFlow (verts.length + 2)
                sink (st.r, st.flowMap) with
            | none => st
            | some (r', fm') =>
              edmondsKarpLoop g verts source sink fuel
                { r := r', flowMap := fm',
                  maxFlow := st.maxFlow + pathFlow }) = _
        rw [hbneq]
        show (match augmentWalk g parent source f (verts.length + 2)
            sink (st.r, st.flowMap) with
          | none => st
          | some (r', fm') =>
            edmondsKarpLoop g verts source sink fuel
              { r := r', flowMap := fm',
                maxFlow := st.maxFlow + f }) = _
        rw [haweq]
      rw [hunf]
      have hinv2 : FlowInv (createResidualGraph g) verts source sink r'
          (st.maxFlow + f) :=
        flowInv_augment (createResidualGraph g) verts source sink st.r r'
          st.maxFlow f hverts hss hch hlverts hinv hfpos hfall hval
      have hbound2 : sumBy g.edgeVals goCap + 1
          ≤ (st.maxFlow + f) + (fuel : Int) := by
        push_cast at hbound
        omega
      exact ih { r := r', flowMap := fm', maxFlow := st.maxFlow + f }
        hinv2 hbound2

/-- Max-flow/min-cut accounting: under the flow invariant, if the residual
capacities out of a source set `S` all vanish, the flow value equals the
original capacity crossing out of `S`. -/
theorem cut_identity (cap0 : ResidualG) (verts S : List TKey)
    (source sink : TKey) (r : ResidualG) (flow : Int)
    (hinv : FlowInv cap0 verts source sink r flow)
    (hvnd : verts.Nodup) (hSnd : S.Nodup) (hsub : ∀ x ∈ S, x ∈ verts)
    (hsrcS : source ∈ S) (hsinkS : sink ∉ S)
    (hcross : ∀ u ∈ S, ∀ v ∈ verts, v ∉ S → r u v = 0) :
    flow = sumBy S (fun u => sumBy verts (fun v =>
      if v ∉ S then cap0 u v else 0)) := by
  obtain ⟨hnn, hasym, hcons, hflow, hout⟩ := hinv
  have hstep1 : sumBy S (fun w => sumBy verts (fun v => cap0 w v - r w v))
      = flow := by
    have hcongr : ∀ w ∈ S, sumBy verts (fun v => cap0 w v - r w v)
        = (if w = source then flow else 0) := by
      intro w hw
      by_cases hwsrc : w = source
      · rw [if_pos hwsrc, hwsrc, ← hflow]
      · rw [if_neg hwsrc]
        exact hcons w (hsub w hw) hwsrc (fun he => hsinkS (he ▸ hw))
    rw [sumBy_congr hcongr, sumBy_ite_eq hSnd source flow hsrcS]
  have hsplitrow : ∀ w ∈ S, sumBy verts (fun v => cap0 w v - r w v)
      = sumBy verts (fun v => if v ∈ S then cap0 w v - r w v else 0)
        + sumBy verts (fun v => if v ∉ S then cap0 w v else 0) := by
    intro w hw
    rw [← sumBy_add]
    refine sumBy_congr fun v hv => ?_
    by_cases hvS : v ∈ S
    · rw [if_pos hvS, if_neg (fun h => h hvS)]
      ring
    · rw [if_neg hvS, if_pos hvS, hcross w hw v hv hvS]
      ring
  have hS0 : sumBy S (fun w => sumBy verts
      (fun v => if v ∈ S then cap0 w v - r w v else 0)) = 0 := by
    have hinner : ∀ w ∈ S, sumBy verts
        (fun v => if v ∈ S then cap0 w v - r w v else 0)
        = sumBy S (fun v => cap0 w v - r w v) := by
      intro w _
      exact sumBy_subset hvnd hSnd (fun x hx => hsub x hx) _
    rw [sumBy_congr hinner]
    exact sumBy_antisym_zero S (fun u v => cap0 u v - r u v) (fun u v => by
      show cap0 u v - r u v + (cap0 v u - r v u) = 0
      have := hasym u v
      omega)
  have hfin : sumBy S (fun w =>
      sumBy verts (fun v => if v ∈ S then cap0 w v - r w v else 0)
        + sumBy verts (fun v => if v ∉ S then cap0 w v else 0))
      = sumBy S (fun w =>
          sumBy verts (fun v => if v ∈ S then cap0 w v - r w v else 0))
        + sumBy S (fun w =>
            sumBy verts (fun v => if v ∉ S then cap0 w v else 0)) :=
    sumBy_add S _ _
  rw [← hstep1, sumBy_congr hsplitrow, hfin, hS0]
  ring

/-- The capacity crossing out of `S`, written as a sum over the edges, for
pairwise-distinct ordered edge pairs with stored endpoints. -/
theorem cut_sum_edges (g : Graph) (verts S : List TKey)
    (hpw : g.edgeVals.Pairwise (fun e1 e2 =>
      (e1.source, e1.destination) ≠ (e2.source, e2.destination)))
    (hvnd : verts.Nodup) (hSnd : S.Nodup)
    (hends : ∀ e ∈ g.edgeVals,
      e.source ∈ verts ∧ e.destination ∈ verts) :
    sumBy S (fun u => sumBy verts (fun v =>
      if v ∉ S then createResidualGraph g u v else 0))
    = sumBy g.edgeVals (fun e =>
        if e.source ∈ S ∧ e.destination ∉ S then goCap e else 0) := by
  have hinner : ∀ u ∈ S, sumBy verts (fun v =>
      if v ∉ S then createResidualGraph g u v else 0)
      = sumBy g.edgeVals (fun e =>
          if e.source = u ∧ e.destination ∉ S then goCap e else 0) := by
    intro u _
    have h1 : sumBy verts (fun v =>
        if v ∉ S then createResidualGraph g u v else 0)
        = sumBy verts (fun v => sumBy g.edgeVals (fun e =>
            if v ∉ S ∧ e.source = u ∧ e.destination = v
            then goCap e else 0)) := by
      refine sumBy_congr fun v _ => ?_
      by_cases hvS : v ∉ S
      · rw [if_pos hvS, createResidualGraph_char g hpw u v]
        refine sumBy_congr fun e _ => ?_
        by_cases hm : e.source = u ∧ e.destination = v
        · rw [if_pos hm, if_pos ⟨hvS, hm⟩]
        · rw [if_neg hm, if_neg (fun hh => hm hh.2)]
      · rw [if_neg hvS]
        exact (sumBy_eq_zero fun e _ => by
          rw [if_neg (fun hh => hvS hh.1)]).symm
    have hcomm1 := sumBy_comm verts g.edgeVals (fun v e =>
      if v ∉ S ∧ e.source = u ∧ e.destination = v then goCap e else 0)
    rw [h1, hcomm1]
    refine sumBy_congr fun e he => ?_
    have hdv : e.destination ∈ verts := (hends e he).2
    have h2 : ∀ v ∈ verts,
        (if v ∉ S ∧ e.source = u ∧ e.destination = v then goCap e else 0)
        = (if v = e.destination
            then (if e.source = u ∧ e.destination ∉ S then goCap e else 0)
            else 0) := by
      intro v _
      by_cases hv : v = e.destination
      · rw [if_pos hv]
        by_cases hc : e.source = u ∧ e.destination ∉ S
        · rw [if_pos hc, if_pos ⟨hv.symm ▸ hc.2, hc.1, hv.symm⟩]
        · rw [if_neg hc, if_neg]
          intro ⟨ha, hb, hcc⟩
          exact hc ⟨hb, hcc.symm ▸ ha⟩
      · rw [if_neg hv, if_neg]
        intro ⟨_, _, hcc⟩
        exact hv hcc.symm
    rw [sumBy_congr h2, sumBy_ite_eq hvnd e.destination _ hdv]
  have hcomm2 := sumBy_comm S g.edgeVals (fun u e =>
    if e.source = u ∧ e.destination ∉ S then goCap e else 0)
  rw [sumBy_congr hinner, hcomm2]
  refine sumBy_congr fun e _ => ?_
  have h3 : ∀ u ∈ S, (if e.source = u ∧ e.destination ∉ S then goCap e else 0)
      = (if u = e.source
          then (if e.destination ∉ S then goCap e else 0) else 0) := by
    intro u _
    by_cases hu : u = e.source
    · rw [if_pos hu]
      by_cases hd : e.destination ∉ S
      · rw [if_pos ⟨hu.symm, hd⟩, if_pos hd]
      · rw [if_neg (fun hh => hd hh.2), if_neg hd]
    · rw [if_neg hu, if_neg (fun hh => hu hh.1.symm)]
  rw [sumBy_congr h3]
  by_cases hsrc : e.source ∈ S
  · rw [sumBy_ite_eq hSnd e.source _ hsrc]
    by_cases hd : e.destination ∉ S
    · rw [if_pos hd, if_pos ⟨hsrc, hd⟩]
    · rw [if_neg hd, if_neg (fun hh => hd hh.2)]
  · rw [sumBy_ite_eq_not_mem e.source _ hsrc, if_neg (fun hh => hsrc hh.1)]

/-- **C2 (counterexample).**  The claim quantifies over every graph, but on
a multigraph with two parallel edges on the same ordered pair (weights 3 and
5) `FindMaxFlow` computes max flow 5 — the residual table keeps only the
last parallel edge's capacity — while the capacities of the edges crossing
the returned min cut sum to 8, so the claimed equality fails. -/
theorem C2_maxflow_multigraph_counterexample :
    ∃ res : MaxFlowResult, findMaxFlow multiFlowGraph 1 2 = .ok res ∧
      res.maxFlowValue ≠ sumBy multiFlowGraph.edgeVals (fun e =>
        if e.source ∈ res.minCut ∧ e.destination ∉ res.minCut
        then goCap e else 0) :=
  ⟨_, rfl, by decide⟩

/-- **C2 (amended).**  For every graph whose node store is non-nil, whose
node keys are duplicate-free, whose edges join stored nodes, and in which no
two edges share the same ordered (source, destination) pair, and for every
pair of existing, distinct source and sink keys, `FindMaxFlow` succeeds and
the returned `MaxFlowValue` equals the sum of the capacities (original edge
weights, with non-positive weights defaulted to 1) of the edges crossing
from the returned `MinCut` vertex set to its complement. -/
theorem C2_maxflow_mincut (g : Graph) (source sink : TKey)
    (hn : g.nodes ≠ none)
    (hsrcL : mapLookup g.nodesL source ≠ none)
    (hsinkL : mapLookup g.nodesL sink ≠ none)
    (hss : source ≠ sink)
    (hnd : g.nodeKeys.Nodup)
    (hends : ∀ e ∈ g.edgeVals,
      e.source ∈ g.nodeKeys ∧ e.destination ∈ g.nodeKeys)
    (hpw : g.edgeVals.Pairwise (fun e1 e2 =>
      (e1.source, e1.destination) ≠ (e2.source, e2.destination))) :
    ∃ res : MaxFlowResult, findMaxFlow g source sink = .ok res ∧
      res.maxFlowValue = sumBy g.edgeVals (fun e =>
        if e.source ∈ res.minCut ∧ e.destination ∉ res.minCut
        then goCap e else 0) := by
  obtain ⟨ns, hns⟩ := Option.ne_none_iff_exists'.mp hn
  cases hgs : g.getNodeByKey source with
  | error err =>
    exact absurd ((getNodeByKey_error_iff g source).mp ⟨err, hgs⟩) hsrcL
  | ok nsrc =>
  cases hgk : g.getNodeByKey sink with
  | error err =>
    exact absurd ((getNodeByKey_error_iff g sink).mp ⟨err, hgk⟩) hsinkL
  | ok nsink =>
  have hsrck : source ∈ g.nodeKeys := by
    obtain ⟨v, hv⟩ := Option.ne_none_iff_exists'.mp hsrcL
    exact List.mem_map.mpr ⟨(source, v), mapLookup_mem _ _ _ hv, rfl⟩
  set F := edmondsKarpLoop g g.nodeKeys source sink (mfFuel g)
    { r := createResidualGraph g, flowMap := flowMapInit g.nodeKeys,
      maxFlow := 0 } with hFdef
  refine ⟨{ maxFlowValue := F.maxFlow, source := source, sink := sink,
            flowEdges := buildFlowEdges g F.flowMap,
            minCut := findMinCut F.r g.nodeKeys source,
            message := "Maximum flow from " ++ toString source ++ " to "
              ++ toString sink ++ " is " ++ toString F.maxFlow }, ?_, ?_⟩
  · simp only [findMaxFlow, hns, hgs, hgk, if_neg hss, hFdef]
  · have hinv0 := flowInv_start g g.nodeKeys source sink hpw
    have hsumcap := sumcap_bound g g.nodeKeys source hnd hpw
    have hcapnn : (0 : Int) ≤ sumBy g.edgeVals goCap := by
      calc (0 : Int) = sumBy g.edgeVals (fun _ => (0 : Int)) :=
            (sumBy_zero _).symm
        _ ≤ sumBy g.edgeVals goCap :=
            sumBy_le _ _ _ fun e _ => le_of_lt (goCap_pos e)
    have hbound0 : sumBy g.edgeVals goCap + 1
        ≤ (0 : Int) + ((mfFuel g : Nat) : Int) := by
      have hmf : mfFuel g = (sumBy g.edgeVals goCap).toNat + 2 := rfl
      rw [hmf]
      push_cast
      omega
    obtain ⟨hinvF, hnoneF⟩ := edmondsKarpLoop_spec g g.nodeKeys source sink
      hnd hsrck hss hsumcap (mfFuel g)
      { r := createResidualGraph g, flowMap := flowMapInit g.nodeKeys,
        maxFlow := 0 } hinv0 hbound0
    rw [← hFdef] at hinvF hnoneF
    obtain ⟨hsrcS, hSsub, hSnd, hSreach, hScl⟩ :=
      findMinCut_spec F.r g.nodeKeys source hnd hsrck
    have hcapr : ∀ u v, 0 < F.r u v → v ∈ g.nodeKeys := by
      intro u v h
      by_cases hv : v ∈ g.nodeKeys
      · exact hv
      · exfalso
        have hrw := hinvF.2.2.2.2 u v (Or.inr hv)
        rw [hrw] at h
        exact hv (cap0_pos_mem g hpw hends u v h).2
    have hsinkS : sink ∉ findMinCut F.r g.nodeKeys source := by
      intro hm
      exact findAugmentingPath_none F.r g.nodeKeys source sink hnd hsrck
        (Ne.symm hss) hcapr hnoneF (hSreach sink hm)
    have hcross : ∀ u ∈ findMinCut F.r g.nodeKeys source, ∀ v ∈ g.nodeKeys,
        v ∉ findMinCut F.r g.nodeKeys source → F.r u v = 0 := by
      intro u hu v hv hvS
      have h0 := hinvF.1 u v
      by_cases hpos2 : 0 < F.r u v
      · exact absurd (hScl u hu v hv hpos2) hvS
      · omega
    have hcut := cut_identity (createResidualGraph g) g.nodeKeys
      (findMinCut F.r g.nodeKeys source) source sink F.r F.maxFlow hinvF
      hnd hSnd hSsub hsrcS hsinkS hcross
    have hedges := cut_sum_edges g g.nodeKeys
      (findMinCut F.r g.nodeKeys source) hpw hnd hSnd hends
    show F.maxFlow = sumBy g.edgeVals (fun e =>
      if e.source ∈ findMinCut F.r g.nodeKeys source ∧
          e.destination ∉ findMinCut F.r g.nodeKeys source
      then goCap e else 0)
    rw [hcut, hedges]

/-- **C2 (witness).**  The 4-node diamond source→{2,3}→sink with all
capacities 10 satisfies the amended hypotheses; its max flow equals the
crossing capacity of the returned min cut, and that flow is 20. -/
theorem C2_maxflow_mincut_witness :
    (∃ res : MaxFlowResult, findMaxFlow diamondGraph 1 4 = .ok res ∧
      res.maxFlowValue = sumBy diamondGraph.edgeVals (fun e =>
        if e.source ∈ res.minCut ∧ e.destination ∉ res.minCut
        then goCap e else 0)) ∧
    (∃ res : MaxFlowResult, findMaxFlow diamondGraph 1 4 = .ok res ∧
      res.maxFlowValue = 20) :=
  ⟨C2_maxflow_mincut diamondGraph 1 4 (by decide) (by decide) (by decide)
    (by decide) (by decide) (by decide) (by decide),
   ⟨_, rfl, by decide⟩⟩

/-! ### C9: the copy shares no mutable storage -/

theorem heapExtends_refl (h : Heap) : HeapExtends h h :=
  ⟨⟨[], by simp, fun p hp => absurd hp (List.not_mem_nil p)⟩,
   ⟨[], by simp, fun p hp => absurd hp (List.not_mem_nil p)⟩,
   le_refl _⟩

theorem heapExtends_trans {h1 h2 h3 : Heap} (a : HeapExtends h1 h2)
    (b : HeapExtends h2 h3) : HeapExtends h1 h3 := by
  obtain ⟨⟨eN1, hN1, bN1⟩, ⟨eE1, hE1, bE1⟩, hle1⟩ := a
  obtain ⟨⟨eN2, hN2, bN2⟩, ⟨eE2, hE2, bE2⟩, hle2⟩ := b
  refine ⟨⟨eN1 ++ eN2, ?_, ?_⟩, ⟨eE1 ++ eE2, ?_, ?_⟩, le_trans hle1 hle2⟩
  · rw [hN2, hN1, List.append_assoc]
  · intro p hp
    rcases List.mem_append.mp hp with hp | hp
    · exact bN1 p hp
    · exact le_trans hle1 (bN2 p hp)
  · rw [hE2, hE1, List.append_assoc]
  · intro p hp
    rcases List.mem_append.mp hp with hp | hp
    · exact bE1 p hp
    · exact le_trans hle1 (bE2 p hp)

theorem allocNode_extends (h : Heap) (nd : Node) :
    HeapExtends h (allocNode h nd).2 :=
  ⟨⟨[(h.next, nd)], rfl, fun p hp => by
      rw [List.mem_singleton.mp hp]⟩,
   ⟨[], by simp [allocNode], fun p hp => absurd hp (List.not_mem_nil p)⟩,
   Nat.le_succ _⟩

theorem allocEdge_extends (h : Heap) (e : Edge) :
    HeapExtends h (allocEdge h e).2 :=
  ⟨⟨[], by simp [allocEdge], fun p hp => absurd hp (List.not_mem_nil p)⟩,
   ⟨[(h.next, e)], rfl, fun p hp => by
      rw [List.mem_singleton.mp hp]⟩,
   Nat.le_succ _⟩

/-- Any fold whose step only extends the heap extends the heap. -/
theorem foldl_heap_extends {σ α : Type} (proj : σ → Heap)
    (step : σ → α → σ)
    (hstep : ∀ st x, HeapExtends (proj st) (proj (step st x))) :
    ∀ (l : List α) (st : σ),
      HeapExtends (proj st) (proj (l.foldl step st)) := by
  intro l
  induction l with
  | nil => intro st; exact heapExtends_refl _
  | cons x xs ih =>
    intro st
    exact heapExtends_trans (hstep st x) (ih (step st x))

theorem mapLookup_below_none {l : List (Addr × α)} {b a : Addr}
    (hb : ∀ p ∈ l, b ≤ p.1) (ha : a < b) : mapLookup l a = none := by
  induction l with
  | nil => rfl
  | cons p rest ih =>
    show (if p.1 = a then some p.2 else mapLookup rest a) = none
    rw [if_neg, ih (fun q hq => hb q (List.mem_cons_of_mem p hq))]
    intro he
    have h2 := hb p (List.mem_cons_self p rest)
    rw [he] at h2
    exact absurd ha (not_lt.mpr h2)

/-- Reading an already-allocated address ignores freshly appended cells. -/
theorem mapLookup_append_ext {cells ext : List (Addr × α)} {b a : Addr}
    (hb : ∀ p ∈ ext, b ≤ p.1) (ha : a < b) :
    mapLookup (cells ++ ext) a = mapLookup cells a := by
  induction cells with
  | nil =>
    show mapLookup ext a = none
    exact mapLookup_below_none hb ha
  | cons p rest ih =>
    show (if p.1 = a then some p.2 else mapLookup (rest ++ ext) a)
      = (if p.1 = a then some p.2 else mapLookup rest a)
    by_cases hp : p.1 = a
    · rw [if_pos hp, if_pos hp]
    · rw [if_neg hp, if_neg hp, ih]

theorem listMap_congr {l : List α} {f f2 : α → β}
    (h : ∀ x ∈ l, f x = f2 x) : l.map f = l.map f2 := by
  induction l with
  | nil => rfl
  | cons x xs ih =>
    show f x :: xs.map f = f2 x :: xs.map f2
    rw [h x (List.mem_cons_self x xs),
      ih fun y hy => h y (List.mem_cons_of_mem x hy)]

/-- A heap extension changes nothing a graph with allocated addresses can
observe. -/
theorem observe_extends (g : PGraph) {h h' : Heap}
    (hext : HeapExtends h h') (hbelow : AddrsBelow g h) :
    observe g h' = observe g h := by
  obtain ⟨⟨extN, heN, hbN⟩, ⟨extE, heE, hbE⟩, _⟩ := hext
  have h1 : pNodeValsObs g h' = pNodeValsObs g h := by
    unfold pNodeValsObs
    refine listMap_congr fun p hp => ?_
    have hlt : p.2 < h.next := hbelow p.2
      (List.mem_append_left _ (List.mem_map_of_mem Prod.snd hp))
    rw [heN, mapLookup_append_ext hbN hlt]
  have h2 : pEdgeValsObs g h' = pEdgeValsObs g h := by
    unfold pEdgeValsObs
    refine listMap_congr fun p hp => ?_
    have hlt : p.2 < h.next := hbelow p.2
      (List.mem_append_right _ (List.mem_map_of_mem Prod.snd hp))
    rw [heE, mapLookup_append_ext hbE hlt]
  unfold observe
  rw [h1, h2]

theorem pRebuildEdges_extends (g : PGraph) (h : Heap) :
    HeapExtends h (pRebuildEdges g h).2 := by
  have hgen := foldl_heap_extends PRebuildState.heap
    (fun (st : PRebuildState) e =>
      let id := edgeID g.options.isDirected e.source e.destination
      if !g.options.isMulti && st.seen.contains id then st
      else
        let seen' := if g.options.isMulti then st.seen else st.seen ++ [id]
        if e.key = 0 || st.used.contains e.key then
          let k := nextFreeKey st.used st.counter (st.used.length + 1)
          let ah := allocEdge st.heap { e with key := k }
          { newEdges := mapInsert st.newEdges k ah.1
            used := st.used ++ [k]
            counter := k + 1
            seen := seen'
            heap := ah.2 }
        else
          let ah := allocEdge st.heap e
          { newEdges := mapInsert st.newEdges e.key ah.1
            used := st.used ++ [e.key]
            counter := st.counter
            seen := seen'
            heap := ah.2 })
    (by
      intro st e
      dsimp only
      split
      · exact heapExtends_refl _
      · split
        · exact allocEdge_extends st.heap _
        · exact allocEdge_extends st.heap _)
    (pEdgeVals g h)
    { newEdges := [], used := [], counter := 1, seen := [], heap := h }
  exact hgen

theorem pCopyNodes_extends (src : List (TKey × Addr)) (h0 : Heap) :
    HeapExtends h0 (pCopyNodes src h0).2 := by
  have hgen := foldl_heap_extends
    (fun (st : List (TKey × Addr) × Heap) => st.2)
    (fun (acc : List (TKey × Addr) × Heap) p =>
      match mapLookup acc.2.nodeCells p.2 with
      | some nd =>
        let ah := allocNode acc.2 { key := nd.key, label := nd.label }
        (mapInsert acc.1 p.1 ah.1, ah.2)
      | none => acc)
    (by
      intro st p
      dsimp only
      cases hlk : mapLookup st.2.nodeCells p.2 with
      | none => exact heapExtends_refl _
      | some nd => exact allocNode_extends st.2 _)
    src ([], h0)
  exact hgen

theorem pCopyEdges_extends (src : List (TKey × Addr)) (h0 : Heap) :
    HeapExtends h0 (pCopyEdges src h0).2 := by
  have hgen := foldl_heap_extends
    (fun (st : List (TKey × Addr) × Heap) => st.2)
    (fun (acc : List (TKey × Addr) × Heap) p =>
      match mapLookup acc.2.edgeCells p.2 with
      | some e =>
        let ah := allocEdge acc.2
          { key := e.key, source := e.source, destination := e.destination,
            weight := e.weight, label := e.label }
        (mapInsert acc.1 p.1 ah.1, ah.2)
      | none => acc)
    (by
      intro st p
      dsimp only
      cases hlk : mapLookup st.2.edgeCells p.2 with
      | none => exact heapExtends_refl _
      | some e => exact allocEdge_extends st.2 _)
    src ([], h0)
  exact hgen

theorem pCopy_extends (g : PGraph) (h : Heap) :
    HeapExtends h (pCopy g h).2 :=
  heapExtends_trans (pCopyNodes_extends g.nodes h)
    (pCopyEdges_extends g.edges (pCopyNodes g.nodes h).2)

/-- Every mutation only extends the heap: no existing cell is ever
written. -/
theorem applyMutation_extends (m : Mutation) (g : PGraph) (h : Heap) :
    HeapExtends h (applyMutation m g h).2 := by
  cases m with
  | addNode nd => exact allocNode_extends h nd
  | addEdge e => exact allocEdge_extends h e
  | removeNode k => exact heapExtends_refl h
  | removeEdge k => exact heapExtends_refl h
  | update opts =>
    show HeapExtends h (pUpdateGraph g h opts).2
    by_cases hc : g.options
        = (List.foldl (fun x opt => opt x) g opts).options
    · have key : (pUpdateGraph g h opts).2 = h := by
        show ((if g.options
              = (List.foldl (fun x opt => opt x) g opts).options
            then ((List.foldl (fun x opt => opt x) g opts, h) : PGraph × Heap)
            else
              (pRebuildAdjacencyMap
                  (pRebuildEdges (List.foldl (fun x opt => opt x) g opts) h).1
                  (pRebuildEdges (List.foldl (fun x opt => opt x) g opts) h).2,
                (pRebuildEdges
                  (List.foldl (fun x opt => opt x) g opts) h).2))).2 = h
        rw [if_pos hc]
      rw [key]
      exact heapExtends_refl h
    · have key : (pUpdateGraph g h opts).2
          = (pRebuildEdges (List.foldl (fun x opt => opt x) g opts) h).2 := by
        show ((if g.options
              = (List.foldl (fun x opt => opt x) g opts).options
            then ((List.foldl (fun x opt => opt x) g opts, h) : PGraph × Heap)
            else
              (pRebuildAdjacencyMap
                  (pRebuildEdges (List.foldl (fun x opt => opt x) g opts) h).1
                  (pRebuildEdges (List.foldl (fun x opt => opt x) g opts) h).2,
                (pRebuildEdges
                  (List.foldl (fun x opt => opt x) g opts) h).2))).2 = _
        rw [if_neg hc]
      rw [key]
      exact pRebuildEdges_extends _ h

theorem mapInsert_mem_imp {m : List (TKey × α)} {k : TKey} {v : α}
    {p : TKey × α} (hp : p ∈ mapInsert m k v) : p = (k, v) ∨ p ∈ m := by
  induction m with
  | nil =>
    rcases List.mem_singleton.mp hp with h
    exact Or.inl h
  | cons q rest ih =>
    show p = (k, v) ∨ p ∈ q :: rest
    by_cases hq : q.1 = k
    · have hp2 : p ∈ (k, v) :: rest := by
        have : mapInsert (q :: rest) k v = (k, v) :: rest := by
          show (if q.1 = k then (k, v) :: rest else q :: mapInsert rest k v) = _
          rw [if_pos hq]
        rw [this] at hp
        exact hp
      rcases List.mem_cons.mp hp2 with he | hm
      · exact Or.inl he
      · exact Or.inr (List.mem_cons_of_mem q hm)
    · have hp2 : p ∈ q :: mapInsert rest k v := by
        have : mapInsert (q :: rest) k v = q :: mapInsert rest k v := by
          show (if q.1 = k then (k, v) :: rest else q :: mapInsert rest k v) = _
          rw [if_neg hq]
        rw [this] at hp
        exact hp
      rcases List.mem_cons.mp hp2 with he | hm
      · exact Or.inr (he ▸ List.mem_cons_self q rest)
      · rcases ih hm with he | hm2
        · exact Or.inl he
        · exact Or.inr (List.mem_cons_of_mem q hm2)

/-- The node-copy loop assigns only freshly allocated addresses. -/
theorem pCopyNodesGo_fresh (N : Addr) :
    ∀ (src m0 : List (TKey × Addr)) (h0 : Heap),
      (∀ p ∈ m0, N ≤ p.2) → N ≤ h0.next →
      (∀ p ∈ (src.foldl
        (fun (acc : List (TKey × Addr) × Heap) p =>
          match mapLookup acc.2.nodeCells p.2 with
          | some nd =>
            let ah := allocNode acc.2 { key := nd.key, label := nd.label }
            (mapInsert acc.1 p.1 ah.1, ah.2)
          | none => acc) (m0, h0)).1, N ≤ p.2) := by
  intro src
  induction src with
  | nil =>
    intro m0 h0 hm0 _
    exact hm0
  | cons p src ih =>
    intro m0 h0 hm0 hnext
    cases hlk : mapLookup h0.nodeCells p.2 with
    | none =>
      have key : List.foldl
          (fun (acc : List (TKey × Addr) × Heap) p =>
            match mapLookup acc.2.nodeCells p.2 with
            | some nd =>
              let ah := allocNode acc.2 { key := nd.key, label := nd.label }
              (mapInsert acc.1 p.1 ah.1, ah.2)
            | none => acc) (m0, h0) (p :: src)
        = List.foldl
          (fun (acc : List (TKey × Addr) × Heap) p =>
            match mapLookup acc.2.nodeCells p.2 with
            | some nd =>
              let ah := allocNode acc.2 { key := nd.key, label := nd.label }
              (mapInsert acc.1 p.1 ah.1, ah.2)
            | none => acc) (m0, h0) src := by
        show List.foldl _
          (match mapLookup h0.nodeCells p.2 with
            | some nd =>
              ((mapInsert m0 p.1
                  (allocNode h0 { key := nd.key, label := nd.label }).1,
                (allocNode h0 { key := nd.key, label := nd.label }).2) :
                List (TKey × Addr) × Heap)
            | none => (m0, h0)) src = _
        rw [hlk]
      rw [key]
      exact ih m0 h0 hm0 hnext
    | some nd =>
      have key : List.foldl
          (fun (acc : List (TKey × Addr) × Heap) p =>
            match mapLookup acc.2.nodeCells p.2 with
            | some nd =>
              let ah := allocNode acc.2 { key := nd.key, label := nd.label }
              (mapInsert acc.1 p.1 ah.1, ah.2)
            | none => acc) (m0, h0) (p :: src)
        = List.foldl
          (fun (acc : List (TKey × Addr) × Heap) p =>
            match mapLookup acc.2.nodeCells p.2 with
            | some nd =>
              let ah := allocNode acc.2 { key := nd.key, label := nd.label }
              (mapInsert acc.1 p.1 ah.1, ah.2)
            | none => acc)
          (mapInsert m0 p.1
              (allocNode h0 { key := nd.key, label := nd.label }).1,
            (allocNode h0 { key := nd.key, label := nd.label }).2) src := by
        show List.foldl _
          (match mapLookup h0.nodeCells p.2 with
            | some nd =>
              ((mapInsert m0 p.1
                  (allocNode h0 { key := nd.key, label := nd.label }).1,
                (allocNode h0 { key := nd.key, label := nd.label }).2) :
                List (TKey × Addr) × Heap)
            | none => (m0, h0)) src = _
        rw [hlk]
      rw [key]
      refine ih _ _ ?_ ?_
      · intro q hq
        rcases mapInsert_mem_imp hq with he | hm
        · rw [he]
          exact hnext
        · exact hm0 q hm
      · exact le_trans hnext (Nat.le_succ _)

/-- The edge-copy loop assigns only freshly allocated addresses. -/
theorem pCopyEdgesGo_fresh (N : Addr) :
    ∀ (src m0 : List (TKey × Addr)) (h0 : Heap),
      (∀ p ∈ m0, N ≤ p.2) → N ≤ h0.next →
      (∀ p ∈ (src.foldl
        (fun (acc : List (TKey × Addr) × Heap) p =>
          match mapLookup acc.2.edgeCells p.2 with
          | some e =>
            let ah := allocEdge acc.2
              { key := e.key, source := e.source,
                destination := e.destination, weight := e.weight,
                label := e.label }
            (mapInsert acc.1 p.1 ah.1, ah.2)
          | none => acc) (m0, h0)).1, N ≤ p.2) := by
  intro src
  induction src with
  | nil =>
    intro m0 h0 hm0 _
    exact hm0
  | cons p src ih =>
    intro m0 h0 hm0 hnext
    cases hlk : mapLookup h0.edgeCells p.2 with
    | none =>
      have key : List.foldl
          (fun (acc : List (TKey × Addr) × Heap) p =>
            match mapLookup acc.2.edgeCells p.2 with
            | some e =>
              let ah := allocEdge acc.2
                { key := e.key, source := e.source,
                  destination := e.destination, weight := e.weight,
                  label := e.label }
              (mapInsert acc.1 p.1 ah.1, ah.2)
            | none => acc) (m0, h0) (p :: src)
        = List.foldl
          (fun (acc : List (TKey × Addr) × Heap) p =>
            match mapLookup acc.2.edgeCells p.2 with
            | some e =>
              let ah := allocEdge acc.2
                { key := e.key, source := e.source,
                  destination := e.destination, weight := e.weight,
                  label := e.label }
              (mapInsert acc.1 p.1 ah.1, ah.2)
            | none => acc) (m0, h0) src := by
        show List.foldl _
          (match mapLookup h0.edgeCells p.2 with
            | some e =>
              ((mapInsert m0 p.1
                  (allocEdge h0
                    { key := e.key, source := e.source,
                      destination := e.destination, weight := e.weight,
                      label := e.label }).1,
                (allocEdge h0
                  { key := e.key, source := e.source,
                    destination := e.destination, weight := e.weight,
                    label := e.label }).2) : List (TKey × Addr) × Heap)
            | none => (m0, h0)) src = _
        rw [hlk]
      rw [key]
      exact ih m0 h0 hm0 hnext
    | some e =>
      have key : List.foldl
          (fun (acc : List (TKey × Addr) × Heap) p =>
            match mapLookup acc.2.edgeCells p.2 with
            | some e =>
              let ah := allocEdge acc.2
                { key := e.key, source := e.source,
                  destination := e.destination, weight := e.weight,
                  label := e.label }
              (mapInsert acc.1 p.1 ah.1, ah.2)
            | none => acc) (m0, h0) (p :: src)
        = List.foldl
          (fun (acc : List (TKey × Addr) × Heap) p =>
            match mapLookup acc.2.edgeCells p.2 with
            | some e =>
              let ah := allocEdge acc.2
                { key := e.key, source := e.source,
                  destination := e.destination, weight := e.weight,
                  label := e.label }
              (mapInsert acc.1 p.1 ah.1, ah.2)
            | none => acc)
          (mapInsert m0 p.1
              (allocEdge h0
                { key := e.key, source := e.source,
                  destination := e.destination, weight := e.weight,
                  label := e.label }).1,
            (allocEdge h0
              { key := e.key, source := e.source,
                destination := e.destination, weight := e.weight,
                label := e.label }).2) src := by
        show List.foldl _
          (match mapLookup h0.edgeCells p.2 with
            | some e =>
              ((mapInsert m0 p.1
                  (allocEdge h0
                    { key := e.key, source := e.source,
                      destination := e.destination, weight := e.weight,
                      label := e.label }).1,
                (allocEdge h0
                  { key := e.key, source := e.source,
                    destination := e.destination, weight := e.weight,
                    label := e.label }).2) : List (TKey × Addr) × Heap)
            | none => (m0, h0)) src = _
        rw [hlk]
      rw [key]
      refine ih _ _ ?_ ?_
      · intro q hq
        rcases mapInsert_mem_imp hq with he | hm
        · rw [he]
          exact hnext
        · exact hm0 q hm
      · exact le_trans hnext (Nat.le_succ _)

/-- Every address the copy holds is freshly allocated. -/
theorem pCopy_fresh (g : PGraph) (h : Heap) :
    ∀ a ∈ PGraph.addrs (pCopy g h).1, h.next ≤ a := by
  intro a ha
  rcases List.mem_append.mp ha with hm | hm
  · obtain ⟨p, hp, he⟩ := List.mem_map.mp hm
    rw [← he]
    exact pCopyNodesGo_fresh h.next g.nodes [] h
      (fun q hq => absurd hq (List.not_mem_nil q)) (le_refl _) p hp
  · obtain ⟨p, hp, he⟩ := List.mem_map.mp hm
    rw [← he]
    have hnext1 : h.next ≤ (pCopyNodes g.nodes h).2.next :=
      (pCopyNodes_extends g.nodes h).2.2
    exact pCopyEdgesGo_fresh h.next g.edges [] (pCopyNodes g.nodes h).2
      (fun q hq => absurd hq (List.not_mem_nil q)) hnext1 p hp

/-- **C9.**  For every graph `g`, every heap `h` whose allocation bound
covers `g`'s pointers, and every mutation — adding or removing a node or an
edge, or updating options — applied to the graph returned by `Copy`:
everything observable of `g` (its node store with the node values its
pointers reach, its edge store with the edge values its pointers reach, and
its adjacency map) is unchanged, and the copy holds no address of `g`: the
copy shares no mutable node, edge or adjacency storage with the
original. -/
theorem C9_copy_shares_no_mutable_storage (g : PGraph) (h : Heap)
    (m : Mutation) (hbelow : AddrsBelow g h) :
    observe g (applyMutation m (pCopy g h).1 (pCopy g h).2).2 = observe g h ∧
    ∀ a ∈ PGraph.addrs (pCopy g h).1, a ∉ PGraph.addrs g := by
  have hext := heapExtends_trans (pCopy_extends g h)
    (applyMutation_extends m (pCopy g h).1 (pCopy g h).2)
  refine ⟨observe_extends g hext hbelow, ?_⟩
  intro a ha hmem
  have h1 := pCopy_fresh g h a ha
  have h2 := hbelow a hmem
  exact absurd h2 (not_lt.mpr h1)

/-- **C9 (witness).**  A concrete two-node, one-edge graph with its heap:
removing node 1 from the copy leaves every observation of the original
unchanged, and the copy's addresses are disjoint from the original's. -/
theorem C9_copy_shares_no_mutable_storage_witness :
    AddrsBelow c9PGraph c9Heap ∧
    (observe c9PGraph (applyMutation (Mutation.removeNode 1)
        (pCopy c9PGraph c9Heap).1 (pCopy c9PGraph c9Heap).2).2
      = observe c9PGraph c9Heap ∧
    ∀ a ∈ PGraph.addrs (pCopy c9PGraph c9Heap).1,
      a ∉ PGraph.addrs c9PGraph) :=
  ⟨by decide,
   C9_copy_shares_no_mutable_storage c9PGraph c9Heap
     (Mutation.removeNode 1) (by decide)⟩

end GraphGo
